import Mathlib

/-!
Lottie-godot: frame cache and state machine.

A shallow embedding of `src/lottie_frame_cache.{h,cpp}` and of
`src/lottie_state_machine.{h,cpp}`, followed by the properties proved about them.

Conventions of the embedding.

* `size_t` values are natural numbers below `SIZE_MOD = 2 ^ 64`; every `+=` and `-=` on a
  `size_t` is written with its wrap-around (`size_add`, `size_sub`).
* `Ref<T>` is `Option T`: `none` is the null reference.
* `std::unordered_map<Key, Entry>` is an association list searched with the structural
  equality of `Key::operator==`; the hash function plays no part in what the map returns.
* `std::list<Key> _lru` is a `List Key`, front first.  The iterator `Entry::lru_it` always
  designates the node of `_lru` that carries the entry's own key, so `_lru.erase(lru_it)`
  is the removal of that key's node and the iterator is not stored.
-/

/-! ## Frame cache: data model -/

/-- The modulus of `size_t` arithmetic. -/
def SIZE_MOD : Nat := 2 ^ 64

/-- The statement `a += b` on `size_t`. -/
def size_add (a b : Nat) : Nat := (a + b) % SIZE_MOD

/-- The statement `a -= b` on `size_t`. -/
def size_sub (a b : Nat) : Nat := (a + (SIZE_MOD - b % SIZE_MOD)) % SIZE_MOD

/-- Godot's `Vector2i`. -/
structure Vector2i where
  x : Int
  y : Int
deriving DecidableEq, Repr

/-- The handle `Ref<ImageTexture>`: `none` is the null reference, `some i` refers to the
texture object `i`. -/
abbrev TexRef := Option Nat

/-- The struct `LottieFrameCache::Key`; `operator==` compares the four fields. -/
structure LottieFrameCache.Key where
  anim : String
  frame : Int
  w : Int
  h : Int
deriving DecidableEq, Repr

/-- The struct `LottieFrameCache::Entry` (without the iterator, see the header comment). -/
structure LottieFrameCache.Entry where
  tex : TexRef
  bytes : Nat
deriving DecidableEq, Repr

/-- The data members of class `LottieFrameCache`. -/
structure LottieFrameCache where
  _map : List (LottieFrameCache.Key × LottieFrameCache.Entry)
  _lru : List LottieFrameCache.Key
  _capacity : Nat
  _used : Nat
deriving DecidableEq, Repr

namespace LottieFrameCache

/-- The call `_map.find(key)`: the entry stored under `key`, if any. -/
def map_find : List (Key × Entry) → Key → Option Entry
  | [], _ => none
  | (k, e) :: m, key => if k = key then some e else map_find m key

/-- The call `_map.erase(it)` for the iterator of `key`. -/
def map_erase (m : List (Key × Entry)) (key : Key) : List (Key × Entry) :=
  m.filter (fun p => decide (p.1 ≠ key))

/-- Assignment through the iterator of `key`: `it->second = e`. -/
def map_assign (m : List (Key × Entry)) (key : Key) (e : Entry) : List (Key × Entry) :=
  m.map (fun p => if p.1 = key then (p.1, e) else p)

/-- The call `_map.emplace(key, e)`: inserts only when `key` is not yet present. -/
def map_emplace (m : List (Key × Entry)) (key : Key) (e : Entry) : List (Key × Entry) :=
  match map_find m key with
  | some _ => m
  | none => (key, e) :: m

/-- A freshly constructed cache: no entry, capacity 256 MiB. -/
def empty : LottieFrameCache :=
  { _map := [], _lru := [], _capacity := 256 * 1024 * 1024, _used := 0 }

/-- The method `_touch`: moves the node of `key` to the front of `_lru`. -/
def _touch (c : LottieFrameCache) (key : Key) : LottieFrameCache :=
  match map_find c._map key with
  | none => c
  | some _ => { c with _lru := key :: c._lru.erase key }

/-- One iteration of the loop of `_evict_if_needed`: drops the entry of `_lru.back()`. -/
def evict_step (c : LottieFrameCache) : LottieFrameCache :=
  match c._lru.getLast? with
  | none => c
  | some old =>
    let c1 : LottieFrameCache :=
      match map_find c._map old with
      | some e => { c with _used := size_sub c._used e.bytes, _map := map_erase c._map old }
      | none => c
    { c1 with _lru := c1._lru.dropLast }

/-- The loop `while (_used > _capacity && !_lru.empty())`, run for at most `fuel`
iterations. -/
def evict_loop : Nat → LottieFrameCache → LottieFrameCache
  | 0, c => c
  | fuel + 1, c =>
    if c._used > c._capacity ∧ c._lru ≠ [] then evict_loop fuel (evict_step c) else c

/-- The method `_evict_if_needed`.  Every iteration removes one node of `_lru`, so
`_lru.length` iterations are enough for the loop condition to fail
(`evict_loop_exit`). -/
def _evict_if_needed (c : LottieFrameCache) : LottieFrameCache :=
  evict_loop c._lru.length c

/-- The method `get`: the new cache and the returned handle. -/
def get (c : LottieFrameCache) (anim_key : String) (frame : Int) (size : Vector2i) :
    LottieFrameCache × TexRef :=
  let key : Key := ⟨anim_key, frame, size.x, size.y⟩
  match map_find c._map key with
  | none => (c, none)
  | some e => (_touch c key, e.tex)

/-- The body of `put` between the guard and the final `_evict_if_needed()`: the
replace-or-insert block. -/
def put_update (c : LottieFrameCache) (key : Key) (tex : TexRef) (bytes : Nat) :
    LottieFrameCache :=
  match map_find c._map key with
  | some e =>
    let used1 := size_sub c._used e.bytes
    let m1 := map_assign c._map key { tex := tex, bytes := bytes }
    _touch { c with _used := size_add used1 bytes, _map := m1 } key
  | none =>
    { c with _lru := key :: c._lru,
             _map := map_emplace c._map key { tex := tex, bytes := bytes },
             _used := size_add c._used bytes }

/-- The method `put`. -/
def put (c : LottieFrameCache) (anim_key : String) (frame : Int) (size : Vector2i)
    (tex : TexRef) (bytes : Nat) : LottieFrameCache :=
  if bytes = 0 ∨ tex = none then c
  else _evict_if_needed (put_update c ⟨anim_key, frame, size.x, size.y⟩ tex bytes)

/-- The method `set_capacity_bytes`. -/
def set_capacity_bytes (c : LottieFrameCache) (bytes : Nat) : LottieFrameCache :=
  _evict_if_needed { c with _capacity := bytes }

/-- The method `clear`. -/
def clear (c : LottieFrameCache) : LottieFrameCache :=
  { c with _map := [], _lru := [], _used := 0 }

/-- The sum of the byte sizes recorded in the entries of a map. -/
def total_bytes (m : List (Key × Entry)) : Nat := (m.map (fun p => p.2.bytes)).sum

/-- The keys of a map. -/
def keys (m : List (Key × Entry)) : List Key := m.map Prod.fst

/-- A call of one of the four public methods. -/
inductive Op where
  | get (anim_key : String) (frame : Int) (size : Vector2i)
  | put (anim_key : String) (frame : Int) (size : Vector2i) (tex : TexRef) (bytes : Nat)
  | set_capacity_bytes (bytes : Nat)
  | clear
deriving DecidableEq, Repr

/-- The cache after a call. -/
def Op.apply (c : LottieFrameCache) : Op → LottieFrameCache
  | .get a f s => (c.get a f s).1
  | .put a f s tex b => c.put a f s tex b
  | .set_capacity_bytes b => c.set_capacity_bytes b
  | .clear => c.clear

/-- The cache after a sequence of calls, from a given cache. -/
def run_from (c : LottieFrameCache) (ops : List Op) : LottieFrameCache :=
  ops.foldl Op.apply c

/-- The cache after a sequence of calls made on a freshly constructed cache. -/
def run (ops : List Op) : LottieFrameCache := run_from empty ops

/-- The arguments of a call are values of type `size_t`. -/
def Op.in_range : Op → Bool
  | .put _ _ _ _ b => decide (b < SIZE_MOD)
  | .set_capacity_bytes b => decide (b < SIZE_MOD)
  | _ => true

/-- The byte size recorded under a key (0 when the key has no entry). -/
def entry_bytes (m : List (Key × Entry)) (k : Key) : Nat :=
  match map_find m k with
  | some e => e.bytes
  | none => 0

/-- The sum of the byte sizes recorded under the keys of a list. -/
def list_bytes (m : List (Key × Entry)) (l : List Key) : Nat := (l.map (entry_bytes m)).sum

/-- Structural consistency: the map has one entry per key and `_lru` holds exactly the keys
of the map, each once. -/
structure Inv (c : LottieFrameCache) : Prop where
  keys_nodup : (keys c._map).Nodup
  lru_nodup : c._lru.Nodup
  lru_keys : ∀ k, k ∈ c._lru ↔ k ∈ keys c._map

/-- The counter `_used` holds the sum of the recorded sizes, reduced modulo `2 ^ 64`. -/
def Modular (c : LottieFrameCache) : Prop := c._used = total_bytes c._map % SIZE_MOD

/-- The counter `_used` holds the sum of the recorded sizes, which is below `2 ^ 64`. -/
def Exact (c : LottieFrameCache) : Prop :=
  c._used = total_bytes c._map ∧ total_bytes c._map < SIZE_MOD

/-- What the eviction loop keeps of a cache. -/
structure Evicted (c c' : LottieFrameCache) : Prop where
  inv : Inv c'
  cap : c'._capacity = c._capacity
  lru_front : c'._lru <+: c._lru
  map_eq : c'._map = c._map.filter (fun p => decide (p.1 ∈ c'._lru))

/-- The call keeps the sum of the recorded sizes below `2 ^ 64`: a `put` that passes the
guard brings, with the sizes recorded under the other keys, a total that `size_t` can
hold. -/
def Op.fits (c : LottieFrameCache) : Op → Bool
  | .put a f s tex b =>
    decide (b = 0 ∨ tex = none
      ∨ total_bytes (map_erase c._map ⟨a, f, s.x, s.y⟩) + b < SIZE_MOD)
  | _ => true

/-- Every call of the sequence, made in turn from `c`, keeps the sum of the recorded sizes
below `2 ^ 64`. -/
def fits_from (c : LottieFrameCache) : List Op → Bool
  | [] => true
  | op :: ops => op.fits c && fits_from (op.apply c) ops

/-- What a call stores under `key`: the entry written by a `put` on `key` that passes the
guard, nothing for any other call. -/
def Op.stores (key : Key) : Op → Option Entry
  | .put a f s tex b =>
    if (⟨a, f, s.x, s.y⟩ : Key) = key ∧ ¬ (b = 0 ∨ tex = none) then
      some { tex := tex, bytes := b }
    else none
  | _ => none

/-- The buffer and size most recently stored under `key` by a `put` of the sequence. -/
def last_put (key : Key) (ops : List Op) : Option Entry :=
  ops.reverse.findSome? (Op.stores key)

/-- The key a call touches when made on the cache `c`: the key of a `get` that hits, the
key of a `put` that passes the guard. -/
def Op.touches (c : LottieFrameCache) : Op → Option Key
  | .get a f s => if (map_find c._map ⟨a, f, s.x, s.y⟩).isSome then some ⟨a, f, s.x, s.y⟩ else none
  | .put a f s tex b => if b = 0 ∨ tex = none then none else some ⟨a, f, s.x, s.y⟩
  | _ => none

/-- The position of the last call that touched `key`, the calls being given latest first:
a call is numbered by how many calls were made before it on the fresh cache. -/
def last_touch_rev (key : Key) : List Op → Option Nat
  | [] => none
  | op :: earlier =>
    if Op.touches (run earlier.reverse) op = some key then some earlier.length
    else last_touch_rev key earlier

/-- The position, in a sequence of calls made on a fresh cache, of the last call that
touched `key` (a `get` hit or an accepted `put`). -/
def last_touch (key : Key) (ops : List Op) : Option Nat := last_touch_rev key ops.reverse

/-- In the sequence of calls, `x` was last touched before `y` was last touched. -/
def older (ops : List Op) (x y : Key) : Bool :=
  match last_touch x ops, last_touch y ops with
  | some tx, some ty => decide (tx < ty)
  | _, _ => false

/-- Every key of the list has been touched, and the list runs from the latest touched key
to the earliest. -/
def Recent (ops : List Op) (l : List Key) : Prop :=
  (∀ k ∈ l, ∃ t, last_touch k ops = some t) ∧ l.Pairwise (fun y x => older ops x y = true)

end LottieFrameCache

namespace LottieFrameCache

/-- Every entry of the map records a byte size above 0. -/
def Positive (c : LottieFrameCache) : Prop := ∀ p ∈ c._map, 0 < p.2.bytes

end LottieFrameCache

/-! ## State machine: data model

`float` values are rational numbers and their arithmetic is exact.  The type `Variant` of
godot-cpp is a parameter `V` of the embedding, with the three operations the state machine
applies to it (`VariantOps`).  `emit_signal`, `printerr` and the calls made on the
`LottieAnimation` node are recorded, in program order, in a list of `Effect`s; signal
handlers and the node do not call back into the machine.
-/

/-- The operations of godot-cpp's `Variant` that the state machine uses. -/
structure VariantOps (V : Type) where
  /-- The value `Variant()`. -/
  nil : V
  /-- The comparison `operator==`. -/
  eq : V → V → Bool
  /-- The comparison `operator!=`. -/
  ne : V → V → Bool
  /-- The conversion `operator float`. -/
  to_float : V → ℚ

/-- The data members of class `LottieAnimationState`. -/
structure LottieAnimationState where
  state_name : String
  animation_path : String
  loop : Bool
  speed : ℚ
  blend_time : ℚ
deriving DecidableEq, Repr

/-- The data members of class `LottieStateTransition`. -/
structure LottieStateTransition (V : Type) where
  from_state : String
  to_state : String
  condition_parameter : String
  condition_value : V
  condition_mode : String
  transition_time : ℚ
  auto_advance : Bool
deriving DecidableEq, Repr

/-- The data members of class `LottieStateMachine`.  The arrays hold references, which may
be null; `parameters` is the `Dictionary`, in insertion order. -/
structure LottieStateMachine (V : Type) where
  states : List (Option LottieAnimationState)
  transitions : List (Option (LottieStateTransition V))
  current_state : String
  default_state : String
  parameters : List (String × V)
  blend_progress : ℚ
  blend_from_state : String
  blend_to_state : String
  is_blending : Bool
deriving DecidableEq, Repr

/-- What a method of the state machine does besides changing its members. -/
inductive Effect where
  | state_changed (from_state to_state : String)
  | transition_started (from_state to_state : String)
  | transition_finished (to_state : String)
  | printerr (message : String)
  | set_animation_path (path : String)
  | set_looping (loop : Bool)
  | set_speed (speed : ℚ)
  | play
deriving DecidableEq, Repr

/-- The pointer `LottieAnimation*`: `none` is `nullptr`. -/
abbrev NodePtr := Option Nat

/-- The call `parameters.has(key)` / the lookup behind `parameters[key]`. -/
def dict_find {V : Type} : List (String × V) → String → Option V
  | [], _ => none
  | (k, v) :: d, key => if k = key then some v else dict_find d key

/-- The assignment `parameters[key] = value`. -/
def dict_set {V : Type} : List (String × V) → String → V → List (String × V)
  | [], key, value => [(key, value)]
  | (k, v) :: d, key, value =>
    if k = key then (k, value) :: d else (k, v) :: dict_set d key value

namespace LottieAnimationState

/-- The constructor of `LottieAnimationState`. -/
def init : LottieAnimationState :=
  { state_name := "", animation_path := "", loop := true, speed := 1, blend_time := 1 / 5 }

/-- The method `set_speed`. -/
def set_speed (s : LottieAnimationState) (p_speed : ℚ) : LottieAnimationState :=
  { s with speed := max 0 p_speed }

/-- The method `set_blend_time`. -/
def set_blend_time (s : LottieAnimationState) (time : ℚ) : LottieAnimationState :=
  { s with blend_time := max 0 time }

end LottieAnimationState

namespace LottieStateTransition

/-- The method `evaluate_condition`. -/
def evaluate_condition {V : Type} (vo : VariantOps V) (t : LottieStateTransition V)
    (parameters : List (String × V)) : Bool :=
  if t.auto_advance then true
  else if t.condition_parameter = "" ∨ (dict_find parameters t.condition_parameter).isNone then
    false
  else
    let param_value : V := (dict_find parameters t.condition_parameter).getD vo.nil
    if t.condition_mode = "equals" then vo.eq param_value t.condition_value
    else if t.condition_mode = "not_equals" then vo.ne param_value t.condition_value
    else if t.condition_mode = "greater" then
      decide (vo.to_float param_value > vo.to_float t.condition_value)
    else if t.condition_mode = "less" then
      decide (vo.to_float param_value < vo.to_float t.condition_value)
    else false

end LottieStateTransition

namespace LottieStateMachine

variable {V : Type}

/-- The constructor of `LottieStateMachine`. -/
def init : LottieStateMachine V :=
  { states := [], transitions := [], current_state := "", default_state := "",
    parameters := [], blend_progress := 0, blend_from_state := "", blend_to_state := "",
    is_blending := false }

/-- The method `_find_state`: the first valid state of the array with that name. -/
def _find_state (m : LottieStateMachine V) (state_name : String) :
    Option LottieAnimationState :=
  m.states.findSome? (fun r =>
    match r with
    | some state => if state.state_name = state_name then some state else none
    | none => none)

/-- The method `_find_valid_transitions`: the valid transitions that leave the current
state and whose condition holds, in the order of the array. -/
def _find_valid_transitions (vo : VariantOps V) (m : LottieStateMachine V) :
    List (Option (LottieStateTransition V)) :=
  m.transitions.filterMap (fun r =>
    match r with
    | some transition =>
      if transition.from_state = m.current_state
          ∧ transition.evaluate_condition vo m.parameters = true then
        some (some transition)
      else none
    | none => none)

/-- The first block of `update`, "Check for valid transitions". -/
def update_transitions (vo : VariantOps V) (m : LottieStateMachine V) :
    LottieStateMachine V × List Effect :=
  match _find_valid_transitions vo m with
  | [] => (m, [])
  | none :: _ => (m, [])
  | some transition :: _ =>
    let new_state := transition.to_state
    match _find_state m new_state with
    | none => (m, [])
    | some state =>
      ({ m with blend_from_state := m.current_state,
                blend_to_state := new_state,
                is_blending := true,
                blend_progress := 0,
                current_state := new_state },
        [.transition_started m.current_state new_state,
         .set_animation_path state.animation_path,
         .set_looping state.loop,
         .set_speed state.speed,
         .play])

/-- The second block of `update`, "Update blend progress".  The source computes
`blend_progress += delta / blend_time` on `float` members; here the values are rational
numbers and the quotient and the sum are exact, so the rounding of single precision and
the values that are not finite numbers are not part of this definition. -/
def update_blend (delta : ℚ) (m : LottieStateMachine V) :
    LottieStateMachine V × List Effect :=
  if m.is_blending then
    match _find_state m m.current_state with
    | none => (m, [])
    | some state =>
      let blend_time := state.blend_time
      if blend_time > 0 then
        let progress := m.blend_progress + delta / blend_time
        if progress ≥ 1 then
          ({ m with blend_progress := 1, is_blending := false },
            [.transition_finished m.current_state])
        else ({ m with blend_progress := progress }, [])
      else
        ({ m with is_blending := false, blend_progress := 1 },
          [.transition_finished m.current_state])
  else (m, [])

/-- The method `update`: the machine after the call and what the call emitted. -/
def update (vo : VariantOps V) (m : LottieStateMachine V) (delta : ℚ)
    (animation_node : NodePtr) : LottieStateMachine V × List Effect :=
  match animation_node with
  | none => (m, [])
  | some _ =>
    let r1 := update_transitions vo m
    let r2 := update_blend delta r1.1
    (r2.1, r1.2 ++ r2.2)

/-- The transition is one the claim calls eligible: its `from_state` is the current state
and its condition evaluates true or its `auto_advance` flag is set. -/
def eligible (vo : VariantOps V) (m : LottieStateMachine V) (t : LottieStateTransition V) :
    Bool :=
  decide (t.from_state = m.current_state)
    && (t.evaluate_condition vo m.parameters || t.auto_advance)

/-- The eligible transition declared first in the transitions list, if there is one. -/
def first_eligible (vo : VariantOps V) (m : LottieStateMachine V) :
    Option (LottieStateTransition V) :=
  m.transitions.findSome? (fun r =>
    match r with
    | some t => if eligible vo m t = true then some t else none
    | none => none)

/-- The number of `transition_started` notifications in a list of effects. -/
def count_started (l : List Effect) : Nat :=
  (l.filter (fun e => match e with | .transition_started _ _ => true | _ => false)).length

/-- The calls received by the animation node, in order. -/
def node_calls (l : List Effect) : List Effect :=
  l.filter (fun e =>
    match e with
    | .set_animation_path _ => true
    | .set_looping _ => true
    | .set_speed _ => true
    | .play => true
    | _ => false)

end LottieStateMachine

/-- A small variant type for examples: nil, booleans, integers, floats and strings. -/
inductive SampleVariant where
  | nil
  | bool (b : Bool)
  | int (i : Int)
  | float (q : ℚ)
  | string (s : String)
deriving DecidableEq, Repr

/-- Operations on `SampleVariant`: values are equal when they have the same kind and the
same content; the numeric conversion of a string or of nil is 0. -/
def SampleVariant.ops : VariantOps SampleVariant :=
  { nil := .nil
    eq := fun a b => decide (a = b)
    ne := fun a b => decide (a ≠ b)
    to_float := fun a =>
      match a with
      | .nil => 0
      | .bool b => if b then 1 else 0
      | .int i => i
      | .float q => q
      | .string _ => 0 }

/-- The machine of the scripted example: states `A`, `B` (blend time 0.5) and `C`;
transitions `A -> B` when `p` equals 1 and `A -> C` with `auto_advance`, in this order;
current state `A`; parameter `p` = 1; not blending. -/
def sample_machine : LottieStateMachine SampleVariant :=
  { states := [some ⟨"A", "a.json", true, 1, 1 / 5⟩, some ⟨"B", "b.json", false, 2, 1 / 2⟩,
               some ⟨"C", "c.json", true, 1, 1 / 5⟩],
    transitions := [some ⟨"A", "B", "p", .int 1, "equals", 1 / 5, false⟩,
                    some ⟨"A", "C", "", .nil, "equals", 1 / 5, true⟩],
    current_state := "A", default_state := "", parameters := [("p", .int 1)],
    blend_progress := 0, blend_from_state := "", blend_to_state := "",
    is_blending := false }

/-- A machine whose only transition, `A -> X` with `auto_advance`, names a state that is not
in the states list; current state `A`. -/
def sample_machine_no_target : LottieStateMachine SampleVariant :=
  { states := [some ⟨"A", "a.json", true, 1, 1 / 5⟩],
    transitions := [some ⟨"A", "X", "", .nil, "equals", 1 / 5, true⟩],
    current_state := "A", default_state := "", parameters := [],
    blend_progress := 0, blend_from_state := "", blend_to_state := "",
    is_blending := false }

/-- The machine `sample_machine` in the middle of a blend: blending, progress 0.5. -/
def sample_machine_blending : LottieStateMachine SampleVariant :=
  { sample_machine with is_blending := true, blend_progress := 1 / 2 }

/-! ## State machine: the other public methods and runs of calls -/

namespace LottieStateMachine

variable {V : Type}

/-- The loop of `remove_state`: removes the first valid state of the array with that
name. -/
def remove_first_state :
    List (Option LottieAnimationState) → String → List (Option LottieAnimationState)
  | [], _ => []
  | none :: rest, state_name => none :: remove_first_state rest state_name
  | some state :: rest, state_name =>
    if state.state_name = state_name then rest
    else some state :: remove_first_state rest state_name

/-- The loop of `remove_transition`: removes the first valid transition of the array with
these two state names. -/
def remove_first_transition :
    List (Option (LottieStateTransition V)) → String → String →
      List (Option (LottieStateTransition V))
  | [], _, _ => []
  | none :: rest, from_state, to_state =>
    none :: remove_first_transition rest from_state to_state
  | some transition :: rest, from_state, to_state =>
    if transition.from_state = from_state ∧ transition.to_state = to_state then rest
    else some transition :: remove_first_transition rest from_state to_state

/-- The method `add_state`. -/
def add_state (m : LottieStateMachine V) (state : Option LottieAnimationState) :
    LottieStateMachine V :=
  match state with
  | some s => { m with states := m.states ++ [some s] }
  | none => m

/-- The method `remove_state`. -/
def remove_state (m : LottieStateMachine V) (state_name : String) : LottieStateMachine V :=
  { m with states := remove_first_state m.states state_name }

/-- The method `get_state`. -/
def get_state (m : LottieStateMachine V) (state_name : String) :
    Option LottieAnimationState :=
  _find_state m state_name

/-- The method `get_state_count`. -/
def get_state_count (m : LottieStateMachine V) : Nat := m.states.length

/-- The method `add_transition`. -/
def add_transition (m : LottieStateMachine V) (transition : Option (LottieStateTransition V)) :
    LottieStateMachine V :=
  match transition with
  | some t => { m with transitions := m.transitions ++ [some t] }
  | none => m

/-- The method `remove_transition`. -/
def remove_transition (m : LottieStateMachine V) (from_state to_state : String) :
    LottieStateMachine V :=
  { m with transitions := remove_first_transition m.transitions from_state to_state }

/-- The method `set_current_state`: the machine after the call and what the call
emitted. -/
def set_current_state (m : LottieStateMachine V) (state_name : String) :
    LottieStateMachine V × List Effect :=
  if m.current_state = state_name then (m, [])
  else
    match _find_state m state_name with
    | none => (m, [.printerr ("State not found: " ++ state_name)])
    | some _ =>
      ({ m with current_state := state_name }, [.state_changed m.current_state state_name])

/-- The method `set_default_state`. -/
def set_default_state (m : LottieStateMachine V) (state_name : String) :
    LottieStateMachine V :=
  { m with default_state := state_name }

/-- The method `set_parameter`. -/
def set_parameter (m : LottieStateMachine V) (param_name : String) (value : V) :
    LottieStateMachine V :=
  { m with parameters := dict_set m.parameters param_name value }

/-- The method `get_parameter`. -/
def get_parameter (vo : VariantOps V) (m : LottieStateMachine V) (param_name : String) : V :=
  match dict_find m.parameters param_name with
  | some value => value
  | none => vo.nil

/-- The method `has_parameter`. -/
def has_parameter (m : LottieStateMachine V) (param_name : String) : Bool :=
  (dict_find m.parameters param_name).isSome

/-- The method `reset`: the machine after the call and what the call emitted. -/
def reset (m : LottieStateMachine V) : LottieStateMachine V × List Effect :=
  let r : LottieStateMachine V × List Effect :=
    if m.default_state ≠ "" then set_current_state m m.default_state else (m, [])
  ({ r.1 with parameters := [], is_blending := false, blend_progress := 0 }, r.2)

/-- The method `is_in_blend`. -/
def is_in_blend (m : LottieStateMachine V) : Bool := m.is_blending

/-- The method `get_blend_progress`. -/
def get_blend_progress (m : LottieStateMachine V) : ℚ := m.blend_progress

/-- A call of one of the public methods that change the machine. -/
inductive Op (V : Type) where
  | add_state (state : Option LottieAnimationState)
  | remove_state (state_name : String)
  | add_transition (transition : Option (LottieStateTransition V))
  | remove_transition (from_state to_state : String)
  | set_current_state (state_name : String)
  | set_default_state (state_name : String)
  | set_parameter (param_name : String) (value : V)
  | update (delta : ℚ) (animation_node : NodePtr)
  | reset

/-- The machine after a call and what the call emitted. -/
def Op.apply (vo : VariantOps V) (m : LottieStateMachine V) :
    Op V → LottieStateMachine V × List Effect
  | .add_state state => (m.add_state state, [])
  | .remove_state state_name => (m.remove_state state_name, [])
  | .add_transition transition => (m.add_transition transition, [])
  | .remove_transition from_state to_state => (m.remove_transition from_state to_state, [])
  | .set_current_state state_name => m.set_current_state state_name
  | .set_default_state state_name => (m.set_default_state state_name, [])
  | .set_parameter param_name value => (m.set_parameter param_name value, [])
  | .update delta animation_node => m.update vo delta animation_node
  | .reset => m.reset

/-- The machine after a sequence of calls made on a freshly constructed machine. -/
def run_ops (vo : VariantOps V) (ops : List (Op V)) : LottieStateMachine V :=
  ops.foldl (fun m op => (op.apply vo m).1) init

/-- The current state is empty or names a state of the states list. -/
def current_state_valid (m : LottieStateMachine V) : Bool :=
  decide (m.current_state = "") || (_find_state m m.current_state).isSome

/-- The delta passed by the call, if it is an `update`, is non-negative. -/
def Op.delta_nonneg : Op V → Prop
  | .update delta _ => 0 ≤ delta
  | _ => True

/-- The number of `transition_finished` notifications in a list of effects. -/
def count_finished (l : List Effect) : Nat :=
  (l.filter (fun e => match e with | .transition_finished _ => true | _ => false)).length

/-- The notifications (signals) in a list of effects, in order. -/
def signals (l : List Effect) : List Effect :=
  l.filter (fun e =>
    match e with
    | .state_changed _ _ => true
    | .transition_started _ _ => true
    | .transition_finished _ => true
    | _ => false)

/-- The call `update` on this machine, with a non-null node, takes a transition: there is
an eligible transition and the first one names a state of the states list. -/
def takes_transition (vo : VariantOps V) (m : LottieStateMachine V) : Bool :=
  ((first_eligible vo m).bind (fun t => _find_state m t.to_state)).isSome

end LottieStateMachine

/-- A machine with states `A` and `B`, current state `A`, whose transitions, both with
`auto_advance`, are `A -> X` (no state `X`) and then `A -> B`. -/
def sample_machine_two_targets : LottieStateMachine SampleVariant :=
  { states := [some ⟨"A", "a.json", true, 1, 1 / 5⟩, some ⟨"B", "b.json", false, 2, 1 / 2⟩],
    transitions := [some ⟨"A", "X", "", .nil, "equals", 1 / 5, true⟩,
                    some ⟨"A", "B", "", .nil, "equals", 1 / 5, true⟩],
    current_state := "A", default_state := "", parameters := [],
    blend_progress := 0, blend_from_state := "", blend_to_state := "",
    is_blending := false }

/-- A machine in the middle of a blend (progress 0.5) in state `A`, whose blend time is 0;
state `B` has blend time 0.5; the only transition is `A -> B` when `p` equals 1; the
parameter `p` has the given value. -/
def sample_machine_zero (p : Int) : LottieStateMachine SampleVariant :=
  { states := [some ⟨"A", "a.json", true, 1, 0⟩, some ⟨"B", "b.json", false, 2, 1 / 2⟩],
    transitions := [some ⟨"A", "B", "p", .int 1, "equals", 1 / 5, false⟩],
    current_state := "A", default_state := "", parameters := [("p", .int p)],
    blend_progress := 1 / 2, blend_from_state := "B", blend_to_state := "A",
    is_blending := true }

/-! ## State machine: further sample data -/

namespace LottieStateMachine

/-- A machine with two states named `A` (animation paths `a1.json` and `a2.json`, added in
this order) around a state `B`. -/
def sample_machine_duplicates : LottieStateMachine SampleVariant :=
  { states := [some ⟨"A", "a1.json", true, 1, 1 / 5⟩, some ⟨"B", "b.json", false, 2, 1 / 2⟩,
               some ⟨"A", "a2.json", true, 1, 1 / 5⟩],
    transitions := [], current_state := "A", default_state := "", parameters := [],
    blend_progress := 0, blend_from_state := "", blend_to_state := "",
    is_blending := false }

/-- A transition `A -> B` on the parameter with that name, compared with the integer 1 in
that mode, without `auto_advance`. -/
def sample_transition (condition_parameter condition_mode : String) :
    LottieStateTransition SampleVariant :=
  ⟨"A", "B", condition_parameter, .int 1, condition_mode, 1 / 5, false⟩

end LottieStateMachine

/-! ## Sizing policy -/

/-- Modelled from the spec: the body of `LottieAnimation::_apply_sizing_policy`, declared in
`src/lottie_animation.h`, is not among the sources.  The spec (4.2, "Fit into box") has the
policy compute a uniform scale `min(box.width / native.width, box.height / native.height)`;
this is that scale, in exact arithmetic. -/
def fit_scale (native box : Vector2i) : ℚ :=
  min ((box.x : ℚ) / (native.x : ℚ)) ((box.y : ℚ) / (native.y : ℚ))

/-- Modelled from the spec: the body of `LottieAnimation::_apply_sizing_policy` is not among
the sources.  The spec (4.2) has the uniform scale "applied to native size, clamped to >= 1
pixel per axis", the output being whole pixels; the spec does not say how a scaled length
becomes a whole number of pixels, and that conversion is the parameter `to_pixels`. -/
def fit_into_box (to_pixels : ℚ → Int) (native box : Vector2i) : Vector2i :=
  { x := max 1 (to_pixels ((native.x : ℚ) * fit_scale native box)),
    y := max 1 (to_pixels ((native.y : ℚ) * fit_scale native box)) }

/-! ## Hand-off between the controller and the render worker

`lottie_animation.h` declares the members through which the controller thread and the
render worker thread talk to each other: the pending render request (`render_pending`,
`pending_r_size`, `pending_r_frame`, under `job_mutex`) and the frame mailbox
(`latest_frame`, `next_frame_id`, `last_consumed_id`, under `frame_mutex`).  The bodies of
the methods that use them are in `lottie_animation.cpp`; what they do to these members is
taken from the specification (sections 4.3, 4.4 and 5).  Each access is one critical
section, so an execution of the two threads is a sequence of the steps below, in any order.
The identity counter is a `uint64_t` that starts at 1 and would take `2 ^ 64` publications
to wrap; it is counted here in the natural numbers.
-/

/-- The struct `LottieAnimation::FrameResult`; a pixel byte is a natural number. -/
structure FrameResult where
  rgba : List Nat
  w : Int
  h : Int
  id : Nat
  ready : Bool
deriving DecidableEq, Repr

/-- The members of class `LottieAnimation` shared by the controller and the render worker
for render requests and their results. -/
structure LottieAnimation where
  render_pending : Bool
  pending_r_size : Vector2i
  pending_r_frame : ℚ
  next_frame_id : Nat
  last_consumed_id : Nat
  latest_frame : FrameResult
deriving DecidableEq, Repr

namespace LottieAnimation

/-- The default member initialisers of `lottie_animation.h`. -/
def init : LottieAnimation :=
  { render_pending := false, pending_r_size := ⟨0, 0⟩, pending_r_frame := 0,
    next_frame_id := 1, last_consumed_id := 0,
    latest_frame := { rgba := [], w := 0, h := 0, id := 0, ready := false } }

/-- Modelled from the spec: the method `_post_render_to_worker`.  Only the latest render
request is retained, replacing any not-yet-started request (section 4.3): the request is
written over the pending one. -/
def _post_render_to_worker (a : LottieAnimation) (size : Vector2i) (frame : ℚ) :
    LottieAnimation :=
  { a with render_pending := true, pending_r_size := size, pending_r_frame := frame }

/-- Modelled from the spec: the step of `_worker_loop` that snapshots and clears the
pending command (section 4.3); returns the render request the worker goes on to execute,
if one is pending. -/
def worker_snapshot (a : LottieAnimation) : LottieAnimation × Option (Vector2i × ℚ) :=
  if a.render_pending then
    ({ a with render_pending := false }, some (a.pending_r_size, a.pending_r_frame))
  else (a, none)

/-- Modelled from the spec: the step Publish of `_worker_loop` (section 4.3).  The result
is written into the mailbox with the next value of the identity counter and readiness
true; it replaces any unconsumed prior result. -/
def publish (a : LottieAnimation) (rgba : List Nat) (w h : Int) : LottieAnimation :=
  { a with latest_frame := { rgba := rgba, w := w, h := h, id := a.next_frame_id,
                             ready := true },
           next_frame_id := a.next_frame_id + 1 }

/-- Modelled from the spec: the operation `try_take` of the mailbox (section 4.4).  Returns
the current slot and marks it consumed; repeated calls before the next publish return
empty. -/
def try_take (a : LottieAnimation) : LottieAnimation × Option FrameResult :=
  if a.latest_frame.ready then
    ({ a with latest_frame := { a.latest_frame with ready := false } }, some a.latest_frame)
  else (a, none)

/-- Modelled from the spec: the poll of the mailbox made by the controller once per tick
(section 2).  A result taken from the mailbox is used if its identity is newer than the
last consumed one, and is ignored otherwise; returns the identity observed, if any. -/
def poll (a : LottieAnimation) : LottieAnimation × Option Nat :=
  match try_take a with
  | (a1, some r) =>
    if r.id > a1.last_consumed_id then ({ a1 with last_consumed_id := r.id }, some r.id)
    else (a1, none)
  | (a1, none) => (a1, none)

/-- A step of one of the two threads on the shared members. -/
inductive Step where
  | post_render (size : Vector2i) (frame : ℚ)
  | snapshot
  | publish (rgba : List Nat) (w h : Int)
  | poll
deriving DecidableEq, Repr

/-- What a step lets the outside see: a render the worker executes, a frame identity the
consumer observes. -/
inductive Event where
  | render (size : Vector2i) (frame : ℚ)
  | observed (id : Nat)
deriving DecidableEq, Repr

/-- The shared members after a step, and what the step showed. -/
def Step.apply (a : LottieAnimation) : Step → LottieAnimation × List Event
  | .post_render size frame => (a._post_render_to_worker size frame, [])
  | .snapshot =>
    match a.worker_snapshot with
    | (a1, some (size, frame)) => (a1, [.render size frame])
    | (a1, none) => (a1, [])
  | .publish rgba w h => (a.publish rgba w h, [])
  | .poll =>
    match a.poll with
    | (a1, some id) => (a1, [.observed id])
    | (a1, none) => (a1, [])

/-- The shared members after a sequence of steps, and the events in order. -/
def run_steps (a : LottieAnimation) : List Step → LottieAnimation × List Event
  | [] => (a, [])
  | s :: rest =>
    ((run_steps (s.apply a).1 rest).1, (s.apply a).2 ++ (run_steps (s.apply a).1 rest).2)

/-- The frame identities observed by the consumer, in order. -/
def observed_ids : List Event → List Nat
  | [] => []
  | .observed id :: rest => id :: observed_ids rest
  | .render _ _ :: rest => observed_ids rest

/-- The renders executed by the worker, in order. -/
def renders : List Event → List (Vector2i × ℚ)
  | [] => []
  | .render size frame :: rest => (size, frame) :: renders rest
  | .observed _ :: rest => renders rest

/-- The identities given out by the publications of a sequence of steps, in order. -/
def published_ids (a : LottieAnimation) : List Step → List Nat
  | [] => []
  | .publish rgba w h :: rest =>
    a.next_frame_id :: published_ids (a.publish rgba w h) rest
  | s :: rest => published_ids (s.apply a).1 rest

end LottieAnimation
/-! ## Frame cache: lemmas on the map -/

namespace LottieFrameCache

theorem map_find_isSome_iff (m : List (Key × Entry)) (key : Key) :
    (map_find m key).isSome = true ↔ key ∈ keys m := by
  induction m with
  | nil => simp [map_find, keys]
  | cons p m ih =>
    obtain ⟨k, e⟩ := p
    by_cases h : k = key
    · simp [map_find, keys, h]
    · have h2 : ¬ key = k := fun h3 => h h3.symm
      simp only [map_find, h, if_false, ih, keys, List.map_cons, List.mem_cons, h2, false_or]

theorem map_find_eq_none_iff (m : List (Key × Entry)) (key : Key) :
    map_find m key = none ↔ key ∉ keys m := by
  rw [← map_find_isSome_iff]
  cases map_find m key <;> simp

theorem map_find_mem {m : List (Key × Entry)} {key : Key} {e : Entry}
    (h : map_find m key = some e) : (key, e) ∈ m := by
  induction m with
  | nil => simp [map_find] at h
  | cons p m ih =>
    obtain ⟨k, e2⟩ := p
    by_cases hk : k = key
    · simp [map_find, hk] at h
      simp [hk, h]
    · simp only [map_find, hk, if_false] at h
      exact List.mem_cons_of_mem _ (ih h)

theorem map_find_of_mem {m : List (Key × Entry)} (hn : (keys m).Nodup) {key : Key} {e : Entry}
    (h : (key, e) ∈ m) : map_find m key = some e := by
  induction m with
  | nil => simp at h
  | cons p m ih =>
    obtain ⟨k, e2⟩ := p
    simp only [keys, List.map_cons, List.nodup_cons] at hn
    rcases List.mem_cons.1 h with h1 | h1
    · cases h1
      simp [map_find]
    · have hk : k ≠ key := by
        rintro rfl
        exact hn.1 (List.mem_map_of_mem Prod.fst h1)
      simp only [map_find, hk, if_false]
      exact ih hn.2 h1

theorem map_find_erase (m : List (Key × Entry)) (key k : Key) :
    map_find (map_erase m key) k = if k = key then none else map_find m k := by
  induction m with
  | nil => simp [map_find, map_erase]
  | cons p m ih =>
    obtain ⟨k2, e2⟩ := p
    unfold map_erase at ih ⊢
    by_cases h1 : k2 = key
    · subst h1
      by_cases h2 : k = k2
      · subst h2
        simpa [List.filter_cons, map_find] using ih
      · have h3 : ¬ k2 = k := fun h => h2 h.symm
        simpa [List.filter_cons, map_find, h2, h3] using ih
    · by_cases h2 : k = key
      · subst h2
        simp only [List.filter_cons, ne_eq, h1, not_false_eq_true, decide_True, if_true,
          map_find, if_false]
        simpa using ih
      · by_cases h3 : k2 = k
        · simp [List.filter_cons, map_find, h1, h2, h3]
        · simpa [List.filter_cons, map_find, h1, h2, h3] using ih

theorem keys_erase (m : List (Key × Entry)) (key : Key) :
    keys (map_erase m key) = (keys m).filter (fun k => decide (k ≠ key)) := by
  induction m with
  | nil => simp [keys, map_erase]
  | cons p m ih =>
    obtain ⟨k2, e2⟩ := p
    unfold map_erase keys at ih ⊢
    by_cases h1 : k2 = key
    · simpa [List.filter_cons, h1] using ih
    · simpa [List.filter_cons, h1] using ih

theorem keys_assign (m : List (Key × Entry)) (key : Key) (e : Entry) :
    keys (map_assign m key e) = keys m := by
  induction m with
  | nil => simp [keys, map_assign]
  | cons p m ih =>
    obtain ⟨k2, e2⟩ := p
    unfold map_assign keys at ih ⊢
    by_cases h1 : k2 = key
    · simpa [h1] using ih
    · simpa [h1] using ih

theorem map_assign_cons (k2 : Key) (e2 : Entry) (m : List (Key × Entry)) (key : Key)
    (e : Entry) :
    map_assign ((k2, e2) :: m) key e =
      (if k2 = key then (k2, e) else (k2, e2)) :: map_assign m key e := rfl

theorem map_find_assign (m : List (Key × Entry)) (key k : Key) (e : Entry) :
    map_find (map_assign m key e) k =
      if k = key then (map_find m key).map (fun _ => e) else map_find m k := by
  induction m with
  | nil => simp [map_find, map_assign]
  | cons p m ih =>
    obtain ⟨k2, e2⟩ := p
    rw [map_assign_cons]
    by_cases h1 : k2 = key
    · subst h1
      rw [if_pos rfl]
      by_cases h2 : k = k2
      · subst h2
        simp [map_find]
      · have h3 : ¬ k2 = k := fun h => h2 h.symm
        simp only [map_find, h3, if_false, ih, h2]
    · rw [if_neg h1]
      by_cases h2 : k = key
      · subst h2
        simp only [map_find, h1, if_false, ih, if_true]
      · by_cases h3 : k2 = k
        · simp [map_find, h1, h2, h3]
        · simp only [map_find, h3, if_false, ih, h2]

theorem total_bytes_erase {m : List (Key × Entry)} (hn : (keys m).Nodup) {key : Key}
    {e : Entry} (h : map_find m key = some e) :
    total_bytes (map_erase m key) + e.bytes = total_bytes m := by
  induction m with
  | nil => simp [map_find] at h
  | cons p m ih =>
    obtain ⟨k2, e2⟩ := p
    simp only [keys, List.map_cons, List.nodup_cons] at hn
    by_cases h1 : k2 = key
    · subst h1
      simp only [map_find, if_true, Option.some.injEq] at h
      subst h
      have h4 : map_erase m k2 = m := by
        unfold map_erase
        rw [List.filter_eq_self]
        intro p hp
        have : p.1 ≠ k2 := by
          rintro rfl
          exact hn.1 (List.mem_map_of_mem Prod.fst hp)
        simpa using this
      have h5 : map_erase ((k2, e2) :: m) k2 = map_erase m k2 := by
        simp [map_erase, List.filter_cons]
      rw [h5, h4]
      simp [total_bytes]
      omega
    · simp only [map_find, h1, if_false] at h
      have h5 : map_erase ((k2, e2) :: m) key = (k2, e2) :: map_erase m key := by
        simp [map_erase, List.filter_cons, h1]
      rw [h5]
      have := ih hn.2 h
      simp only [total_bytes, List.map_cons, List.sum_cons] at this ⊢
      omega

theorem total_bytes_assign {m : List (Key × Entry)} (hn : (keys m).Nodup) {key : Key}
    {e0 : Entry} (h : map_find m key = some e0) (e : Entry) :
    total_bytes (map_assign m key e) + e0.bytes = total_bytes m + e.bytes := by
  induction m with
  | nil => simp [map_find] at h
  | cons p m ih =>
    obtain ⟨k2, e2⟩ := p
    simp only [keys, List.map_cons, List.nodup_cons] at hn
    by_cases h1 : k2 = key
    · subst h1
      simp only [map_find, if_true, Option.some.injEq] at h
      subst h
      have h4 : map_assign m k2 e = m := by
        unfold map_assign
        conv_rhs => rw [← List.map_id m]
        apply List.map_congr_left
        intro p hp
        have : p.1 ≠ k2 := by
          rintro rfl
          exact hn.1 (List.mem_map_of_mem Prod.fst hp)
        simp [this]
      have h5 : map_assign ((k2, e2) :: m) k2 e = (k2, e) :: map_assign m k2 e := by
        simp [map_assign]
      rw [h5, h4]
      simp [total_bytes]
      omega
    · simp only [map_find, h1, if_false] at h
      have h5 : map_assign ((k2, e2) :: m) key e = (k2, e2) :: map_assign m key e := by
        simp [map_assign, h1]
      rw [h5]
      have := ih hn.2 h
      simp only [total_bytes, List.map_cons, List.sum_cons] at this ⊢
      omega

end LottieFrameCache

/-! ## Frame cache: structural invariant and the eviction loop -/

namespace LottieFrameCache

theorem SIZE_MOD_eq : SIZE_MOD = 18446744073709551616 := by decide

theorem total_bytes_eq_keys {m : List (Key × Entry)} (hn : (keys m).Nodup) :
    total_bytes m = list_bytes m (keys m) := by
  unfold total_bytes list_bytes keys
  rw [List.map_map]
  apply congrArg
  apply List.map_congr_left
  intro p hp
  have : map_find m p.1 = some p.2 := map_find_of_mem hn hp
  simp [entry_bytes, this]

theorem Inv.total_eq {c : LottieFrameCache} (h : Inv c) :
    total_bytes c._map = list_bytes c._map c._lru := by
  rw [total_bytes_eq_keys h.keys_nodup]
  have hp : (keys c._map).Perm c._lru :=
    (List.perm_ext_iff_of_nodup h.keys_nodup h.lru_nodup).2 (fun k => (h.lru_keys k).symm)
  exact (hp.map _).sum_eq

theorem inv_empty : Inv empty :=
  ⟨by simp [empty, keys], by simp [empty], by simp [empty, keys]⟩

theorem inv_clear (c : LottieFrameCache) : Inv (clear c) :=
  ⟨by simp [clear, keys], by simp [clear], by simp [clear, keys]⟩

theorem touch_eq_of_find {c : LottieFrameCache} {key : Key} {e : Entry}
    (h : map_find c._map key = some e) :
    _touch c key = { c with _lru := key :: c._lru.erase key } := by
  simp [_touch, h]

theorem inv_touch {c : LottieFrameCache} (h : Inv c) (key : Key) : Inv (_touch c key) := by
  unfold _touch
  cases hf : map_find c._map key with
  | none => exact h
  | some e =>
    have hk : key ∈ keys c._map := (map_find_isSome_iff _ _).1 (by simp [hf])
    refine ⟨h.keys_nodup, ?_, ?_⟩
    · simp only [List.nodup_cons]
      exact ⟨fun hm => ((h.lru_nodup.mem_erase_iff).1 hm).1 rfl, h.lru_nodup.erase _⟩
    · intro k
      simp only [List.mem_cons, h.lru_nodup.mem_erase_iff]
      constructor
      · rintro (rfl | ⟨_, h2⟩)
        · exact hk
        · exact (h.lru_keys k).1 h2
      · intro h2
        by_cases h3 : k = key
        · exact Or.inl h3
        · exact Or.inr ⟨h3, (h.lru_keys k).2 h2⟩

/-- What one iteration of the eviction loop does to a consistent cache whose `_lru` ends
with `old`. -/
theorem evict_step_eq {c : LottieFrameCache} (h : Inv c) {init : List Key} {old : Key}
    (hl : c._lru = init ++ [old]) :
    evict_step c = { c with _used := size_sub c._used (entry_bytes c._map old),
                            _map := map_erase c._map old, _lru := init } := by
  have hmem : old ∈ keys c._map := (h.lru_keys old).1 (by simp [hl])
  have hs : (map_find c._map old).isSome = true := (map_find_isSome_iff _ _).2 hmem
  obtain ⟨e, he⟩ := Option.isSome_iff_exists.1 hs
  have hg : c._lru.getLast? = some old := by simp [hl]
  simp [evict_step, hg, he, entry_bytes, hl]

theorem evict_step_lru {c : LottieFrameCache} (h : Inv c) {init : List Key} {old : Key}
    (hl : c._lru = init ++ [old]) : (evict_step c)._lru = init := by
  rw [evict_step_eq h hl]

theorem evict_step_map {c : LottieFrameCache} (h : Inv c) {init : List Key} {old : Key}
    (hl : c._lru = init ++ [old]) : (evict_step c)._map = map_erase c._map old := by
  rw [evict_step_eq h hl]

theorem evict_step_capacity {c : LottieFrameCache} (h : Inv c) {init : List Key} {old : Key}
    (hl : c._lru = init ++ [old]) : (evict_step c)._capacity = c._capacity := by
  rw [evict_step_eq h hl]

theorem inv_evict_step {c : LottieFrameCache} (h : Inv c) {init : List Key} {old : Key}
    (hl : c._lru = init ++ [old]) : Inv (evict_step c) := by
  rw [evict_step_eq h hl]
  have hnd : (init ++ [old]).Nodup := hl ▸ h.lru_nodup
  have hni : old ∉ init := by
    intro hm
    have := (List.nodup_append.1 hnd).2.2
    exact this hm (by simp)
  refine ⟨?_, ?_, ?_⟩
  · simp only [keys_erase]
    exact h.keys_nodup.filter _
  · exact (List.nodup_append.1 hnd).1
  · intro k
    simp only [keys_erase, List.mem_filter, decide_eq_true_eq, ← h.lru_keys, hl,
      List.mem_append, List.mem_singleton]
    constructor
    · intro hk
      exact ⟨Or.inl hk, fun hko => hni (hko ▸ hk)⟩
    · rintro ⟨hk | hk, hne⟩
      · exact hk
      · exact absurd hk hne

theorem evict_step_lru_length (c : LottieFrameCache) :
    (evict_step c)._lru.length = c._lru.length - 1 := by
  cases hg : c._lru.getLast? with
  | none =>
    have : c._lru = [] := List.getLast?_eq_none_iff.1 hg
    simp [evict_step, this]
  | some old =>
    cases hf : map_find c._map old <;> simp [evict_step, hg, hf]

/-- The eviction loop returns: with `_lru.length` iterations allowed, it stops because its
condition fails, not because the iterations are used up. -/
theorem evict_loop_exit (fuel : Nat) (c : LottieFrameCache) (hf : c._lru.length ≤ fuel) :
    ¬ ((evict_loop fuel c)._used > (evict_loop fuel c)._capacity
        ∧ (evict_loop fuel c)._lru ≠ []) := by
  induction fuel generalizing c with
  | zero =>
    have : c._lru = [] := List.length_eq_zero.1 (Nat.le_zero.1 hf)
    simp [evict_loop, this]
  | succ n ih =>
    unfold evict_loop
    split
    · apply ih
      rw [evict_step_lru_length]
      omega
    · assumption

theorem evict_loop_capacity (fuel : Nat) (c : LottieFrameCache) :
    (evict_loop fuel c)._capacity = c._capacity := by
  induction fuel generalizing c with
  | zero => rfl
  | succ n ih =>
    unfold evict_loop
    split
    · rw [ih]
      cases hg : c._lru.getLast? with
      | none => simp [evict_step, hg]
      | some old => cases hf : map_find c._map old <;> simp [evict_step, hg, hf]
    · rfl

end LottieFrameCache

namespace LottieFrameCache

theorem Exact.modular {c : LottieFrameCache} (h : Exact c) : Modular c := by
  unfold Modular
  rw [h.1, Nat.mod_eq_of_lt h.2]

theorem entry_bytes_erase_ne (m : List (Key × Entry)) {key k : Key} (h : k ≠ key) :
    entry_bytes (map_erase m key) k = entry_bytes m k := by
  simp [entry_bytes, map_find_erase, h]

theorem list_bytes_erase_of_not_mem (m : List (Key × Entry)) {key : Key} {l : List Key}
    (h : key ∉ l) : list_bytes (map_erase m key) l = list_bytes m l := by
  unfold list_bytes
  apply congrArg
  apply List.map_congr_left
  intro k hk
  exact entry_bytes_erase_ne m (fun hkk => h (hkk ▸ hk))

theorem total_bytes_evict_step {c : LottieFrameCache} (h : Inv c) {init : List Key}
    {old : Key} (hl : c._lru = init ++ [old]) :
    total_bytes (map_erase c._map old) + entry_bytes c._map old = total_bytes c._map := by
  have hmem : old ∈ keys c._map := (h.lru_keys old).1 (by simp [hl])
  have hs : (map_find c._map old).isSome = true := (map_find_isSome_iff _ _).2 hmem
  obtain ⟨e, he⟩ := Option.isSome_iff_exists.1 hs
  have := total_bytes_erase h.keys_nodup he
  simpa [entry_bytes, he] using this

theorem modular_evict_step {c : LottieFrameCache} (h : Inv c) (hm : Modular c)
    {init : List Key} {old : Key} (hl : c._lru = init ++ [old]) : Modular (evict_step c) := by
  have ht := total_bytes_evict_step h hl
  rw [evict_step_eq h hl]
  unfold Modular at hm ⊢
  simp only [size_sub, SIZE_MOD_eq] at hm ⊢
  omega

theorem exact_evict_step {c : LottieFrameCache} (h : Inv c) (hx : Exact c)
    {init : List Key} {old : Key} (hl : c._lru = init ++ [old]) : Exact (evict_step c) := by
  have ht := total_bytes_evict_step h hl
  rw [evict_step_eq h hl]
  obtain ⟨h1, h2⟩ := hx
  unfold Exact
  simp only [size_sub, SIZE_MOD_eq] at h2 ⊢
  omega

theorem exists_init_last {l : List Key} (h : l ≠ []) : ∃ init old, l = init ++ [old] :=
  ⟨l.dropLast, l.getLast h, (List.dropLast_append_getLast h).symm⟩

theorem Evicted.refl {c : LottieFrameCache} (h : Inv c) : Evicted c c := by
  refine ⟨h, rfl, List.prefix_refl _, ?_⟩
  symm
  rw [List.filter_eq_self]
  intro p hp
  have : p.1 ∈ c._lru := (h.lru_keys p.1).2 (List.mem_map_of_mem Prod.fst hp)
  simpa using this

theorem evict_loop_evicted (fuel : Nat) (c : LottieFrameCache) (h : Inv c) :
    Evicted c (evict_loop fuel c) := by
  induction fuel generalizing c with
  | zero => exact Evicted.refl h
  | succ n ih =>
    unfold evict_loop
    split
    · rename_i hc
      obtain ⟨init, old, hl⟩ := exists_init_last hc.2
      have hi := inv_evict_step h hl
      have hr := ih (evict_step c) hi
      have hnd : (init ++ [old]).Nodup := hl ▸ h.lru_nodup
      have hni : old ∉ init := fun hm => (List.nodup_append.1 hnd).2.2 hm (by simp)
      have hpre : (evict_loop n (evict_step c))._lru <+: init := by
        have := hr.lru_front
        rwa [evict_step_lru h hl] at this
      refine ⟨hr.inv, ?_, ?_, ?_⟩
      · rw [hr.cap, evict_step_capacity h hl]
      · rw [hl]
        exact hpre.trans (List.prefix_append _ _)
      · rw [hr.map_eq, evict_step_map h hl]
        simp only [map_erase, List.filter_filter]
        apply List.filter_congr
        intro p _
        by_cases hp : p.1 ∈ (evict_loop n (evict_step c))._lru
        · have : p.1 ≠ old := fun hpo => hni (hpo ▸ hpre.subset hp)
          simp [hp, this]
        · simp [hp]
    · exact Evicted.refl h

theorem evict_loop_modular (fuel : Nat) (c : LottieFrameCache) (h : Inv c) (hm : Modular c) :
    Modular (evict_loop fuel c) := by
  induction fuel generalizing c with
  | zero => exact hm
  | succ n ih =>
    unfold evict_loop
    split
    · rename_i hc
      obtain ⟨init, old, hl⟩ := exists_init_last hc.2
      exact ih _ (inv_evict_step h hl) (modular_evict_step h hm hl)
    · exact hm

theorem evict_loop_exact (fuel : Nat) (c : LottieFrameCache) (h : Inv c) (hx : Exact c) :
    Exact (evict_loop fuel c) := by
  induction fuel generalizing c with
  | zero => exact hx
  | succ n ih =>
    unfold evict_loop
    split
    · rename_i hc
      obtain ⟨init, old, hl⟩ := exists_init_last hc.2
      exact ih _ (inv_evict_step h hl) (exact_evict_step h hx hl)
    · exact hx

/-- With an exact counter, no prefix of `_lru` that fits in the capacity is longer than what
the eviction loop keeps. -/
theorem evict_loop_longest (fuel : Nat) (c : LottieFrameCache) (h : Inv c) (hx : Exact c)
    (p : List Key) (hp : p <+: c._lru) (hb : list_bytes c._map p ≤ c._capacity) :
    p.length ≤ (evict_loop fuel c)._lru.length := by
  induction fuel generalizing c with
  | zero => exact hp.length_le
  | succ n ih =>
    unfold evict_loop
    split
    · rename_i hc
      obtain ⟨init, old, hl⟩ := exists_init_last hc.2
      have hnd : (init ++ [old]).Nodup := hl ▸ h.lru_nodup
      have hni : old ∉ init := fun hm => (List.nodup_append.1 hnd).2.2 hm (by simp)
      have hlen : p.length ≤ init.length := by
        by_contra hcon
        have h1 : p.length ≤ c._lru.length := hp.length_le
        have h2 : c._lru.length = init.length + 1 := by simp [hl]
        have h3 : p = c._lru := hp.eq_of_length (by omega)
        rw [h3, ← h.total_eq, ← hx.1] at hb
        omega
      have hpi : p <+: init := by
        apply List.prefix_of_prefix_length_le hp _ hlen
        rw [hl]
        exact List.prefix_append _ _
      have hnp : old ∉ p := fun hm => hni (hpi.subset hm)
      apply ih (evict_step c) (inv_evict_step h hl) (exact_evict_step h hx hl)
      · rw [evict_step_lru h hl]
        exact hpi
      · rw [evict_step_map h hl, evict_step_capacity h hl,
          list_bytes_erase_of_not_mem _ hnp]
        exact hb
    · exact hp.length_le

/-- With an exact counter, what `_evict_if_needed` keeps fits in the capacity. -/
theorem evict_total_le (c : LottieFrameCache) (h : Inv c) (hm : Modular c) :
    (_evict_if_needed c)._used ≤ (_evict_if_needed c)._capacity := by
  have hex := evict_loop_exit c._lru.length c le_rfl
  have hev := evict_loop_evicted c._lru.length c h
  have hmo := evict_loop_modular c._lru.length c h hm
  unfold _evict_if_needed
  by_contra hcon
  have hnil : (evict_loop c._lru.length c)._lru = [] := by
    by_contra hne
    exact hex ⟨by omega, hne⟩
  have hmap : (evict_loop c._lru.length c)._map = [] := by
    rw [hev.map_eq, hnil]
    simp
  rw [hmo, hmap] at hcon
  simp [total_bytes] at hcon

end LottieFrameCache

/-! ## Frame cache: the public methods on a consistent cache -/

namespace LottieFrameCache

theorem put_update_of_some {c : LottieFrameCache} {key : Key} {e : Entry}
    (h : map_find c._map key = some e) (tex : TexRef) (bytes : Nat) :
    put_update c key tex bytes =
      { _map := map_assign c._map key { tex := tex, bytes := bytes },
        _lru := key :: c._lru.erase key,
        _capacity := c._capacity,
        _used := size_add (size_sub c._used e.bytes) bytes } := by
  have h2 : map_find (map_assign c._map key { tex := tex, bytes := bytes }) key
      = some { tex := tex, bytes := bytes } := by
    simp [map_find_assign, h]
  simp [put_update, h, _touch, h2]

theorem put_update_of_none {c : LottieFrameCache} {key : Key}
    (h : map_find c._map key = none) (tex : TexRef) (bytes : Nat) :
    put_update c key tex bytes =
      { _map := (key, { tex := tex, bytes := bytes }) :: c._map,
        _lru := key :: c._lru,
        _capacity := c._capacity,
        _used := size_add c._used bytes } := by
  simp [put_update, h, map_emplace]

theorem put_update_capacity (c : LottieFrameCache) (key : Key) (tex : TexRef) (bytes : Nat) :
    (put_update c key tex bytes)._capacity = c._capacity := by
  cases h : map_find c._map key with
  | none => rw [put_update_of_none h]
  | some e => rw [put_update_of_some h]

theorem inv_put_update {c : LottieFrameCache} (h : Inv c) (key : Key) (tex : TexRef)
    (bytes : Nat) : Inv (put_update c key tex bytes) := by
  cases hf : map_find c._map key with
  | none =>
    rw [put_update_of_none hf]
    have hk : key ∉ keys c._map := (map_find_eq_none_iff _ _).1 hf
    refine ⟨?_, ?_, ?_⟩
    · simp only [keys, List.map_cons, List.nodup_cons]
      exact ⟨hk, h.keys_nodup⟩
    · simp only [List.nodup_cons]
      exact ⟨fun hm => hk ((h.lru_keys key).1 hm), h.lru_nodup⟩
    · intro k
      simp only [keys, List.map_cons, List.mem_cons]
      have := h.lru_keys k
      simp only [keys] at this
      rw [this]
  | some e =>
    have h1 : Inv { c with _map := map_assign c._map key { tex := tex, bytes := bytes } } :=
      ⟨by simpa [keys_assign] using h.keys_nodup, h.lru_nodup,
        by simpa [keys_assign] using h.lru_keys⟩
    have h2 : map_find (map_assign c._map key { tex := tex, bytes := bytes }) key
        = some { tex := tex, bytes := bytes } := by
      simp [map_find_assign, hf]
    have h3 := inv_touch h1 key
    rw [touch_eq_of_find h2] at h3
    rw [put_update_of_some hf]
    exact ⟨h3.keys_nodup, h3.lru_nodup, h3.lru_keys⟩

/-- The sum of the recorded sizes after the replace-or-insert block of `put`. -/
theorem total_bytes_put_update {c : LottieFrameCache} (h : Inv c) (key : Key) (tex : TexRef)
    (bytes : Nat) :
    total_bytes (put_update c key tex bytes)._map
      = total_bytes (map_erase c._map key) + bytes := by
  cases hf : map_find c._map key with
  | none =>
    rw [put_update_of_none hf]
    have hk : key ∉ keys c._map := (map_find_eq_none_iff _ _).1 hf
    have h4 : map_erase c._map key = c._map := by
      unfold map_erase
      rw [List.filter_eq_self]
      intro p hp
      have : p.1 ≠ key := by
        rintro rfl
        exact hk (List.mem_map_of_mem Prod.fst hp)
      simpa using this
    rw [h4]
    simp only [total_bytes, List.map_cons, List.sum_cons]
    omega
  | some e =>
    rw [put_update_of_some hf]
    have h1 := total_bytes_assign h.keys_nodup hf { tex := tex, bytes := bytes }
    have h2 := total_bytes_erase h.keys_nodup hf
    simp only at h1 ⊢
    omega

theorem modular_put_update {c : LottieFrameCache} (h : Inv c) (hm : Modular c) (key : Key)
    (tex : TexRef) (bytes : Nat) : Modular (put_update c key tex bytes) := by
  have ht := total_bytes_put_update h key tex bytes
  unfold Modular at hm ⊢
  rw [ht]
  cases hf : map_find c._map key with
  | none =>
    have hk : key ∉ keys c._map := (map_find_eq_none_iff _ _).1 hf
    rw [put_update_of_none hf] at ht ⊢
    simp only [total_bytes, List.map_cons, List.sum_cons] at ht
    simp only [total_bytes, size_add, SIZE_MOD_eq] at hm ht ⊢
    omega
  | some e =>
    rw [put_update_of_some hf]
    have h2 := total_bytes_erase h.keys_nodup hf
    simp only [size_add, size_sub, SIZE_MOD_eq] at hm ⊢
    omega

theorem exact_put_update {c : LottieFrameCache} (h : Inv c) (hm : Modular c) (key : Key)
    (tex : TexRef) (bytes : Nat)
    (hfit : total_bytes (map_erase c._map key) + bytes < SIZE_MOD) :
    Exact (put_update c key tex bytes) := by
  have ht := total_bytes_put_update h key tex bytes
  have h2 := modular_put_update h hm key tex bytes
  unfold Modular at h2
  unfold Exact
  rw [ht] at h2 ⊢
  rw [Nat.mod_eq_of_lt hfit] at h2
  exact ⟨h2, hfit⟩

theorem inv_evict_if_needed {c : LottieFrameCache} (h : Inv c) : Inv (_evict_if_needed c) :=
  (evict_loop_evicted _ c h).inv

theorem get_of_none {c : LottieFrameCache} {a : String} {f : Int} {s : Vector2i}
    (h : map_find c._map ⟨a, f, s.x, s.y⟩ = none) : c.get a f s = (c, none) := by
  simp [get, h]

theorem get_of_some {c : LottieFrameCache} {a : String} {f : Int} {s : Vector2i} {e : Entry}
    (h : map_find c._map ⟨a, f, s.x, s.y⟩ = some e) :
    c.get a f s = ({ c with _lru := ⟨a, f, s.x, s.y⟩ :: c._lru.erase ⟨a, f, s.x, s.y⟩ }, e.tex) := by
  simp [get, h, _touch]

theorem inv_get {c : LottieFrameCache} (h : Inv c) (a : String) (f : Int) (s : Vector2i) :
    Inv (c.get a f s).1 := by
  cases hf : map_find c._map ⟨a, f, s.x, s.y⟩ with
  | none =>
    rw [get_of_none hf]
    exact h
  | some e =>
    have := inv_touch h ⟨a, f, s.x, s.y⟩
    rw [touch_eq_of_find hf] at this
    rw [get_of_some hf]
    exact this

theorem get_map (c : LottieFrameCache) (a : String) (f : Int) (s : Vector2i) :
    (c.get a f s).1._map = c._map := by
  cases hf : map_find c._map ⟨a, f, s.x, s.y⟩ with
  | none => rw [get_of_none hf]
  | some e => rw [get_of_some hf]

theorem get_used (c : LottieFrameCache) (a : String) (f : Int) (s : Vector2i) :
    (c.get a f s).1._used = c._used := by
  cases hf : map_find c._map ⟨a, f, s.x, s.y⟩ with
  | none => rw [get_of_none hf]
  | some e => rw [get_of_some hf]

theorem get_capacity (c : LottieFrameCache) (a : String) (f : Int) (s : Vector2i) :
    (c.get a f s).1._capacity = c._capacity := by
  cases hf : map_find c._map ⟨a, f, s.x, s.y⟩ with
  | none => rw [get_of_none hf]
  | some e => rw [get_of_some hf]

theorem inv_apply {c : LottieFrameCache} (h : Inv c) (op : Op) : Inv (op.apply c) := by
  cases op with
  | get a f s => exact inv_get h a f s
  | put a f s tex b =>
    simp only [Op.apply, put]
    split
    · exact h
    · exact inv_evict_if_needed (inv_put_update h _ _ _)
  | set_capacity_bytes b =>
    exact inv_evict_if_needed ⟨h.keys_nodup, h.lru_nodup, h.lru_keys⟩
  | clear => exact inv_clear c

theorem modular_apply {c : LottieFrameCache} (h : Inv c) (hm : Modular c) (op : Op) :
    Modular (op.apply c) := by
  cases op with
  | get a f s =>
    simp only [Op.apply, Modular, get_map, get_used]
    exact hm
  | put a f s tex b =>
    simp only [Op.apply, put]
    split
    · exact hm
    · exact evict_loop_modular _ _ (inv_put_update h _ _ _) (modular_put_update h hm _ _ _)
  | set_capacity_bytes b =>
    exact evict_loop_modular _ _ ⟨h.keys_nodup, h.lru_nodup, h.lru_keys⟩ hm
  | clear => simp [Op.apply, clear, Modular, total_bytes]

theorem run_from_append (c : LottieFrameCache) (ops1 ops2 : List Op) :
    run_from c (ops1 ++ ops2) = run_from (run_from c ops1) ops2 := by
  simp [run_from, List.foldl_append]

theorem run_from_cons (c : LottieFrameCache) (op : Op) (ops : List Op) :
    run_from c (op :: ops) = run_from (op.apply c) ops := rfl

theorem inv_run_from {c : LottieFrameCache} (h : Inv c) (ops : List Op) :
    Inv (run_from c ops) := by
  induction ops generalizing c with
  | nil => exact h
  | cons op ops ih => exact ih (inv_apply h op)

theorem modular_run_from {c : LottieFrameCache} (h : Inv c) (hm : Modular c)
    (ops : List Op) : Modular (run_from c ops) := by
  induction ops generalizing c with
  | nil => exact hm
  | cons op ops ih => exact ih (inv_apply h op) (modular_apply h hm op)

theorem inv_run (ops : List Op) : Inv (run ops) := inv_run_from inv_empty ops

theorem modular_run (ops : List Op) : Modular (run ops) :=
  modular_run_from inv_empty (by simp [Modular, empty, total_bytes]) ops

end LottieFrameCache

/-! ## Frame cache: runs of calls -/

namespace LottieFrameCache

theorem run_snoc (ops : List Op) (op : Op) : run (ops ++ [op]) = op.apply (run ops) := by
  simp [run, run_from, List.foldl_append]

theorem exact_apply {c : LottieFrameCache} (h : Inv c) (hx : Exact c) (op : Op)
    (hfit : op.fits c = true) : Exact (op.apply c) := by
  cases op with
  | get a f s =>
    simp only [Op.apply, Exact, get_map, get_used]
    exact hx
  | put a f s tex b =>
    simp only [Op.apply, put]
    split
    · exact hx
    · rename_i hg
      have hfit2 : total_bytes (map_erase c._map ⟨a, f, s.x, s.y⟩) + b < SIZE_MOD := by
        simp only [Op.fits, decide_eq_true_eq] at hfit
        rcases hfit with h1 | h1 | h1
        · exact absurd (Or.inl h1) hg
        · exact absurd (Or.inr h1) hg
        · exact h1
      exact evict_loop_exact _ _ (inv_put_update h _ _ _)
        (exact_put_update h hx.modular _ _ _ hfit2)
  | set_capacity_bytes b =>
    exact evict_loop_exact _ _ ⟨h.keys_nodup, h.lru_nodup, h.lru_keys⟩ hx
  | clear => simp [Op.apply, clear, Exact, total_bytes, SIZE_MOD_eq]

theorem exact_run_from {c : LottieFrameCache} (h : Inv c) (hx : Exact c) (ops : List Op)
    (hfit : fits_from c ops = true) : Exact (run_from c ops) := by
  induction ops generalizing c with
  | nil => exact hx
  | cons op ops ih =>
    simp only [fits_from, Bool.and_eq_true] at hfit
    exact ih (inv_apply h op) (exact_apply h hx op hfit.1) hfit.2

theorem exact_empty : Exact empty := by
  simp [Exact, empty, total_bytes, SIZE_MOD_eq]

theorem exact_run (ops : List Op) (hfit : fits_from empty ops = true) : Exact (run ops) :=
  exact_run_from inv_empty exact_empty ops hfit

theorem fits_from_append (c : LottieFrameCache) (ops1 ops2 : List Op) :
    fits_from c (ops1 ++ ops2) = (fits_from c ops1 && fits_from (run_from c ops1) ops2) := by
  induction ops1 generalizing c with
  | nil => simp [fits_from, run_from]
  | cons op ops ih => simp [fits_from, run_from_cons, ih, Bool.and_assoc]

theorem fits_from_take (c : LottieFrameCache) (ops : List Op) (n : Nat)
    (h : fits_from c ops = true) : fits_from c (ops.take n) = true := by
  have h2 := fits_from_append c (ops.take n) (ops.drop n)
  rw [List.take_append_drop, h] at h2
  have h3 := h2.symm
  simp only [Bool.and_eq_true] at h3
  exact h3.1

/-- The counter never exceeds the capacity after a call. -/
theorem used_le_apply {c : LottieFrameCache} (h : Inv c) (hm : Modular c)
    (hu : c._used ≤ c._capacity) (op : Op) : (op.apply c)._used ≤ (op.apply c)._capacity := by
  cases op with
  | get a f s =>
    simp only [Op.apply, get_used, get_capacity]
    exact hu
  | put a f s tex b =>
    simp only [Op.apply, put]
    split
    · exact hu
    · exact evict_total_le _ (inv_put_update h _ _ _) (modular_put_update h hm _ _ _)
  | set_capacity_bytes b =>
    exact evict_total_le _ ⟨h.keys_nodup, h.lru_nodup, h.lru_keys⟩ hm
  | clear => simp [Op.apply, clear]

theorem used_le_run (ops : List Op) : (run ops)._used ≤ (run ops)._capacity := by
  induction ops using List.reverseRecOn with
  | nil => simp [run, run_from, empty]
  | append_singleton ops op ih =>
    rw [run_snoc]
    exact used_le_apply (inv_run ops) (modular_run ops) ih op

end LottieFrameCache

namespace LottieFrameCache

theorem evict_step_find (c : LottieFrameCache) (k : Key) :
    map_find (evict_step c)._map k = none ∨ map_find (evict_step c)._map k = map_find c._map k := by
  cases hg : c._lru.getLast? with
  | none => simp [evict_step, hg]
  | some old =>
    cases hf : map_find c._map old with
    | none => simp [evict_step, hg, hf]
    | some e =>
      simp only [evict_step, hg, hf, map_find_erase]
      by_cases hk : k = old
      · simp [hk]
      · simp [hk]

/-- The eviction loop never changes what is stored under a key: it drops it or keeps it. -/
theorem evict_loop_find (fuel : Nat) (c : LottieFrameCache) (k : Key) :
    map_find (evict_loop fuel c)._map k = none
      ∨ map_find (evict_loop fuel c)._map k = map_find c._map k := by
  induction fuel generalizing c with
  | zero => exact Or.inr rfl
  | succ n ih =>
    unfold evict_loop
    split
    · rcases ih (evict_step c) with h | h
      · exact Or.inl h
      · rcases evict_step_find c k with h2 | h2
        · exact Or.inl (h.trans h2)
        · exact Or.inr (h.trans h2)
    · exact Or.inr rfl

theorem put_update_find_ne (c : LottieFrameCache) {key k : Key} (h : k ≠ key) (tex : TexRef)
    (bytes : Nat) : map_find (put_update c key tex bytes)._map k = map_find c._map k := by
  have h2 : ¬ key = k := fun h3 => h h3.symm
  cases hf : map_find c._map key with
  | none =>
    rw [put_update_of_none hf]
    simp [map_find, h2]
  | some e =>
    rw [put_update_of_some hf]
    simp [map_find_assign, h]

theorem put_update_find_self (c : LottieFrameCache) (key : Key) (tex : TexRef) (bytes : Nat) :
    map_find (put_update c key tex bytes)._map key = some { tex := tex, bytes := bytes } := by
  cases hf : map_find c._map key with
  | none =>
    rw [put_update_of_none hf]
    simp [map_find]
  | some e =>
    rw [put_update_of_some hf]
    simp [map_find_assign, hf]

theorem last_put_snoc (key : Key) (ops : List Op) (op : Op) :
    last_put key (ops ++ [op]) = (op.stores key).or (last_put key ops) := by
  unfold last_put
  rw [List.reverse_append]
  simp only [List.reverse_cons, List.reverse_nil, List.nil_append, List.singleton_append,
    List.findSome?_cons]
  cases h : op.stores key <;> simp

/-- Whatever a reachable cache holds under a key is what the latest accepted `put` on that
key stored. -/
theorem find_run_eq_last_put (ops : List Op) (key : Key) (e : Entry)
    (h : map_find (run ops)._map key = some e) : last_put key ops = some e := by
  induction ops using List.reverseRecOn generalizing e with
  | nil => simp [run, run_from, empty, map_find] at h
  | append_singleton ops op ih =>
    rw [run_snoc] at h
    rw [last_put_snoc]
    cases op with
    | get a f s =>
      simp only [Op.apply, get_map] at h
      simp [Op.stores, ih e h]
    | put a f s tex b =>
      simp only [Op.apply, put] at h
      by_cases hg : b = 0 ∨ tex = none
      · rw [if_pos hg] at h
        have : Op.stores key (.put a f s tex b) = none := by
          simp only [Op.stores]
          rw [if_neg]
          exact fun hh => hh.2 hg
        simp [this, ih e h]
      · rw [if_neg hg] at h
        have h2 : map_find (put_update (run ops) ⟨a, f, s.x, s.y⟩ tex b)._map key = some e := by
          rcases evict_loop_find _ (put_update (run ops) ⟨a, f, s.x, s.y⟩ tex b) key with h3 | h3
          · rw [_evict_if_needed, h3] at h
            exact absurd h (by simp)
          · rw [_evict_if_needed, h3] at h
            exact h
        by_cases hk : (⟨a, f, s.x, s.y⟩ : Key) = key
        · rw [← hk, put_update_find_self] at h2
          have : Op.stores key (.put a f s tex b) = some { tex := tex, bytes := b } := by
            simp only [Op.stores]
            rw [if_pos ⟨hk, hg⟩]
          rw [this, ← h2]
          rfl
        · have hk2 : key ≠ ⟨a, f, s.x, s.y⟩ := fun hh => hk hh.symm
          rw [put_update_find_ne _ hk2] at h2
          have : Op.stores key (.put a f s tex b) = none := by
            simp only [Op.stores]
            rw [if_neg]
            exact fun hh => hk hh.1
          simp [this, ih e h2]
    | set_capacity_bytes b =>
      simp only [Op.apply, set_capacity_bytes, _evict_if_needed] at h
      rcases evict_loop_find (run ops)._lru.length { run ops with _capacity := b } key
        with h3 | h3
      · rw [h3] at h
        exact absurd h (by simp)
      · rw [h3] at h
        simp [Op.stores, ih e h]
    | clear =>
      simp [Op.apply, clear, map_find] at h

end LottieFrameCache

namespace LottieFrameCache

theorem prefix_head {l m : List Key} {k : Key} (hp : l <+: m) (hm : m.head? = some k) :
    l = [] ∨ l.head? = some k := by
  cases l with
  | nil => exact Or.inl rfl
  | cons x xs =>
    obtain ⟨t, ht⟩ := hp
    subst ht
    exact Or.inr hm

end LottieFrameCache

/-! ## Frame cache: the recency list is ordered by last touch -/

namespace LottieFrameCache

theorem last_touch_snoc (key : Key) (ops : List Op) (op : Op) :
    last_touch key (ops ++ [op])
      = if Op.touches (run ops) op = some key then some ops.length else last_touch key ops := by
  simp [last_touch, last_touch_rev]

theorem last_touch_lt {key : Key} {ops : List Op} {t : Nat}
    (h : last_touch key ops = some t) : t < ops.length := by
  induction ops using List.reverseRecOn generalizing t with
  | nil => simp [last_touch, last_touch_rev] at h
  | append_singleton ops op ih =>
    rw [last_touch_snoc] at h
    split at h
    · simp only [Option.some.injEq] at h
      simp
      omega
    · have := ih h
      simp
      omega

theorem Recent.sublist {ops : List Op} {l l2 : List Key} (h : Recent ops l)
    (hs : l2.Sublist l) : Recent ops l2 :=
  ⟨fun k hk => h.1 k (hs.subset hk), h.2.sublist hs⟩

/-- A call that touches no key keeps the order. -/
theorem Recent.snoc_none {ops : List Op} {l : List Key} (h : Recent ops l) (op : Op)
    (ht : Op.touches (run ops) op = none) : Recent (ops ++ [op]) l := by
  have hlt : ∀ k, last_touch k (ops ++ [op]) = last_touch k ops := by
    intro k
    rw [last_touch_snoc, ht]
    simp
  refine ⟨fun k hk => by rw [hlt]; exact h.1 k hk, ?_⟩
  refine h.2.imp ?_
  intro y x hxy
  simpa [older, hlt] using hxy

/-- A call that touches `key` puts it in front of the others. -/
theorem Recent.snoc_some {ops : List Op} {l : List Key} (h : Recent ops l) (hn : l.Nodup)
    (op : Op) (key : Key) (ht : Op.touches (run ops) op = some key) :
    Recent (ops ++ [op]) (key :: l.erase key) := by
  have hkey : last_touch key (ops ++ [op]) = some ops.length := by
    rw [last_touch_snoc, ht]
    simp
  have hne : ∀ k, k ≠ key → last_touch k (ops ++ [op]) = last_touch k ops := by
    intro k hk
    rw [last_touch_snoc, ht]
    have : ¬ (some key = some k) := fun hh => hk (Option.some.inj hh).symm
    simp [this]
  refine ⟨?_, ?_⟩
  · intro k hk
    rcases List.mem_cons.1 hk with rfl | hk
    · exact ⟨_, hkey⟩
    · have := (hn.mem_erase_iff).1 hk
      rw [hne k this.1]
      exact h.1 k this.2
  · rw [List.pairwise_cons]
    refine ⟨?_, ?_⟩
    · intro x hx
      have hx2 := (hn.mem_erase_iff).1 hx
      obtain ⟨t, ht2⟩ := h.1 x hx2.2
      have hlt := last_touch_lt ht2
      simp [older, hkey, hne x hx2.1, ht2, hlt]
    · have hsub : (l.erase key).Sublist l := List.erase_sublist _ _
      have hp := h.2.sublist hsub
      have hp2 : (l.erase key).Pairwise (fun y x => y ≠ key ∧ x ≠ key) := by
        rw [List.pairwise_iff_forall_sublist]
        intro y x hyx
        have hy : y ∈ l.erase key := hyx.subset (by simp)
        have hx : x ∈ l.erase key := hyx.subset (by simp)
        exact ⟨((hn.mem_erase_iff).1 hy).1, ((hn.mem_erase_iff).1 hx).1⟩
      refine (hp.and hp2).imp ?_
      rintro y x ⟨hxy, hy, hx⟩
      simpa [older, hne x hx, hne y hy] using hxy

theorem put_update_lru (c : LottieFrameCache) (hi : Inv c) (key : Key) (tex : TexRef)
    (bytes : Nat) : (put_update c key tex bytes)._lru = key :: c._lru.erase key := by
  cases hf : map_find c._map key with
  | none =>
    rw [put_update_of_none hf]
    have hk : key ∉ c._lru := fun hm =>
      (map_find_eq_none_iff _ _).1 hf ((hi.lru_keys key).1 hm)
    simp [List.erase_of_not_mem hk]
  | some e => rw [put_update_of_some hf]

/-- The recency list of a reachable cache lists its keys from the latest touched to the
earliest. -/
theorem recent_run (ops : List Op) : Recent ops (run ops)._lru := by
  induction ops using List.reverseRecOn with
  | nil => exact ⟨by simp [run, run_from, empty], by simp [run, run_from, empty]⟩
  | append_singleton ops op ih =>
    have hi := inv_run ops
    rw [run_snoc]
    cases op with
    | get a f s =>
      cases hf : map_find (run ops)._map ⟨a, f, s.x, s.y⟩ with
      | none =>
        simp only [Op.apply, get_of_none hf]
        exact ih.snoc_none _ (by simp [Op.touches, hf])
      | some e =>
        simp only [Op.apply, get_of_some hf]
        exact ih.snoc_some hi.lru_nodup _ _ (by simp [Op.touches, hf])
    | put a f s tex b =>
      simp only [Op.apply, put]
      by_cases hg : b = 0 ∨ tex = none
      · rw [if_pos hg]
        exact ih.snoc_none _ (by simp only [Op.touches]; rw [if_pos hg])
      · rw [if_neg hg]
        have hmid := ih.snoc_some hi.lru_nodup (.put a f s tex b) ⟨a, f, s.x, s.y⟩
          (by simp only [Op.touches]; rw [if_neg hg])
        rw [← put_update_lru _ hi _ tex b] at hmid
        exact hmid.sublist
          (evict_loop_evicted _ _ (inv_put_update hi _ _ _)).lru_front.sublist
    | set_capacity_bytes n =>
      have h0 := ih.snoc_none (.set_capacity_bytes n) (by simp [Op.touches])
      exact h0.sublist
        (evict_loop_evicted _ { run ops with _capacity := n }
          ⟨hi.keys_nodup, hi.lru_nodup, hi.lru_keys⟩).lru_front.sublist
    | clear =>
      exact ⟨by simp [Op.apply, clear], by simp [Op.apply, clear]⟩

end LottieFrameCache

namespace LottieFrameCache

theorem map_find_filter_key (q : Key → Bool) (m : List (Key × Entry)) (k : Key) :
    map_find (m.filter (fun p => q p.1)) k = if q k = true then map_find m k else none := by
  induction m with
  | nil => simp [map_find]
  | cons p m ih =>
    obtain ⟨k2, e2⟩ := p
    by_cases h1 : q k2 = true
    · simp only [List.filter_cons, h1, if_true, map_find]
      by_cases h2 : k2 = k
      · subst h2
        simp [h1]
      · simp only [h2, if_false, ih]
    · have h3 : q k2 = false := by simpa using h1
      have h4 : List.filter (fun p => q p.1) ((k2, e2) :: m) = List.filter (fun p => q p.1) m := by
        simp [List.filter_cons, h3]
      rw [h4, ih]
      by_cases h2 : k2 = k
      · subst h2
        simp [h3]
      · simp [map_find, h2]

theorem evict_if_needed_of_le (c : LottieFrameCache) (h : c._used ≤ c._capacity) :
    _evict_if_needed c = c := by
  unfold _evict_if_needed
  cases c._lru.length with
  | zero => rfl
  | succ n =>
    unfold evict_loop
    rw [if_neg]
    intro hh
    omega

/-- What `_evict_if_needed` does to a consistent cache whose counter is exact: it keeps the
longest front part of the recency list that fits in the capacity, with its entries. -/
theorem evict_if_needed_spec (mid : LottieFrameCache) (hi : Inv mid) (hx : Exact mid) :
    (_evict_if_needed mid)._capacity = mid._capacity
    ∧ (_evict_if_needed mid)._lru <+: mid._lru
    ∧ list_bytes mid._map (_evict_if_needed mid)._lru ≤ mid._capacity
    ∧ (∀ p, p <+: mid._lru → list_bytes mid._map p ≤ mid._capacity →
        p.length ≤ (_evict_if_needed mid)._lru.length)
    ∧ (_evict_if_needed mid)._map
        = mid._map.filter (fun p => decide (p.1 ∈ (_evict_if_needed mid)._lru)) := by
  have hev := evict_loop_evicted mid._lru.length mid hi
  have hex := evict_loop_exact mid._lru.length mid hi hx
  have hle := evict_total_le mid hi hx.modular
  refine ⟨hev.cap, hev.lru_front, ?_, ?_, hev.map_eq⟩
  · have h1 : list_bytes mid._map (_evict_if_needed mid)._lru
        = list_bytes (_evict_if_needed mid)._map (_evict_if_needed mid)._lru := by
      unfold list_bytes
      apply congrArg
      apply List.map_congr_left
      intro k hk
      have hk2 : k ∈ (evict_loop mid._lru.length mid)._lru := hk
      have : map_find (_evict_if_needed mid)._map k = map_find mid._map k := by
        show map_find (evict_loop mid._lru.length mid)._map k = _
        rw [hev.map_eq]
        rw [map_find_filter_key (fun k => decide (k ∈ (evict_loop mid._lru.length mid)._lru))]
        simp [hk2]
      simp [entry_bytes, this]
    have h0 : total_bytes (_evict_if_needed mid)._map
        = list_bytes (_evict_if_needed mid)._map (_evict_if_needed mid)._lru :=
      Inv.total_eq hev.inv
    rw [h1, ← h0]
    have h2 : (_evict_if_needed mid)._used = total_bytes (_evict_if_needed mid)._map := hex.1
    have h3 : (_evict_if_needed mid)._capacity = mid._capacity := hev.cap
    omega
  · intro p hp hb
    exact evict_loop_longest _ mid hi hx p hp hb

end LottieFrameCache

/-! ## Frame cache: the properties -/

namespace LottieFrameCache

/-- C1 (as stated, refuted).  With capacity `2 ^ 64 - 1`, two entries of `2 ^ 63` bytes
wrap the `size_t` counter `_used` to 0, so nothing is evicted and the cache holds
`2 ^ 64` bytes, more than its capacity.  All arguments are values of `size_t`. -/
theorem capacity_invariant_fails_on_wrap :
    ([Op.set_capacity_bytes (2 ^ 64 - 1), .put "A" 0 ⟨1, 1⟩ (some 1) (2 ^ 63),
        .put "B" 0 ⟨1, 1⟩ (some 2) (2 ^ 63)].all Op.in_range = true)
    ∧ (run [.set_capacity_bytes (2 ^ 64 - 1), .put "A" 0 ⟨1, 1⟩ (some 1) (2 ^ 63),
        .put "B" 0 ⟨1, 1⟩ (some 2) (2 ^ 63)])._capacity
      < total_bytes (run [.set_capacity_bytes (2 ^ 64 - 1), .put "A" 0 ⟨1, 1⟩ (some 1) (2 ^ 63),
        .put "B" 0 ⟨1, 1⟩ (some 2) (2 ^ 63)])._map := by
  decide

/-- C1 (amended).  Capacity invariant: starting from an empty cache, for every finite
sequence of `get`, `put`, `set_capacity_bytes` and `clear` calls during which the recorded
byte sizes (the size being put included) never add up to `2 ^ 64` or more, after each call
(after the first `n` calls, for every `n`) the sum of the byte sizes of the entries held is
at most the configured capacity. -/
theorem capacity_invariant (ops : List Op) (hfit : fits_from empty ops = true) (n : Nat) :
    total_bytes (run (ops.take n))._map ≤ (run (ops.take n))._capacity := by
  have hx := exact_run (ops.take n) (fits_from_take _ _ n hfit)
  rw [← hx.1]
  exact used_le_run _

/-- C1, an instance: capacity 25 MiB and three entries of 10 MiB. -/
theorem capacity_invariant_witness :
    fits_from empty [.set_capacity_bytes (25 * 1048576), .put "A" 0 ⟨1, 1⟩ (some 1) (10 * 1048576),
        .put "B" 0 ⟨1, 1⟩ (some 2) (10 * 1048576), .put "C" 0 ⟨1, 1⟩ (some 3) (10 * 1048576)] = true
    ∧ total_bytes (run (List.take 4 [.set_capacity_bytes (25 * 1048576),
        .put "A" 0 ⟨1, 1⟩ (some 1) (10 * 1048576), .put "B" 0 ⟨1, 1⟩ (some 2) (10 * 1048576),
        .put "C" 0 ⟨1, 1⟩ (some 3) (10 * 1048576)]))._map
      ≤ (run (List.take 4 [.set_capacity_bytes (25 * 1048576),
        .put "A" 0 ⟨1, 1⟩ (some 1) (10 * 1048576), .put "B" 0 ⟨1, 1⟩ (some 2) (10 * 1048576),
        .put "C" 0 ⟨1, 1⟩ (some 3) (10 * 1048576)]))._capacity :=
  ⟨by decide, capacity_invariant _ (by decide) 4⟩

/-- C3.  `get` on a hit: in a cache reached by any sequence of calls, for a key that is
present, `get` returns the buffer most recently stored under that key by `put`, makes the
key the first of the recency list and keeps the others in their order (the new list is the
key followed by the old list without it), and leaves the entries with their buffers and
sizes, the running byte total and the capacity unchanged. -/
theorem get_hit (ops : List Op) (a : String) (f : Int) (s : Vector2i) (e : Entry)
    (h : map_find (run ops)._map ⟨a, f, s.x, s.y⟩ = some e) :
    last_put ⟨a, f, s.x, s.y⟩ ops = some e
    ∧ ((run ops).get a f s).2 = e.tex
    ∧ ((run ops).get a f s).1._lru
        = ⟨a, f, s.x, s.y⟩ :: (run ops)._lru.filter (fun k => decide (k ≠ ⟨a, f, s.x, s.y⟩))
    ∧ (⟨a, f, s.x, s.y⟩ : Key) ∈ (run ops)._lru
    ∧ ((run ops).get a f s).1._map = (run ops)._map
    ∧ ((run ops).get a f s).1._used = (run ops)._used
    ∧ ((run ops).get a f s).1._capacity = (run ops)._capacity := by
  have hi := inv_run ops
  refine ⟨find_run_eq_last_put ops _ e h, ?_, ?_, ?_, get_map _ _ _ _, get_used _ _ _ _,
    get_capacity _ _ _ _⟩
  · rw [get_of_some h]
  · rw [get_of_some h]
    simp only [List.cons.injEq, true_and]
    rw [hi.lru_nodup.erase_eq_filter]
    apply List.filter_congr
    intro k _
    by_cases hk : k = ⟨a, f, s.x, s.y⟩ <;> simp [hk, bne]
  · exact (hi.lru_keys _).2 ((map_find_isSome_iff _ _).1 (by simp [h]))

/-- C3, an instance: `B` is read back after `A`, `B`, `C` were stored. -/
theorem get_hit_witness :
    map_find (run [.put "A" 0 ⟨1, 1⟩ (some 1) 10, .put "B" 0 ⟨1, 1⟩ (some 2) 10,
        .put "C" 0 ⟨1, 1⟩ (some 3) 10])._map ⟨"B", 0, (⟨1, 1⟩ : Vector2i).x, (⟨1, 1⟩ : Vector2i).y⟩
      = some ⟨some 2, 10⟩
    ∧ ((run [.put "A" 0 ⟨1, 1⟩ (some 1) 10, .put "B" 0 ⟨1, 1⟩ (some 2) 10,
        .put "C" 0 ⟨1, 1⟩ (some 3) 10]).get "B" 0 ⟨1, 1⟩).2 = some 2 :=
  ⟨by decide,
    (get_hit [.put "A" 0 ⟨1, 1⟩ (some 1) 10, .put "B" 0 ⟨1, 1⟩ (some 2) 10,
        .put "C" 0 ⟨1, 1⟩ (some 3) 10] "B" 0 ⟨1, 1⟩ ⟨some 2, 10⟩ (by decide)).2.1⟩

/-- C4.  `get` on a miss: for every cache state and every key (anim, frame, width, height)
that has no entry, `get` returns the null handle and the cache (entries, recency order,
running byte total, capacity) is the same after the call as before. -/
theorem get_miss (c : LottieFrameCache) (a : String) (f : Int) (s : Vector2i)
    (h : (⟨a, f, s.x, s.y⟩ : Key) ∉ keys c._map) : c.get a f s = (c, none) :=
  get_of_none ((map_find_eq_none_iff _ _).2 h)

/-- C4, an instance: a key of another size misses. -/
theorem get_miss_witness :
    (⟨"x", 5, 200, 200⟩ : Key) ∉ keys (run [.put "x" 5 ⟨100, 100⟩ (some 1) 10])._map
    ∧ (run [.put "x" 5 ⟨100, 100⟩ (some 1) 10]).get "x" 5 ⟨200, 200⟩
        = (run [.put "x" 5 ⟨100, 100⟩ (some 1) 10], none) :=
  ⟨by decide, get_miss (run [.put "x" 5 ⟨100, 100⟩ (some 1) 10]) "x" 5 ⟨200, 200⟩ (by decide)⟩

/-- C5.  `put` rejects failed renders: for every cache state, key and arguments, if
`bytes == 0` or the buffer handle is null then `put` returns the cache unchanged: entries,
recency order, running byte total and capacity (so an entry already cached under the key is
neither replaced, touched nor evicted). -/
theorem put_rejects (c : LottieFrameCache) (a : String) (f : Int) (s : Vector2i)
    (tex : TexRef) (bytes : Nat) (h : bytes = 0 ∨ tex = none) : c.put a f s tex bytes = c := by
  simp [put, h]

/-- C5, an instance: a null handle on a key that is cached. -/
theorem put_rejects_witness :
    ((10 : Nat) = 0 ∨ (none : TexRef) = none)
    ∧ (run [.put "x" 5 ⟨100, 100⟩ (some 1) 10]).put "x" 5 ⟨100, 100⟩ none 10
        = run [.put "x" 5 ⟨100, 100⟩ (some 1) 10] :=
  ⟨Or.inr rfl, put_rejects _ "x" 5 ⟨100, 100⟩ none 10 (Or.inr rfl)⟩

/-- C6 (as stated, refuted).  With capacity `2 ^ 64 - 1`, `A` of `2 ^ 63` bytes and `B` of
`2 ^ 62` bytes cached, a second `put` on `B` with `2 ^ 63` bytes leaves the `size_t` counter
at 0 before eviction, not at old total - old size + new size (which is `2 ^ 64`). -/
theorem reput_total_fails_on_wrap :
    map_find (run [.set_capacity_bytes (2 ^ 64 - 1), .put "A" 0 ⟨1, 1⟩ (some 1) (2 ^ 63),
        .put "B" 0 ⟨1, 1⟩ (some 2) (2 ^ 62)])._map ⟨"B", 0, 1, 1⟩ = some ⟨some 2, 2 ^ 62⟩
    ∧ (put_update (run [.set_capacity_bytes (2 ^ 64 - 1), .put "A" 0 ⟨1, 1⟩ (some 1) (2 ^ 63),
        .put "B" 0 ⟨1, 1⟩ (some 2) (2 ^ 62)]) ⟨"B", 0, 1, 1⟩ (some 3) (2 ^ 63))._used = 0
    ∧ (put_update (run [.set_capacity_bytes (2 ^ 64 - 1), .put "A" 0 ⟨1, 1⟩ (some 1) (2 ^ 63),
        .put "B" 0 ⟨1, 1⟩ (some 2) (2 ^ 62)]) ⟨"B", 0, 1, 1⟩ (some 3) (2 ^ 63))._used
      ≠ (run [.set_capacity_bytes (2 ^ 64 - 1), .put "A" 0 ⟨1, 1⟩ (some 1) (2 ^ 63),
        .put "B" 0 ⟨1, 1⟩ (some 2) (2 ^ 62)])._used - 2 ^ 62 + 2 ^ 63 := by
  decide

/-- C6 (amended).  Re-put of an existing key: in a cache reached by any sequence of calls
that holds key `k` with recorded size `s_old`, `put(k, tex, b)` with a valid `tex` and
`b > 0` is the eviction applied to the cache left by the replace block; that cache and the
final one have at most one entry and one recency-list position for `k`; `k` is first in
the recency list before eviction and first among what eviction keeps; the running byte
total before eviction is (old total - `s_old` + `b`) reduced modulo `2 ^ 64`, hence that
very value when it is below `2 ^ 64` and `s_old` is at most the old total; and if `k`
survives eviction its entry holds `tex` with recorded size `b`. -/
theorem reput_existing (ops : List Op) (a : String) (f : Int) (s : Vector2i) (tex : TexRef)
    (b : Nat) (e_old : Entry) (h : map_find (run ops)._map ⟨a, f, s.x, s.y⟩ = some e_old)
    (hb : b ≠ 0) (ht : tex ≠ none) :
    (run ops).put a f s tex b = _evict_if_needed (put_update (run ops) ⟨a, f, s.x, s.y⟩ tex b)
    ∧ (keys (put_update (run ops) ⟨a, f, s.x, s.y⟩ tex b)._map).count ⟨a, f, s.x, s.y⟩ = 1
    ∧ (put_update (run ops) ⟨a, f, s.x, s.y⟩ tex b)._lru.count ⟨a, f, s.x, s.y⟩ = 1
    ∧ (keys ((run ops).put a f s tex b)._map).count ⟨a, f, s.x, s.y⟩ ≤ 1
    ∧ ((run ops).put a f s tex b)._lru.count ⟨a, f, s.x, s.y⟩ ≤ 1
    ∧ (put_update (run ops) ⟨a, f, s.x, s.y⟩ tex b)._lru.head? = some ⟨a, f, s.x, s.y⟩
    ∧ (((run ops).put a f s tex b)._lru = []
        ∨ ((run ops).put a f s tex b)._lru.head? = some ⟨a, f, s.x, s.y⟩)
    ∧ ((put_update (run ops) ⟨a, f, s.x, s.y⟩ tex b)._used : Int)
        = (((run ops)._used : Int) - e_old.bytes + b) % (SIZE_MOD : Int)
    ∧ (e_old.bytes ≤ (run ops)._used → (run ops)._used - e_old.bytes + b < SIZE_MOD →
        (put_update (run ops) ⟨a, f, s.x, s.y⟩ tex b)._used = (run ops)._used - e_old.bytes + b)
    ∧ (∀ e, map_find ((run ops).put a f s tex b)._map ⟨a, f, s.x, s.y⟩ = some e →
        e = ⟨tex, b⟩) := by
  have hi := inv_run ops
  have hmid := inv_put_update hi ⟨a, f, s.x, s.y⟩ tex b
  have hput : (run ops).put a f s tex b
      = _evict_if_needed (put_update (run ops) ⟨a, f, s.x, s.y⟩ tex b) := by
    simp [put, hb, ht]
  have hev := evict_loop_evicted (put_update (run ops) ⟨a, f, s.x, s.y⟩ tex b)._lru.length _ hmid
  have hself := put_update_find_self (run ops) ⟨a, f, s.x, s.y⟩ tex b
  have hmemk : (⟨a, f, s.x, s.y⟩ : Key) ∈ keys (put_update (run ops) ⟨a, f, s.x, s.y⟩ tex b)._map :=
    (map_find_isSome_iff _ _).1 (by simp [hself])
  have hused : (put_update (run ops) ⟨a, f, s.x, s.y⟩ tex b)._used
      = size_add (size_sub (run ops)._used e_old.bytes) b := by
    rw [put_update_of_some h]
  have hlru : (put_update (run ops) ⟨a, f, s.x, s.y⟩ tex b)._lru
      = ⟨a, f, s.x, s.y⟩ :: (run ops)._lru.erase ⟨a, f, s.x, s.y⟩ := by
    rw [put_update_of_some h]
  refine ⟨hput, ?_, ?_, ?_, ?_, ?_, ?_, ?_, ?_, ?_⟩
  · exact List.count_eq_one_of_mem hmid.keys_nodup hmemk
  · exact List.count_eq_one_of_mem hmid.lru_nodup ((hmid.lru_keys _).2 hmemk)
  · rw [hput]
    exact List.nodup_iff_count_le_one.1 hev.inv.keys_nodup _
  · rw [hput]
    exact List.nodup_iff_count_le_one.1 hev.inv.lru_nodup _
  · rw [hlru]
    rfl
  · rw [hput]
    exact prefix_head hev.lru_front (by rw [hlru]; rfl)
  · rw [hused]
    simp only [size_add, size_sub, SIZE_MOD_eq]
    omega
  · intro h1 h2
    rw [hused]
    simp only [size_add, size_sub, SIZE_MOD_eq] at h2 ⊢
    omega
  · intro e he
    rw [hput] at he
    rcases evict_loop_find (put_update (run ops) ⟨a, f, s.x, s.y⟩ tex b)._lru.length
      (put_update (run ops) ⟨a, f, s.x, s.y⟩ tex b) ⟨a, f, s.x, s.y⟩ with h3 | h3
    · rw [_evict_if_needed, h3] at he
      exact absurd he (by simp)
    · rw [_evict_if_needed, h3, hself] at he
      exact (Option.some.inj he).symm

/-- C6, an instance: `B` of 10 bytes is stored again with 30 bytes. -/
theorem reput_existing_witness :
    map_find (run [.put "A" 0 ⟨1, 1⟩ (some 1) 10, .put "B" 0 ⟨1, 1⟩ (some 2) 10])._map
        ⟨"B", 0, (⟨1, 1⟩ : Vector2i).x, (⟨1, 1⟩ : Vector2i).y⟩ = some ⟨some 2, 10⟩
    ∧ (10 ≤ (run [.put "A" 0 ⟨1, 1⟩ (some 1) 10, .put "B" 0 ⟨1, 1⟩ (some 2) 10])._used →
        (run [.put "A" 0 ⟨1, 1⟩ (some 1) 10, .put "B" 0 ⟨1, 1⟩ (some 2) 10])._used - 10 + 30
          < SIZE_MOD →
        (put_update (run [.put "A" 0 ⟨1, 1⟩ (some 1) 10, .put "B" 0 ⟨1, 1⟩ (some 2) 10])
          ⟨"B", 0, 1, 1⟩ (some 3) 30)._used
          = (run [.put "A" 0 ⟨1, 1⟩ (some 1) 10, .put "B" 0 ⟨1, 1⟩ (some 2) 10])._used - 10 + 30) :=
  ⟨by decide,
    (reput_existing [.put "A" 0 ⟨1, 1⟩ (some 1) 10, .put "B" 0 ⟨1, 1⟩ (some 2) 10] "B" 0 ⟨1, 1⟩
      (some 3) 30 ⟨some 2, 10⟩ (by decide) (by decide) (by decide)).2.2.2.2.2.2.2.2.1⟩

/-- C7.  Cache key discrimination: two keys that differ in at least one of (animation
string, frame, width, height) are distinct keys of the map, and for every cache state,
after `put(k1, tex, bytes)` the entry under `k2` is either absent or exactly the entry that
was under `k2` before the put; so `get(k2)` returns either the null handle or the buffer
that was stored under `k2` before the put. -/
theorem key_discrimination (c : LottieFrameCache) (a1 a2 : String) (f1 f2 : Int)
    (s1 s2 : Vector2i) (tex : TexRef) (bytes : Nat)
    (h : a1 ≠ a2 ∨ f1 ≠ f2 ∨ s1.x ≠ s2.x ∨ s1.y ≠ s2.y) :
    (⟨a1, f1, s1.x, s1.y⟩ : Key) ≠ ⟨a2, f2, s2.x, s2.y⟩
    ∧ (map_find (c.put a1 f1 s1 tex bytes)._map ⟨a2, f2, s2.x, s2.y⟩ = none
        ∨ map_find (c.put a1 f1 s1 tex bytes)._map ⟨a2, f2, s2.x, s2.y⟩
            = map_find c._map ⟨a2, f2, s2.x, s2.y⟩)
    ∧ (((c.put a1 f1 s1 tex bytes).get a2 f2 s2).2 = none
        ∨ ∃ e, map_find c._map ⟨a2, f2, s2.x, s2.y⟩ = some e
            ∧ ((c.put a1 f1 s1 tex bytes).get a2 f2 s2).2 = e.tex) := by
  have hne : (⟨a1, f1, s1.x, s1.y⟩ : Key) ≠ ⟨a2, f2, s2.x, s2.y⟩ := by
    intro heq
    injection heq with e1 e2 e3 e4
    rcases h with h | h | h | h
    · exact h e1
    · exact h e2
    · exact h e3
    · exact h e4
  have hfind : map_find (c.put a1 f1 s1 tex bytes)._map ⟨a2, f2, s2.x, s2.y⟩ = none
      ∨ map_find (c.put a1 f1 s1 tex bytes)._map ⟨a2, f2, s2.x, s2.y⟩
          = map_find c._map ⟨a2, f2, s2.x, s2.y⟩ := by
    unfold put
    split
    · exact Or.inr rfl
    · rcases evict_loop_find (put_update c ⟨a1, f1, s1.x, s1.y⟩ tex bytes)._lru.length
        (put_update c ⟨a1, f1, s1.x, s1.y⟩ tex bytes) ⟨a2, f2, s2.x, s2.y⟩ with h3 | h3
      · exact Or.inl h3
      · right
        rw [_evict_if_needed, h3]
        exact put_update_find_ne c (fun hh => hne hh.symm) tex bytes
  refine ⟨hne, hfind, ?_⟩
  cases hf : map_find (c.put a1 f1 s1 tex bytes)._map ⟨a2, f2, s2.x, s2.y⟩ with
  | none =>
    left
    rw [get_of_none hf]
  | some e =>
    right
    refine ⟨e, ?_, ?_⟩
    · rcases hfind with h3 | h3
      · rw [h3] at hf
        exact absurd hf (by simp)
      · rw [← h3, hf]
    · rw [get_of_some hf]

/-- C7, an instance: `("x", 5, 100x100)` and `("x", 5, 200x200)`.  After both are stored
each key reads back its own buffer. -/
theorem key_discrimination_witness :
    ((100 : Int) ≠ 200)
    ∧ (((run [.put "x" 5 ⟨200, 200⟩ (some 7) 10]).put "x" 5 ⟨100, 100⟩ (some 1) 10).get
          "x" 5 ⟨200, 200⟩).2 = some 7
    ∧ (((run [.put "x" 5 ⟨200, 200⟩ (some 7) 10]).put "x" 5 ⟨100, 100⟩ (some 1) 10).get
          "x" 5 ⟨100, 100⟩).2 = some 1
    ∧ (⟨"x", 5, 100, 100⟩ : Key) ≠ ⟨"x", 5, 200, 200⟩ :=
  ⟨by decide, by decide, by decide,
    (key_discrimination (run [.put "x" 5 ⟨200, 200⟩ (some 7) 10]) "x" "x" 5 5 ⟨100, 100⟩
      ⟨200, 200⟩ (some 1) 10 (Or.inr (Or.inr (Or.inl (by decide))))).1⟩

/-- C2 (as stated, refuted).  With capacity `2 ^ 63`, after `A` of `2 ^ 63` bytes a `put` of
`B` with `2 ^ 63` bytes wraps the `size_t` counter to 0 and nothing is evicted: the
survivors are `B, A`, of total size `2 ^ 64`, while the longest front part of the recency
order that fits in the capacity is `B` alone. -/
theorem strict_lru_fails_on_wrap :
    (run [.set_capacity_bytes (2 ^ 63), .put "A" 0 ⟨1, 1⟩ (some 1) (2 ^ 63),
        .put "B" 0 ⟨1, 1⟩ (some 2) (2 ^ 63)])._lru = [⟨"B", 0, 1, 1⟩, ⟨"A", 0, 1, 1⟩]
    ∧ (run [.set_capacity_bytes (2 ^ 63), .put "A" 0 ⟨1, 1⟩ (some 1) (2 ^ 63),
        .put "B" 0 ⟨1, 1⟩ (some 2) (2 ^ 63)])._capacity = 2 ^ 63
    ∧ list_bytes (run [.set_capacity_bytes (2 ^ 63), .put "A" 0 ⟨1, 1⟩ (some 1) (2 ^ 63),
        .put "B" 0 ⟨1, 1⟩ (some 2) (2 ^ 63)])._map [⟨"B", 0, 1, 1⟩] = 2 ^ 63
    ∧ list_bytes (run [.set_capacity_bytes (2 ^ 63), .put "A" 0 ⟨1, 1⟩ (some 1) (2 ^ 63),
        .put "B" 0 ⟨1, 1⟩ (some 2) (2 ^ 63)])._map [⟨"B", 0, 1, 1⟩, ⟨"A", 0, 1, 1⟩] = 2 ^ 64 := by
  decide

/-- C2 (amended).  Strict LRU eviction: let `op`, a `put` or a `set_capacity_bytes`, follow
any sequence `ops` of calls on a fresh cache, the recorded byte sizes never adding up to
`2 ^ 64` or more, and let `mid` be the cache on which the call runs its eviction (for a
`put` that the guard rejects, the cache itself).  Then the call returns the eviction of
`mid`; the recency list of `mid` holds exactly the keys cached, from the latest touched to
the earliest (a key is touched by a `get` hit or an accepted `put`); the entries that
survive are exactly those of the longest front part of that list whose total byte size is
at most the capacity; and every evicted key was last touched before every surviving key. -/
theorem strict_lru (ops : List Op) (op : Op) (mid : LottieFrameCache)
    (hfit : fits_from empty (ops ++ [op]) = true)
    (hop : (∃ a f s tex b, op = .put a f s tex b
              ∧ mid = if b = 0 ∨ tex = none then run ops
                      else put_update (run ops) ⟨a, f, s.x, s.y⟩ tex b)
          ∨ (∃ n, op = .set_capacity_bytes n ∧ mid = { run ops with _capacity := n })) :
    run (ops ++ [op]) = _evict_if_needed mid
    ∧ (∀ k ∈ mid._lru, ∃ t, last_touch k (ops ++ [op]) = some t)
    ∧ mid._lru.Pairwise (fun y x => older (ops ++ [op]) x y = true)
    ∧ (∀ k, k ∈ mid._lru ↔ k ∈ keys mid._map)
    ∧ (run (ops ++ [op]))._lru <+: mid._lru
    ∧ list_bytes mid._map (run (ops ++ [op]))._lru ≤ (run (ops ++ [op]))._capacity
    ∧ (∀ p, p <+: mid._lru → list_bytes mid._map p ≤ (run (ops ++ [op]))._capacity →
        p.length ≤ (run (ops ++ [op]))._lru.length)
    ∧ (run (ops ++ [op]))._map
        = mid._map.filter (fun p => decide (p.1 ∈ (run (ops ++ [op]))._lru))
    ∧ (∀ x y, x ∈ mid._lru → x ∉ (run (ops ++ [op]))._lru → y ∈ (run (ops ++ [op]))._lru →
        older (ops ++ [op]) x y = true) := by
  have hi := inv_run ops
  have hfit2 := hfit
  rw [fits_from_append] at hfit2
  simp only [Bool.and_eq_true, fits_from, Bool.and_true] at hfit2
  have hx : Exact (run ops) := exact_run ops hfit2.1
  have hopfit : op.fits (run ops) = true := hfit2.2
  have hrec := recent_run ops
  -- the facts on `mid`
  have hmid : run (ops ++ [op]) = _evict_if_needed mid ∧ Inv mid ∧ Exact mid
      ∧ Recent (ops ++ [op]) mid._lru := by
    rcases hop with ⟨a, f, s, tex, b, rfl, rfl⟩ | ⟨n, rfl, rfl⟩
    · by_cases hg : b = 0 ∨ tex = none
      · rw [if_pos hg]
        refine ⟨?_, hi, hx, ?_⟩
        · rw [run_snoc, evict_if_needed_of_le _ (used_le_run ops)]
          simp only [Op.apply, put]
          rw [if_pos hg]
        · exact hrec.snoc_none _ (by simp only [Op.touches]; rw [if_pos hg])
      · rw [if_neg hg]
        refine ⟨?_, inv_put_update hi _ _ _, ?_, ?_⟩
        · rw [run_snoc]
          simp only [Op.apply, put]
          rw [if_neg hg]
        · apply exact_put_update hi hx.modular
          simp only [Op.fits, decide_eq_true_eq] at hopfit
          rcases hopfit with h1 | h1 | h1
          · exact absurd (Or.inl h1) hg
          · exact absurd (Or.inr h1) hg
          · exact h1
        · rw [put_update_lru _ hi]
          exact hrec.snoc_some hi.lru_nodup _ _ (by simp only [Op.touches]; rw [if_neg hg])
    · refine ⟨?_, ⟨hi.keys_nodup, hi.lru_nodup, hi.lru_keys⟩, hx, ?_⟩
      · rw [run_snoc]
        rfl
      · exact hrec.snoc_none _ (by simp [Op.touches])
  obtain ⟨hrun, himid, hxmid, hrmid⟩ := hmid
  obtain ⟨hcap, hpre, hbytes, hlong, hmap⟩ := evict_if_needed_spec mid himid hxmid
  rw [hrun]
  refine ⟨rfl, hrmid.1, hrmid.2, himid.lru_keys, hpre, ?_, ?_, hmap, ?_⟩
  · rw [hcap]
    exact hbytes
  · rw [hcap]
    exact hlong
  · intro x y hx1 hx2 hy
    obtain ⟨t, ht⟩ := hpre
    have hp := hrmid.2
    rw [← ht, List.pairwise_append] at hp
    have hxt : x ∈ t := by
      rw [← ht, List.mem_append] at hx1
      exact hx1.resolve_left hx2
    exact hp.2.2 y hy x hxt

/-- C2, the scripted sequence: capacity 25 MiB; `A`, `B`, `C` of 10 MiB each leave `C, B`
(exactly `A` is evicted); then `get(B)` and `D` of 10 MiB leave `D, B` (exactly `C` is
evicted, `B` is kept). -/
theorem strict_lru_witness :
    fits_from empty ([.set_capacity_bytes (25 * 1048576),
        .put "A" 0 ⟨1, 1⟩ (some 1) (10 * 1048576), .put "B" 0 ⟨1, 1⟩ (some 2) (10 * 1048576),
        .put "C" 0 ⟨1, 1⟩ (some 3) (10 * 1048576), .get "B" 0 ⟨1, 1⟩]
        ++ [.put "D" 0 ⟨1, 1⟩ (some 4) (10 * 1048576)]) = true
    ∧ keys (run [.set_capacity_bytes (25 * 1048576),
        .put "A" 0 ⟨1, 1⟩ (some 1) (10 * 1048576), .put "B" 0 ⟨1, 1⟩ (some 2) (10 * 1048576),
        .put "C" 0 ⟨1, 1⟩ (some 3) (10 * 1048576)])._map = [⟨"C", 0, 1, 1⟩, ⟨"B", 0, 1, 1⟩]
    ∧ (run ([.set_capacity_bytes (25 * 1048576),
        .put "A" 0 ⟨1, 1⟩ (some 1) (10 * 1048576), .put "B" 0 ⟨1, 1⟩ (some 2) (10 * 1048576),
        .put "C" 0 ⟨1, 1⟩ (some 3) (10 * 1048576), .get "B" 0 ⟨1, 1⟩]
        ++ [.put "D" 0 ⟨1, 1⟩ (some 4) (10 * 1048576)]))._lru = [⟨"D", 0, 1, 1⟩, ⟨"B", 0, 1, 1⟩]
    ∧ (run ([.set_capacity_bytes (25 * 1048576),
        .put "A" 0 ⟨1, 1⟩ (some 1) (10 * 1048576), .put "B" 0 ⟨1, 1⟩ (some 2) (10 * 1048576),
        .put "C" 0 ⟨1, 1⟩ (some 3) (10 * 1048576), .get "B" 0 ⟨1, 1⟩]
        ++ [.put "D" 0 ⟨1, 1⟩ (some 4) (10 * 1048576)]))._lru
      <+: (put_update (run [.set_capacity_bytes (25 * 1048576),
        .put "A" 0 ⟨1, 1⟩ (some 1) (10 * 1048576), .put "B" 0 ⟨1, 1⟩ (some 2) (10 * 1048576),
        .put "C" 0 ⟨1, 1⟩ (some 3) (10 * 1048576), .get "B" 0 ⟨1, 1⟩])
          ⟨"D", 0, 1, 1⟩ (some 4) (10 * 1048576))._lru :=
  ⟨by decide, by decide, by decide,
    (strict_lru [.set_capacity_bytes (25 * 1048576),
        .put "A" 0 ⟨1, 1⟩ (some 1) (10 * 1048576), .put "B" 0 ⟨1, 1⟩ (some 2) (10 * 1048576),
        .put "C" 0 ⟨1, 1⟩ (some 3) (10 * 1048576), .get "B" 0 ⟨1, 1⟩]
      (.put "D" 0 ⟨1, 1⟩ (some 4) (10 * 1048576)) _ (by decide)
      (Or.inl ⟨"D", 0, ⟨1, 1⟩, some 4, 10 * 1048576, rfl, by decide⟩)).2.2.2.2.1⟩

end LottieFrameCache

/-! ## Frame cache: round trip of `put` and `get`, structural consistency -/

namespace LottieFrameCache

/-- A `put` that passes the guard ends with the eviction loop. -/
theorem put_of_valid (c : LottieFrameCache) (a : String) (f : Int) (s : Vector2i)
    (tex : TexRef) (b : Nat) (hb : 0 < b) (htex : tex ≠ none) :
    c.put a f s tex b = _evict_if_needed (put_update c ⟨a, f, s.x, s.y⟩ tex b) := by
  have h : ¬ (b = 0 ∨ tex = none) := by
    intro h
    rcases h with h | h
    · omega
    · exact htex h
  simp only [put]
  rw [if_neg h]

/-- What the eviction loop leaves of a cache whose most recent key `key` holds `b` bytes:
the key survives iff `b` is within the capacity, and otherwise nothing survives. -/
theorem evict_front (mid : LottieFrameCache) (hi : Inv mid) (hx : Exact mid) (key : Key)
    (rest : List Key) (e : Entry) (hl : mid._lru = key :: rest)
    (hf : map_find mid._map key = some e) :
    (e.bytes ≤ mid._capacity → map_find (_evict_if_needed mid)._map key = some e)
    ∧ (mid._capacity < e.bytes →
        (_evict_if_needed mid)._map = [] ∧ (_evict_if_needed mid)._lru = []
        ∧ (_evict_if_needed mid)._used = 0) := by
  obtain ⟨_, hpre, hle, hlong, hmap⟩ := evict_if_needed_spec mid hi hx
  have hb : entry_bytes mid._map key = e.bytes := by simp [entry_bytes, hf]
  have hhead : (_evict_if_needed mid)._lru = []
      ∨ (_evict_if_needed mid)._lru.head? = some key :=
    prefix_head hpre (by rw [hl]; rfl)
  constructor
  · intro hcap
    have h1 : [key] <+: mid._lru := by
      rw [hl]
      exact ⟨rest, rfl⟩
    have h2 : list_bytes mid._map [key] ≤ mid._capacity := by
      simp only [list_bytes, List.map_cons, List.map_nil, List.sum_cons, List.sum_nil,
        add_zero]
      rw [hb]
      exact hcap
    have h3 := hlong [key] h1 h2
    have hmem : key ∈ (_evict_if_needed mid)._lru := by
      rcases hhead with h | h
      · rw [h] at h3
        simp at h3
      · exact List.mem_of_mem_head? h
    rw [hmap, map_find_filter_key (fun k => decide (k ∈ (_evict_if_needed mid)._lru))]
    simp [hmem, hf]
  · intro hcap
    have hnil : (_evict_if_needed mid)._lru = [] := by
      rcases hhead with h | h
      · exact h
      · exfalso
        cases hl2 : (_evict_if_needed mid)._lru with
        | nil => rw [hl2] at h; simp at h
        | cons x xs =>
          rw [hl2] at h hle
          simp only [List.head?_cons, Option.some.injEq] at h
          subst h
          simp only [list_bytes, List.map_cons, List.sum_cons] at hle
          rw [hb] at hle
          omega
    have hm : (_evict_if_needed mid)._map = [] := by
      rw [hmap, hnil]
      simp
    have hex : Exact (_evict_if_needed mid) := evict_loop_exact _ mid hi hx
    refine ⟨hm, hnil, ?_⟩
    rw [hex.1, hm]
    rfl

/-- C24, as stated, fails when the counter wraps: with capacity 10 and an entry of 5 bytes
cached, a `put` of `2 ^ 64 - 5` bytes (more than the capacity) brings `_used` to 0, so
nothing is evicted: the immediate `get` returns the texture and the older entry is still
cached. -/
theorem put_get_fails_on_wrap :
    ([Op.set_capacity_bytes 10, .put "A" 0 ⟨1, 1⟩ (some 1) 5,
        .put "B" 0 ⟨1, 1⟩ (some 2) (2 ^ 64 - 5)].all Op.in_range = true)
    ∧ (run [.set_capacity_bytes 10, .put "A" 0 ⟨1, 1⟩ (some 1) 5])._capacity < 2 ^ 64 - 5
    ∧ (((run [.set_capacity_bytes 10, .put "A" 0 ⟨1, 1⟩ (some 1) 5]).put "B" 0 ⟨1, 1⟩
          (some 2) (2 ^ 64 - 5)).get "B" 0 ⟨1, 1⟩).2 = some 2
    ∧ keys ((run [.set_capacity_bytes 10, .put "A" 0 ⟨1, 1⟩ (some 1) 5]).put "B" 0 ⟨1, 1⟩
          (some 2) (2 ^ 64 - 5))._map = [⟨"B", 0, 1, 1⟩, ⟨"A", 0, 1, 1⟩] := by
  decide

/-- C24, amended.  For every cache state reached from a fresh cache, every key, valid
`tex` and `b > 0` such that the sizes recorded under the other keys plus `b` stay below
`2 ^ 64`: after `put(k, tex, b)` an immediate `get(k)` returns `tex` iff `b` is at most the
capacity; when `b` exceeds the capacity the `put` leaves the cache completely empty (no
entry, the new one included, and `_used` 0) and the `get` returns null. -/
theorem put_get_round_trip (ops : List Op) (a : String) (f : Int) (s : Vector2i)
    (tex : TexRef) (b : Nat) (hb : 0 < b) (htex : tex ≠ none)
    (hfit : total_bytes (map_erase (run ops)._map ⟨a, f, s.x, s.y⟩) + b < SIZE_MOD) :
    ((((run ops).put a f s tex b).get a f s).2 = tex ↔ b ≤ (run ops)._capacity)
    ∧ ((run ops)._capacity < b →
        ((run ops).put a f s tex b)._map = [] ∧ ((run ops).put a f s tex b)._lru = []
        ∧ ((run ops).put a f s tex b)._used = 0
        ∧ (((run ops).put a f s tex b).get a f s).2 = none) := by
  have hi := inv_put_update (inv_run ops) ⟨a, f, s.x, s.y⟩ tex b
  have hx := exact_put_update (inv_run ops) (modular_run ops) ⟨a, f, s.x, s.y⟩ tex b hfit
  have hl := put_update_lru (run ops) (inv_run ops) ⟨a, f, s.x, s.y⟩ tex b
  have hf := put_update_find_self (run ops) ⟨a, f, s.x, s.y⟩ tex b
  have hcap := put_update_capacity (run ops) ⟨a, f, s.x, s.y⟩ tex b
  obtain ⟨h1, h2⟩ := evict_front _ hi hx _ _ _ hl hf
  rw [hcap] at h1 h2
  rw [put_of_valid _ a f s tex b hb htex]
  have hbig : (run ops)._capacity < b →
      (_evict_if_needed (put_update (run ops) ⟨a, f, s.x, s.y⟩ tex b))._map = []
      ∧ (_evict_if_needed (put_update (run ops) ⟨a, f, s.x, s.y⟩ tex b))._lru = []
      ∧ (_evict_if_needed (put_update (run ops) ⟨a, f, s.x, s.y⟩ tex b))._used = 0
      ∧ ((_evict_if_needed (put_update (run ops) ⟨a, f, s.x, s.y⟩ tex b)).get a f s).2
          = none := by
    intro hlt
    obtain ⟨hm, hn, hu⟩ := h2 hlt
    refine ⟨hm, hn, hu, ?_⟩
    rw [get_of_none (by rw [hm]; rfl)]
  refine ⟨⟨?_, ?_⟩, hbig⟩
  · intro hg
    by_contra hcon
    have := (hbig (by omega)).2.2.2
    rw [this] at hg
    exact htex hg.symm
  · intro hle
    rw [get_of_some (h1 hle)]

/-- C24, an instance: with capacity 10 and `A` (5 bytes) cached, a `put` of 8 bytes under
`B` is returned by the next `get`, and a `put` of 11 bytes empties the cache. -/
theorem put_get_round_trip_witness :
    ((((run [.set_capacity_bytes 10, .put "A" 0 ⟨1, 1⟩ (some 1) 5]).put "B" 0 ⟨1, 1⟩
          (some 2) 8).get "B" 0 ⟨1, 1⟩).2 = some 2
      ↔ 8 ≤ (run [.set_capacity_bytes 10, .put "A" 0 ⟨1, 1⟩ (some 1) 5])._capacity)
    ∧ ((run [.set_capacity_bytes 10, .put "A" 0 ⟨1, 1⟩ (some 1) 5]).put "B" 0 ⟨1, 1⟩
          (some 2) 11)._map = [] :=
  ⟨(put_get_round_trip [.set_capacity_bytes 10, .put "A" 0 ⟨1, 1⟩ (some 1) 5] "B" 0 ⟨1, 1⟩
      (some 2) 8 (by decide) (by decide) (by decide)).1,
   ((put_get_round_trip [.set_capacity_bytes 10, .put "A" 0 ⟨1, 1⟩ (some 1) 5] "B" 0 ⟨1, 1⟩
      (some 2) 11 (by decide) (by decide) (by decide)).2 (by decide)).1⟩

end LottieFrameCache

namespace LottieFrameCache

theorem positive_put_update {c : LottieFrameCache} (h : Positive c) (key : Key)
    (tex : TexRef) (bytes : Nat) (hb : 0 < bytes) : Positive (put_update c key tex bytes) := by
  cases hf : map_find c._map key with
  | none =>
    rw [put_update_of_none hf]
    intro p hp
    simp only [List.mem_cons] at hp
    rcases hp with rfl | hp
    · exact hb
    · exact h p hp
  | some e =>
    rw [put_update_of_some hf]
    intro p hp
    simp only [map_assign, List.mem_map] at hp
    obtain ⟨q, hq, rfl⟩ := hp
    by_cases hk : q.1 = key
    · rw [if_pos hk]
      exact hb
    · rw [if_neg hk]
      exact h q hq

theorem positive_evict_if_needed {c : LottieFrameCache} (hi : Inv c) (h : Positive c) :
    Positive (_evict_if_needed c) := by
  intro p hp
  have hm := (evict_loop_evicted c._lru.length c hi).map_eq
  unfold _evict_if_needed at hp
  rw [hm] at hp
  exact h p (List.mem_filter.1 hp).1

theorem positive_apply {c : LottieFrameCache} (hi : Inv c) (h : Positive c) (op : Op) :
    Positive (op.apply c) := by
  cases op with
  | get a f s =>
    intro p hp
    simp only [Op.apply] at hp
    rw [get_map] at hp
    exact h p hp
  | put a f s tex b =>
    simp only [Op.apply, put]
    split
    · exact h
    · rename_i hg
      have hb : 0 < b := by
        rcases Nat.eq_zero_or_pos b with h0 | h0
        · exact absurd (Or.inl h0) hg
        · exact h0
      exact positive_evict_if_needed (inv_put_update hi _ _ _)
        (positive_put_update h _ _ _ hb)
  | set_capacity_bytes b =>
    simp only [Op.apply, set_capacity_bytes]
    exact positive_evict_if_needed ⟨hi.keys_nodup, hi.lru_nodup, hi.lru_keys⟩ h
  | clear =>
    intro p hp
    simp [Op.apply, clear] at hp

theorem positive_run_from {c : LottieFrameCache} (hi : Inv c) (h : Positive c)
    (ops : List Op) : Positive (run_from c ops) := by
  induction ops generalizing c with
  | nil => exact h
  | cons op ops ih => exact ih (inv_apply hi op) (positive_apply hi h op)

theorem positive_run (ops : List Op) : Positive (run ops) :=
  positive_run_from inv_empty (by intro p hp; simp [empty] at hp) ops

end LottieFrameCache

namespace LottieFrameCache

/-- C25 (as stated, refuted).  All arguments are values of `size_t`; under the capacity
`2 ^ 64 - 1`, an entry of `2 ^ 64 - 1` bytes and an entry of 1 byte are both cached, their
recorded sizes add up to `2 ^ 64`, and the counter `_used`, which wrapped, is 0: it is not
the sum of the recorded sizes. -/
theorem structural_consistency_fails_on_wrap :
    ([Op.set_capacity_bytes (2 ^ 64 - 1), .put "A" 0 ⟨1, 1⟩ (some 1) (2 ^ 64 - 1),
        .put "B" 0 ⟨1, 1⟩ (some 2) 1].all Op.in_range = true)
    ∧ keys (run [.set_capacity_bytes (2 ^ 64 - 1),
        .put "A" 0 ⟨1, 1⟩ (some 1) (2 ^ 64 - 1), .put "B" 0 ⟨1, 1⟩ (some 2) 1])._map
      = [⟨"B", 0, 1, 1⟩, ⟨"A", 0, 1, 1⟩]
    ∧ total_bytes (run [.set_capacity_bytes (2 ^ 64 - 1),
        .put "A" 0 ⟨1, 1⟩ (some 1) (2 ^ 64 - 1), .put "B" 0 ⟨1, 1⟩ (some 2) 1])._map = 2 ^ 64
    ∧ (run [.set_capacity_bytes (2 ^ 64 - 1),
        .put "A" 0 ⟨1, 1⟩ (some 1) (2 ^ 64 - 1), .put "B" 0 ⟨1, 1⟩ (some 2) 1])._used = 0
    ∧ (run [.set_capacity_bytes (2 ^ 64 - 1),
        .put "A" 0 ⟨1, 1⟩ (some 1) (2 ^ 64 - 1), .put "B" 0 ⟨1, 1⟩ (some 2) 1])._used
      ≠ total_bytes (run [.set_capacity_bytes (2 ^ 64 - 1),
        .put "A" 0 ⟨1, 1⟩ (some 1) (2 ^ 64 - 1), .put "B" 0 ⟨1, 1⟩ (some 2) 1])._map := by
  decide

/-- C25 (amended).  Structural consistency of the cache: after every finite sequence of
`get`, `put`, `set_capacity_bytes` and `clear` calls on a fresh cache (hence after each call
of such a sequence), (i) the map has one entry per key and `_lru` holds exactly the keys of
the map, each exactly once, (ii) every entry records a byte size above 0, and (iii) `_used`
equals the sum of the recorded sizes reduced modulo `2 ^ 64`, and equals that sum itself
when no `put` of the sequence brings the recorded sizes to `2 ^ 64` or more; after `clear`
the cache has no entries and `_used` is 0, with the capacity unchanged. -/
theorem structural_consistency (ops : List Op) :
    ((keys (run ops)._map).Nodup ∧ (run ops)._lru.Nodup
      ∧ ∀ k, k ∈ (run ops)._lru ↔ k ∈ keys (run ops)._map)
    ∧ (∀ p ∈ (run ops)._map, 0 < p.2.bytes)
    ∧ (run ops)._used = total_bytes (run ops)._map % SIZE_MOD
    ∧ (fits_from empty ops = true → (run ops)._used = total_bytes (run ops)._map)
    ∧ ((run ops).clear._map = [] ∧ (run ops).clear._lru = [] ∧ (run ops).clear._used = 0
      ∧ (run ops).clear._capacity = (run ops)._capacity) := by
  have hi := inv_run ops
  refine ⟨⟨hi.keys_nodup, hi.lru_nodup, hi.lru_keys⟩, positive_run ops, modular_run ops,
    fun hfit => (exact_run ops hfit).1, rfl, rfl, rfl, rfl⟩

/-- C25, an instance: after two `put`s, a `get` and a change of capacity to 6 bytes, the
entry of `B` (5 bytes) is the only one and `_used` is the sum of the recorded sizes. -/
theorem structural_consistency_witness :
    (run [.put "A" 0 ⟨1, 1⟩ (some 1) 4, .put "B" 0 ⟨1, 1⟩ (some 2) 5, .get "B" 0 ⟨1, 1⟩,
        .set_capacity_bytes 6])._lru = [⟨"B", 0, 1, 1⟩]
    ∧ (run [.put "A" 0 ⟨1, 1⟩ (some 1) 4, .put "B" 0 ⟨1, 1⟩ (some 2) 5, .get "B" 0 ⟨1, 1⟩,
        .set_capacity_bytes 6])._used
      = total_bytes (run [.put "A" 0 ⟨1, 1⟩ (some 1) 4, .put "B" 0 ⟨1, 1⟩ (some 2) 5,
        .get "B" 0 ⟨1, 1⟩, .set_capacity_bytes 6])._map :=
  ⟨by decide,
   (structural_consistency [.put "A" 0 ⟨1, 1⟩ (some 1) 4, .put "B" 0 ⟨1, 1⟩ (some 2) 5,
      .get "B" 0 ⟨1, 1⟩, .set_capacity_bytes 6]).2.2.2.1 (by decide)⟩

end LottieFrameCache

/-! ## State machine: the two blocks of `update` -/

namespace LottieStateMachine

variable {V : Type}

theorem head_filterMap_some {α β : Type} (f : α → Option β) (l : List α) :
    (l.filterMap (fun a => (f a).map some)).head? = (l.findSome? f).map some := by
  induction l with
  | nil => rfl
  | cons a l ih =>
    cases h : f a with
    | none => simpa [List.filterMap_cons, List.findSome?_cons, h] using ih
    | some b => simp [List.filterMap_cons, List.findSome?_cons, h]

theorem evaluate_condition_of_auto (vo : VariantOps V) (t : LottieStateTransition V)
    (parameters : List (String × V)) (h : t.auto_advance = true) :
    t.evaluate_condition vo parameters = true := by
  simp [LottieStateTransition.evaluate_condition, h]

theorem eligible_iff (vo : VariantOps V) (m : LottieStateMachine V)
    (t : LottieStateTransition V) :
    eligible vo m t = true
      ↔ t.from_state = m.current_state ∧ t.evaluate_condition vo m.parameters = true := by
  unfold eligible
  cases ha : t.auto_advance with
  | false => simp
  | true => simp [evaluate_condition_of_auto vo t m.parameters ha]

/-- The array built by `_find_valid_transitions` starts with the eligible transition
declared first. -/
theorem find_valid_head (vo : VariantOps V) (m : LottieStateMachine V) :
    (_find_valid_transitions vo m).head? = (first_eligible vo m).map some := by
  unfold _find_valid_transitions first_eligible
  rw [← head_filterMap_some]
  apply congrArg
  apply List.filterMap_congr
  intro r _
  cases r with
  | none => rfl
  | some t =>
    by_cases h : eligible vo m t = true
    · have h2 := (eligible_iff vo m t).1 h
      simp [h, h2]
    · have h2 : ¬ (t.from_state = m.current_state
          ∧ t.evaluate_condition vo m.parameters = true) := fun hh => h ((eligible_iff vo m t).2 hh)
      have h3 : eligible vo m t = false := by simpa using h
      simp only [h3, Bool.false_eq_true, if_false, Option.map_none']
      rw [if_neg h2]

theorem update_transitions_of_none (vo : VariantOps V) (m : LottieStateMachine V)
    (h : first_eligible vo m = none) : update_transitions vo m = (m, []) := by
  have hh := find_valid_head vo m
  rw [h] at hh
  unfold update_transitions
  cases hl : _find_valid_transitions vo m with
  | nil => rfl
  | cons a l =>
    rw [hl] at hh
    simp at hh

theorem update_transitions_of_missing (vo : VariantOps V) (m : LottieStateMachine V)
    (t : LottieStateTransition V) (h : first_eligible vo m = some t)
    (hs : _find_state m t.to_state = none) : update_transitions vo m = (m, []) := by
  have hh := find_valid_head vo m
  rw [h] at hh
  unfold update_transitions
  cases hl : _find_valid_transitions vo m with
  | nil => rfl
  | cons a l =>
    rw [hl] at hh
    simp only [List.head?_cons, Option.map_some', Option.some.injEq] at hh
    subst hh
    simp [hs]

theorem update_transitions_of_taken (vo : VariantOps V) (m : LottieStateMachine V)
    (t : LottieStateTransition V) (s : LottieAnimationState)
    (h : first_eligible vo m = some t) (hs : _find_state m t.to_state = some s) :
    update_transitions vo m =
      ({ m with blend_from_state := m.current_state,
                blend_to_state := t.to_state,
                is_blending := true,
                blend_progress := 0,
                current_state := t.to_state },
        [.transition_started m.current_state t.to_state,
         .set_animation_path s.animation_path,
         .set_looping s.loop,
         .set_speed s.speed,
         .play]) := by
  have hh := find_valid_head vo m
  rw [h] at hh
  unfold update_transitions
  cases hl : _find_valid_transitions vo m with
  | nil =>
    rw [hl] at hh
    simp at hh
  | cons a l =>
    rw [hl] at hh
    simp only [List.head?_cons, Option.map_some', Option.some.injEq] at hh
    subst hh
    simp [hs]

theorem update_some (vo : VariantOps V) (m : LottieStateMachine V) (delta : ℚ) (node : Nat) :
    update vo m delta (some node)
      = ((update_blend delta (update_transitions vo m).1).1,
          (update_transitions vo m).2 ++ (update_blend delta (update_transitions vo m).1).2) :=
  rfl

theorem update_blend_of_not_blending (delta : ℚ) (m : LottieStateMachine V)
    (h : m.is_blending = false) : update_blend delta m = (m, []) := by
  simp [update_blend, h]

theorem update_blend_of_pos (delta : ℚ) (m : LottieStateMachine V) (s : LottieAnimationState)
    (hb : m.is_blending = true) (hs : _find_state m m.current_state = some s)
    (hT : 0 < s.blend_time) :
    update_blend delta m =
      if 1 ≤ m.blend_progress + delta / s.blend_time then
        ({ m with blend_progress := 1, is_blending := false },
          [.transition_finished m.current_state])
      else ({ m with blend_progress := m.blend_progress + delta / s.blend_time }, []) := by
  simp [update_blend, hb, hs, hT]

theorem update_blend_of_nonpos (delta : ℚ) (m : LottieStateMachine V)
    (s : LottieAnimationState) (hb : m.is_blending = true)
    (hs : _find_state m m.current_state = some s) (hT : ¬ 0 < s.blend_time) :
    update_blend delta m =
      ({ m with is_blending := false, blend_progress := 1 },
        [.transition_finished m.current_state]) := by
  simp [update_blend, hb, hs, hT]

theorem update_blend_of_no_state (delta : ℚ) (m : LottieStateMachine V)
    (hs : _find_state m m.current_state = none) : update_blend delta m = (m, []) := by
  simp [update_blend, hs]

/-- The blend block emits no `transition_started` and leaves the three state names. -/
theorem update_blend_frame (delta : ℚ) (m : LottieStateMachine V) :
    count_started (update_blend delta m).2 = 0
    ∧ (update_blend delta m).1.current_state = m.current_state
    ∧ (update_blend delta m).1.blend_from_state = m.blend_from_state
    ∧ (update_blend delta m).1.blend_to_state = m.blend_to_state := by
  cases hb : m.is_blending with
  | false =>
    rw [update_blend_of_not_blending delta m hb]
    exact ⟨rfl, rfl, rfl, rfl⟩
  | true =>
    cases hs : _find_state m m.current_state with
    | none =>
      rw [update_blend_of_no_state delta m hs]
      exact ⟨rfl, rfl, rfl, rfl⟩
    | some s =>
      by_cases hT : 0 < s.blend_time
      · rw [update_blend_of_pos delta m s hb hs hT]
        split <;> exact ⟨rfl, rfl, rfl, rfl⟩
      · rw [update_blend_of_nonpos delta m s hb hs hT]
        exact ⟨rfl, rfl, rfl, rfl⟩

theorem count_started_append (l1 l2 : List Effect) :
    count_started (l1 ++ l2) = count_started l1 + count_started l2 := by
  simp [count_started]

end LottieStateMachine

/-! ## State machine: the properties -/

namespace LottieStateMachine

variable {V : Type}

/-- C8 (as stated, refuted).  In `sample_machine_no_target` the eligible transition declared
first is `A -> X`, and `X` names no state: after `update` with a non-null node the current
state is still `A`, it has not become the transition's `to_state`. -/
theorem transition_selection_fails_on_missing_target :
    (first_eligible SampleVariant.ops sample_machine_no_target).map (fun t => t.to_state)
      = some "X"
    ∧ (update SampleVariant.ops sample_machine_no_target 0 (some 0)).1.current_state = "A"
    ∧ (update SampleVariant.ops sample_machine_no_target 0 (some 0)).1.current_state ≠ "X" := by
  have h1 : first_eligible SampleVariant.ops sample_machine_no_target
      = some ⟨"A", "X", "", .nil, "equals", 1 / 5, true⟩ := by
    simp [first_eligible, eligible, sample_machine_no_target,
      LottieStateTransition.evaluate_condition]
  have h2 : _find_state sample_machine_no_target "X" = none := by
    simp [_find_state, sample_machine_no_target]
  have h3 := update_transitions_of_missing SampleVariant.ops sample_machine_no_target _ h1 h2
  have h4 : (update SampleVariant.ops sample_machine_no_target 0 (some 0)).1.current_state
      = "A" := by
    rw [update_some, h3, (update_blend_frame 0 sample_machine_no_target).2.1]
    rfl
  refine ⟨by rw [h1]; rfl, h4, ?_⟩
  rw [h4]
  decide

/-- C8 (amended).  Transition selection in `update` with a non-null animation node: among
the transitions whose `from_state` equals the current state and whose condition evaluates
true (or whose `auto_advance` flag is set), the one declared first is the only one
considered.  If its `to_state` names a state of the states list, it is taken: the current
state becomes its `to_state` and one `transition_started` is emitted.  If its `to_state`
names no state, or if there is no such transition, the current state, blend-from and
blend-to are unchanged and no `transition_started` is emitted.  At most one transition is
taken per `update` call. -/
theorem transition_selection (vo : VariantOps V) (m : LottieStateMachine V) (delta : ℚ)
    (node : Nat) :
    (∀ t s, first_eligible vo m = some t → _find_state m t.to_state = some s →
        (update vo m delta (some node)).1.current_state = t.to_state
        ∧ (update vo m delta (some node)).2.head?
            = some (.transition_started m.current_state t.to_state)
        ∧ count_started (update vo m delta (some node)).2 = 1)
    ∧ (∀ t, first_eligible vo m = some t → _find_state m t.to_state = none →
        (update vo m delta (some node)).1.current_state = m.current_state
        ∧ (update vo m delta (some node)).1.blend_from_state = m.blend_from_state
        ∧ (update vo m delta (some node)).1.blend_to_state = m.blend_to_state
        ∧ count_started (update vo m delta (some node)).2 = 0)
    ∧ (first_eligible vo m = none →
        (update vo m delta (some node)).1.current_state = m.current_state
        ∧ (update vo m delta (some node)).1.blend_from_state = m.blend_from_state
        ∧ (update vo m delta (some node)).1.blend_to_state = m.blend_to_state
        ∧ count_started (update vo m delta (some node)).2 = 0)
    ∧ count_started (update vo m delta (some node)).2 ≤ 1 := by
  have hA : ∀ t s, first_eligible vo m = some t → _find_state m t.to_state = some s →
      (update vo m delta (some node)).1.current_state = t.to_state
      ∧ (update vo m delta (some node)).2.head?
          = some (.transition_started m.current_state t.to_state)
      ∧ count_started (update vo m delta (some node)).2 = 1 := by
    intro t s h hs
    have h3 := update_transitions_of_taken vo m t s h hs
    rw [update_some, h3]
    have hf := update_blend_frame delta
      { m with blend_from_state := m.current_state, blend_to_state := t.to_state,
               is_blending := true, blend_progress := 0, current_state := t.to_state }
    refine ⟨hf.2.1, rfl, ?_⟩
    rw [count_started_append, hf.1]
    rfl
  have hB : ∀ t, first_eligible vo m = some t → _find_state m t.to_state = none →
      (update vo m delta (some node)).1.current_state = m.current_state
      ∧ (update vo m delta (some node)).1.blend_from_state = m.blend_from_state
      ∧ (update vo m delta (some node)).1.blend_to_state = m.blend_to_state
      ∧ count_started (update vo m delta (some node)).2 = 0 := by
    intro t h hs
    have h3 := update_transitions_of_missing vo m t h hs
    rw [update_some, h3]
    have hf := update_blend_frame delta m
    exact ⟨hf.2.1, hf.2.2.1, hf.2.2.2, by rw [count_started_append, hf.1]; rfl⟩
  have hC : first_eligible vo m = none →
      (update vo m delta (some node)).1.current_state = m.current_state
      ∧ (update vo m delta (some node)).1.blend_from_state = m.blend_from_state
      ∧ (update vo m delta (some node)).1.blend_to_state = m.blend_to_state
      ∧ count_started (update vo m delta (some node)).2 = 0 := by
    intro h
    have h3 := update_transitions_of_none vo m h
    rw [update_some, h3]
    have hf := update_blend_frame delta m
    exact ⟨hf.2.1, hf.2.2.1, hf.2.2.2, by rw [count_started_append, hf.1]; rfl⟩
  refine ⟨hA, hB, hC, ?_⟩
  cases h : first_eligible vo m with
  | none => rw [(hC h).2.2.2]; exact Nat.zero_le _
  | some t =>
    cases hs : _find_state m t.to_state with
    | none => rw [(hB t h hs).2.2.2]; exact Nat.zero_le _
    | some s => rw [(hA t s h hs).2.2]

/-- C8, the scripted example: transitions `[(A -> B, p equals 1), (A -> C, auto_advance)]`,
current state `A`, `p == 1`: after `update` the current state is `B`, not `C`. -/
theorem transition_selection_witness :
    first_eligible SampleVariant.ops sample_machine
      = some ⟨"A", "B", "p", .int 1, "equals", 1 / 5, false⟩
    ∧ _find_state sample_machine "B" = some ⟨"B", "b.json", false, 2, 1 / 2⟩
    ∧ (update SampleVariant.ops sample_machine (1 / 5) (some 0)).1.current_state = "B"
    ∧ ("B" : String) ≠ "C" :=
  have h1 : first_eligible SampleVariant.ops sample_machine
      = some ⟨"A", "B", "p", .int 1, "equals", 1 / 5, false⟩ := by
    simp [first_eligible, eligible, sample_machine, LottieStateTransition.evaluate_condition,
      dict_find, SampleVariant.ops]
  have h2 : _find_state sample_machine "B" = some ⟨"B", "b.json", false, 2, 1 / 2⟩ := by
    simp [_find_state, sample_machine]
  ⟨h1, h2,
    ((transition_selection SampleVariant.ops sample_machine (1 / 5) 0).1 _ _ h1 h2).1,
    by decide⟩

/-- C9.  Effects of a taken transition: for every `update` call (non-null node) in which
the first eligible transition `t` leads from `old`, the current state, to a state `new`
found in the states list, afterwards `blend_from_state == old`, `blend_to_state == new`,
`current_state == new`; the blend progress does not depend on its previous value (it is
`delta / blend_time` of `new`, or 1 once that reaches 1 or when the blend time is not
positive); what the call emits is, in this order, one `transition_started(old, new)`, then
`set_animation_path`, `set_looping`, `set_speed` with the values of `new` and `play` on the
node, then `transition_finished(new)` only if the blend ends in the same call. -/
theorem taken_transition_effects (vo : VariantOps V) (m : LottieStateMachine V) (delta : ℚ)
    (node : Nat) (t : LottieStateTransition V) (s : LottieAnimationState)
    (h : first_eligible vo m = some t) (hs : _find_state m t.to_state = some s) :
    (update vo m delta (some node)).1.blend_from_state = m.current_state
    ∧ (update vo m delta (some node)).1.blend_to_state = t.to_state
    ∧ (update vo m delta (some node)).1.current_state = t.to_state
    ∧ (update vo m delta (some node)).1.blend_progress
        = (if 0 < s.blend_time ∧ delta / s.blend_time < 1 then delta / s.blend_time else 1)
    ∧ (update vo m delta (some node)).1.is_blending
        = decide (0 < s.blend_time ∧ delta / s.blend_time < 1)
    ∧ count_started (update vo m delta (some node)).2 = 1
    ∧ node_calls (update vo m delta (some node)).2
        = [.set_animation_path s.animation_path, .set_looping s.loop, .set_speed s.speed,
            .play]
    ∧ (update vo m delta (some node)).2
        = [.transition_started m.current_state t.to_state,
            .set_animation_path s.animation_path, .set_looping s.loop, .set_speed s.speed,
            .play]
          ++ (if 0 < s.blend_time ∧ delta / s.blend_time < 1 then []
              else [.transition_finished t.to_state]) := by
  have h3 := update_transitions_of_taken vo m t s h hs
  have hs2 : _find_state
      { m with blend_from_state := m.current_state, blend_to_state := t.to_state,
               is_blending := true, blend_progress := 0, current_state := t.to_state }
      t.to_state = some s := hs
  rw [update_some, h3]
  by_cases hT : 0 < s.blend_time
  · rw [update_blend_of_pos delta _ s rfl hs2 hT]
    by_cases hp : delta / s.blend_time < 1
    · have hp2 : ¬ (1 ≤ (0 : ℚ) + delta / s.blend_time) := by
        rw [zero_add]
        exact not_le.2 hp
      have hc : 0 < s.blend_time ∧ delta / s.blend_time < 1 := ⟨hT, hp⟩
      rw [if_neg hp2, if_pos hc, if_pos hc, decide_eq_true hc]
      exact ⟨rfl, rfl, rfl, zero_add _, rfl, rfl, rfl, rfl⟩
    · have hp2 : 1 ≤ (0 : ℚ) + delta / s.blend_time := by
        rw [zero_add]
        exact not_lt.1 hp
      have hc : ¬ (0 < s.blend_time ∧ delta / s.blend_time < 1) := fun hh => hp hh.2
      rw [if_pos hp2, if_neg hc, if_neg hc, decide_eq_false hc]
      exact ⟨rfl, rfl, rfl, rfl, rfl, rfl, rfl, rfl⟩
  · rw [update_blend_of_nonpos delta _ s rfl hs2 hT]
    have hc : ¬ (0 < s.blend_time ∧ delta / s.blend_time < 1) := fun hh => hT hh.1
    rw [if_neg hc, if_neg hc, decide_eq_false hc]
    exact ⟨rfl, rfl, rfl, rfl, rfl, rfl, rfl, rfl⟩

/-- C9, an instance: in `sample_machine` the transition `A -> B` is taken. -/
theorem taken_transition_effects_witness :
    first_eligible SampleVariant.ops sample_machine
      = some ⟨"A", "B", "p", .int 1, "equals", 1 / 5, false⟩
    ∧ _find_state sample_machine "B" = some ⟨"B", "b.json", false, 2, 1 / 2⟩
    ∧ node_calls (update SampleVariant.ops sample_machine (1 / 5) (some 0)).2
        = [.set_animation_path "b.json", .set_looping false, .set_speed 2, .play] :=
  have h1 : first_eligible SampleVariant.ops sample_machine
      = some ⟨"A", "B", "p", .int 1, "equals", 1 / 5, false⟩ := by
    simp [first_eligible, eligible, sample_machine, LottieStateTransition.evaluate_condition,
      dict_find, SampleVariant.ops]
  have h2 : _find_state sample_machine "B" = some ⟨"B", "b.json", false, 2, 1 / 2⟩ := by
    simp [_find_state, sample_machine]
  ⟨h1, h2,
    (taken_transition_effects SampleVariant.ops sample_machine (1 / 5) 0 _ _ h1 h2).2.2.2.2.2.2.1⟩

/-- C10 (as stated, refuted).  `sample_machine_blending` is blending with progress 0.5 and
its current state `A` exists with blend time 0.2, so for `delta = 0.2` the claim gives
progress 1 and the blending flag cleared.  With a non-null node the transition `A -> B` is
taken first and the call ends with progress 0.4, still blending; with a null node the call
changes nothing. -/
theorem blend_advance_fails :
    sample_machine_blending.is_blending = true
    ∧ sample_machine_blending.blend_progress = 1 / 2
    ∧ _find_state sample_machine_blending sample_machine_blending.current_state
        = some ⟨"A", "a.json", true, 1, 1 / 5⟩
    ∧ (1 : ℚ) ≤ 1 / 2 + (1 / 5) / (1 / 5)
    ∧ (update SampleVariant.ops sample_machine_blending (1 / 5) (some 0)).1.blend_progress
        = 2 / 5
    ∧ (update SampleVariant.ops sample_machine_blending (1 / 5) (some 0)).1.is_blending = true
    ∧ (update SampleVariant.ops sample_machine_blending (1 / 5) none).1.blend_progress = 1 / 2
    ∧ (update SampleVariant.ops sample_machine_blending (1 / 5) none).1.is_blending = true := by
  have h1 : first_eligible SampleVariant.ops sample_machine_blending
      = some ⟨"A", "B", "p", .int 1, "equals", 1 / 5, false⟩ := by
    simp [first_eligible, eligible, sample_machine_blending, sample_machine,
      LottieStateTransition.evaluate_condition, dict_find, SampleVariant.ops]
  have h2 : _find_state sample_machine_blending "B" = some ⟨"B", "b.json", false, 2, 1 / 2⟩ := by
    simp [_find_state, sample_machine_blending, sample_machine]
  have h3 := update_transitions_of_taken SampleVariant.ops sample_machine_blending _ _ h1 h2
  have h4 : update SampleVariant.ops sample_machine_blending (1 / 5) (some 0)
      = ({ sample_machine_blending with
            blend_from_state := sample_machine_blending.current_state,
            blend_to_state := "B", is_blending := true, blend_progress := 0 + (1 / 5) / (1 / 2),
            current_state := "B" },
          [.transition_started sample_machine_blending.current_state "B",
            .set_animation_path "b.json", .set_looping false, .set_speed 2, .play]) := by
    rw [update_some, h3]
    rw [update_blend_of_pos (1 / 5) _ ⟨"B", "b.json", false, 2, 1 / 2⟩ rfl h2 (by norm_num)]
    norm_num
  refine ⟨rfl, rfl, ?_, by norm_num, ?_, ?_, rfl, rfl⟩
  · simp [_find_state, sample_machine_blending, sample_machine]
  · rw [h4]
    norm_num
  · rw [h4]

/-- C10 (amended).  Blend advance: in an `update(delta)` with a non-null animation node, let
`p` be the blend progress and `T` the blend time of the current state when the call reaches
its blend block, that is after its transition block (if no transition is taken in the call
the machine is the one before the call, if one is taken `p` is 0 and the current state is
the new one).  If the machine is then blending, its current state exists and `T > 0`, the
call sets the blend progress to `p + delta/T` when that value is `< 1`, and the machine
keeps blending, and to exactly 1 with the blending flag cleared when `p + delta/T >= 1`
(arithmetic taken exactly). -/
theorem blend_advance (vo : VariantOps V) (m : LottieStateMachine V) (delta : ℚ) (node : Nat)
    (s : LottieAnimationState)
    (hb : (update_transitions vo m).1.is_blending = true)
    (hs : _find_state (update_transitions vo m).1 (update_transitions vo m).1.current_state
            = some s)
    (hT : 0 < s.blend_time) :
    ((update_transitions vo m).1.blend_progress + delta / s.blend_time < 1 →
        (update vo m delta (some node)).1.blend_progress
            = (update_transitions vo m).1.blend_progress + delta / s.blend_time
        ∧ (update vo m delta (some node)).1.is_blending = true)
    ∧ (1 ≤ (update_transitions vo m).1.blend_progress + delta / s.blend_time →
        (update vo m delta (some node)).1.blend_progress = 1
        ∧ (update vo m delta (some node)).1.is_blending = false)
    ∧ ((first_eligible vo m).bind (fun t => _find_state m t.to_state) = none →
        (update_transitions vo m).1 = m)
    ∧ (∀ t s2, first_eligible vo m = some t → _find_state m t.to_state = some s2 →
        (update_transitions vo m).1.blend_progress = 0
        ∧ (update_transitions vo m).1.current_state = t.to_state
        ∧ s2 = s) := by
  refine ⟨?_, ?_, ?_, ?_⟩
  · intro hp
    rw [update_some, update_blend_of_pos delta _ s hb hs hT, if_neg (not_le.2 hp)]
    exact ⟨rfl, hb⟩
  · intro hp
    rw [update_some, update_blend_of_pos delta _ s hb hs hT, if_pos hp]
    exact ⟨rfl, rfl⟩
  · intro hn
    cases h : first_eligible vo m with
    | none => rw [update_transitions_of_none vo m h]
    | some t =>
      rw [h] at hn
      rw [update_transitions_of_missing vo m t h hn]
  · intro t s2 h hs2
    have h3 := update_transitions_of_taken vo m t s2 h hs2
    rw [h3] at hs
    refine ⟨by rw [h3], by rw [h3], ?_⟩
    have hs3 : _find_state m t.to_state = some s := hs
    rw [hs2] at hs3
    exact Option.some.inj hs3

/-- C10, the scripted example: in `sample_machine` the transition into `B`, of blend time
0.5, is taken during `update(0.2)`; the call ends with progress 0.4, still blending. -/
theorem blend_advance_witness :
    (update_transitions SampleVariant.ops sample_machine).1.is_blending = true
    ∧ _find_state (update_transitions SampleVariant.ops sample_machine).1
        (update_transitions SampleVariant.ops sample_machine).1.current_state
        = some ⟨"B", "b.json", false, 2, 1 / 2⟩
    ∧ (0 : ℚ) < 1 / 2
    ∧ (update SampleVariant.ops sample_machine (1 / 5) (some 0)).1.blend_progress = 2 / 5
    ∧ (update SampleVariant.ops sample_machine (1 / 5) (some 0)).1.is_blending = true := by
  have h1 : first_eligible SampleVariant.ops sample_machine
      = some ⟨"A", "B", "p", .int 1, "equals", 1 / 5, false⟩ := by
    simp [first_eligible, eligible, sample_machine, LottieStateTransition.evaluate_condition,
      dict_find, SampleVariant.ops]
  have h2 : _find_state sample_machine "B" = some ⟨"B", "b.json", false, 2, 1 / 2⟩ := by
    simp [_find_state, sample_machine]
  have h3 := update_transitions_of_taken SampleVariant.ops sample_machine _ _ h1 h2
  have hb : (update_transitions SampleVariant.ops sample_machine).1.is_blending = true := by
    rw [h3]
  have hs : _find_state (update_transitions SampleVariant.ops sample_machine).1
      (update_transitions SampleVariant.ops sample_machine).1.current_state
      = some ⟨"B", "b.json", false, 2, 1 / 2⟩ := by
    rw [h3]
    exact h2
  have hp : (update_transitions SampleVariant.ops sample_machine).1.blend_progress = 0 := by
    rw [h3]
  have hT : (0 : ℚ) < (⟨"B", "b.json", false, 2, 1 / 2⟩ : LottieAnimationState).blend_time := by
    norm_num
  have hlt : (update_transitions SampleVariant.ops sample_machine).1.blend_progress
      + (1 / 5) / (⟨"B", "b.json", false, 2, 1 / 2⟩ : LottieAnimationState).blend_time < 1 := by
    rw [hp]
    norm_num
  have hw := (blend_advance SampleVariant.ops sample_machine (1 / 5) 0 _ hb hs hT).1 hlt
  refine ⟨hb, hs, by norm_num, ?_, hw.2⟩
  rw [hw.1, hp]
  norm_num

end LottieStateMachine

/-! ## State machine: `set_current_state`, `reset`, conditions and parameters -/

namespace LottieStateMachine

variable {V : Type}

theorem set_current_state_of_same (m : LottieStateMachine V) (n : String)
    (h : m.current_state = n) : m.set_current_state n = (m, []) := by
  simp [set_current_state, h]

theorem set_current_state_of_missing (m : LottieStateMachine V) (n : String)
    (h : m.current_state ≠ n) (hf : _find_state m n = none) :
    m.set_current_state n = (m, [.printerr ("State not found: " ++ n)]) := by
  simp [set_current_state, h, hf]

theorem set_current_state_of_found (m : LottieStateMachine V) (n : String)
    (s : LottieAnimationState) (h : m.current_state ≠ n) (hf : _find_state m n = some s) :
    m.set_current_state n
      = ({ m with current_state := n }, [.state_changed m.current_state n]) := by
  simp [set_current_state, h, hf]

/-- What `set_current_state` leaves alone, whatever the name. -/
theorem set_current_state_frame (m : LottieStateMachine V) (n : String) :
    (m.set_current_state n).1.blend_progress = m.blend_progress
    ∧ (m.set_current_state n).1.is_blending = m.is_blending
    ∧ (m.set_current_state n).1.blend_from_state = m.blend_from_state
    ∧ (m.set_current_state n).1.blend_to_state = m.blend_to_state
    ∧ (m.set_current_state n).1.parameters = m.parameters
    ∧ (m.set_current_state n).1.states = m.states
    ∧ (m.set_current_state n).1.transitions = m.transitions
    ∧ (m.set_current_state n).1.default_state = m.default_state
    ∧ count_started (m.set_current_state n).2 = 0
    ∧ node_calls (m.set_current_state n).2 = [] := by
  by_cases h : m.current_state = n
  · rw [set_current_state_of_same m n h]
    exact ⟨rfl, rfl, rfl, rfl, rfl, rfl, rfl, rfl, rfl, rfl⟩
  · cases hf : _find_state m n with
    | none =>
      rw [set_current_state_of_missing m n h hf]
      exact ⟨rfl, rfl, rfl, rfl, rfl, rfl, rfl, rfl, rfl, rfl⟩
    | some s =>
      rw [set_current_state_of_found m n s h hf]
      exact ⟨rfl, rfl, rfl, rfl, rfl, rfl, rfl, rfl, rfl, rfl⟩

theorem reset_eq (m : LottieStateMachine V) :
    m.reset
      = ({ (if m.default_state ≠ "" then m.set_current_state m.default_state else (m, [])).1
            with parameters := [], is_blending := false, blend_progress := 0 },
          (if m.default_state ≠ "" then m.set_current_state m.default_state else (m, [])).2) :=
  rfl

end LottieStateMachine

namespace LottieStateMachine

variable {V : Type}

/-- C13 (as stated, refuted).  With `default_state` set to `Z`, which names no state of
`sample_machine`, `reset` leaves the current state `A`: it does not become the default
state. -/
theorem reset_fails_on_unknown_default :
    ({ sample_machine with default_state := "Z" } : LottieStateMachine SampleVariant).default_state
      ≠ ""
    ∧ (({ sample_machine with default_state := "Z" } :
          LottieStateMachine SampleVariant).reset).1.current_state = "A"
    ∧ (({ sample_machine with default_state := "Z" } :
          LottieStateMachine SampleVariant).reset).1.current_state
        ≠ ({ sample_machine with default_state := "Z" } :
            LottieStateMachine SampleVariant).default_state := by
  decide

/-- C13 (amended).  `reset`: for every machine, after `reset()` the parameter table is
empty, `is_in_blend()` is false and the blend progress is 0, and no transition is evaluated
(no `transition_started` is emitted, no call is made on an animation node; states,
transitions, default state, blend-from and blend-to are unchanged).  When the default state
is configured (non-empty) and names a state of the states list, the current state equals
the default state afterwards; when it is configured but names no state, and when it is not
configured, the current state is left unchanged. -/
theorem reset_spec (m : LottieStateMachine V) :
    (m.reset).1.parameters = []
    ∧ is_in_blend (m.reset).1 = false
    ∧ get_blend_progress (m.reset).1 = 0
    ∧ count_started (m.reset).2 = 0
    ∧ node_calls (m.reset).2 = []
    ∧ (m.reset).1.states = m.states
    ∧ (m.reset).1.transitions = m.transitions
    ∧ (m.reset).1.default_state = m.default_state
    ∧ (m.reset).1.blend_from_state = m.blend_from_state
    ∧ (m.reset).1.blend_to_state = m.blend_to_state
    ∧ (m.default_state ≠ "" → (_find_state m m.default_state).isSome = true →
        (m.reset).1.current_state = m.default_state)
    ∧ (m.default_state ≠ "" → _find_state m m.default_state = none →
        (m.reset).1.current_state = m.current_state)
    ∧ (m.default_state = "" → (m.reset).1.current_state = m.current_state) := by
  rw [reset_eq]
  by_cases hd : m.default_state = ""
  · have hd2 : ¬ (m.default_state ≠ "") := fun h => h hd
    rw [if_neg hd2]
    exact ⟨rfl, rfl, rfl, rfl, rfl, rfl, rfl, rfl, rfl, rfl, fun h => absurd hd h,
      fun h => absurd hd h, fun _ => rfl⟩
  · rw [if_pos hd]
    have hf := set_current_state_frame m m.default_state
    refine ⟨rfl, rfl, rfl, hf.2.2.2.2.2.2.2.2.1, hf.2.2.2.2.2.2.2.2.2, hf.2.2.2.2.2.1,
      hf.2.2.2.2.2.2.1, hf.2.2.2.2.2.2.2.1, hf.2.2.1, hf.2.2.2.1, ?_, ?_, fun h => absurd h hd⟩
    · intro _ hs
      by_cases hc : m.current_state = m.default_state
      · rw [set_current_state_of_same m _ hc]
        exact hc
      · obtain ⟨s, hs2⟩ := Option.isSome_iff_exists.1 hs
        rw [set_current_state_of_found m _ s hc hs2]
    · intro _ hs
      by_cases hc : m.current_state = m.default_state
      · rw [set_current_state_of_same m _ hc]
      · rw [set_current_state_of_missing m _ hc hs]

/-- C13, an instance: with `default_state` set to `C`, `reset` moves `sample_machine` from
`A` to `C`. -/
theorem reset_spec_witness :
    ({ sample_machine with default_state := "C" } : LottieStateMachine SampleVariant).default_state
      ≠ ""
    ∧ (_find_state ({ sample_machine with default_state := "C" } :
          LottieStateMachine SampleVariant) "C").isSome = true
    ∧ (({ sample_machine with default_state := "C" } :
          LottieStateMachine SampleVariant).reset).1.current_state = "C" :=
  ⟨by decide, by decide,
    (reset_spec ({ sample_machine with default_state := "C" } :
      LottieStateMachine SampleVariant)).2.2.2.2.2.2.2.2.2.2.1 (by decide) (by decide)⟩

/-- C14.  Invalid transition target is a no-op: for every machine and `update` call in
which the first eligible transition names a `to_state` that is not in the states list, the
transition block changes nothing, so the call is the blend block alone (or nothing, with a
null node): `current_state`, `blend_from_state` and `blend_to_state` are unchanged, the
blend is not started or restarted (a machine that was not blending is left as it was), no
`transition_started` is emitted and the animation node receives no call; the transitions
declared after the first eligible one play no part. -/
theorem invalid_target_noop (vo : VariantOps V) (m : LottieStateMachine V) (delta : ℚ)
    (node : NodePtr) (t : LottieStateTransition V) (h : first_eligible vo m = some t)
    (hs : _find_state m t.to_state = none) :
    update_transitions vo m = (m, [])
    ∧ m.update vo delta node
        = (match node with
           | none => (m, [])
           | some _ => update_blend delta m)
    ∧ (m.update vo delta node).1.current_state = m.current_state
    ∧ (m.update vo delta node).1.blend_from_state = m.blend_from_state
    ∧ (m.update vo delta node).1.blend_to_state = m.blend_to_state
    ∧ (m.is_blending = false → (m.update vo delta node).1 = m)
    ∧ count_started (m.update vo delta node).2 = 0
    ∧ node_calls (m.update vo delta node).2 = [] := by
  have h3 := update_transitions_of_missing vo m t h hs
  cases node with
  | none => exact ⟨h3, rfl, rfl, rfl, rfl, fun _ => rfl, rfl, rfl⟩
  | some n =>
    have hu : m.update vo delta (some n) = update_blend delta m := by
      rw [update_some, h3]
      rfl
    have hf := update_blend_frame delta m
    refine ⟨h3, hu, ?_, ?_, ?_, ?_, ?_, ?_⟩
    · rw [hu]; exact hf.2.1
    · rw [hu]; exact hf.2.2.1
    · rw [hu]; exact hf.2.2.2
    · intro hb
      rw [hu, update_blend_of_not_blending delta m hb]
    · rw [hu]; exact hf.1
    · rw [hu]
      cases hb : m.is_blending with
      | false => rw [update_blend_of_not_blending delta m hb]; rfl
      | true =>
        cases hst : _find_state m m.current_state with
        | none => rw [update_blend_of_no_state delta m hst]; rfl
        | some s =>
          by_cases hT : 0 < s.blend_time
          · rw [update_blend_of_pos delta m s hb hst hT]
            split <;> rfl
          · rw [update_blend_of_nonpos delta m s hb hst hT]
            rfl

/-- C14, an instance: in `sample_machine_two_targets` the first eligible transition is
`A -> X`; the later `A -> B`, whose target exists, is not taken and the machine is
unchanged. -/
theorem invalid_target_noop_witness :
    first_eligible SampleVariant.ops sample_machine_two_targets
      = some ⟨"A", "X", "", .nil, "equals", 1 / 5, true⟩
    ∧ _find_state sample_machine_two_targets "X" = none
    ∧ sample_machine_two_targets.is_blending = false
    ∧ (sample_machine_two_targets.update SampleVariant.ops (1 / 5) (some 0)).1
        = sample_machine_two_targets :=
  have h1 : first_eligible SampleVariant.ops sample_machine_two_targets
      = some ⟨"A", "X", "", .nil, "equals", 1 / 5, true⟩ := by
    simp [first_eligible, eligible, sample_machine_two_targets,
      LottieStateTransition.evaluate_condition]
  have h2 : _find_state sample_machine_two_targets "X" = none := by
    simp [_find_state, sample_machine_two_targets]
  ⟨h1, h2, rfl,
    (invalid_target_noop SampleVariant.ops sample_machine_two_targets (1 / 5) (some 0) _ h1
      h2).2.2.2.2.2.1 rfl⟩

/-- C15.  `set_current_state`: for every machine and name `n`, if `n` equals the current
state or `n` names no state in the states list, the call leaves the machine as it is and
emits no notification (in the second case it only logs an error); otherwise
`current_state` becomes `n` and exactly one `state_changed(old, n)` is emitted, and nothing
else.  In both cases blend progress, the blending flag, blend-from, blend-to, the parameter
table, states, transitions and default state are unchanged. -/
theorem set_current_state_spec (m : LottieStateMachine V) (n : String) :
    ((m.current_state = n ∨ _find_state m n = none) →
        (m.set_current_state n).1 = m ∧ signals (m.set_current_state n).2 = [])
    ∧ (m.current_state ≠ n → (_find_state m n).isSome = true →
        (m.set_current_state n).1.current_state = n
        ∧ (m.set_current_state n).2 = [.state_changed m.current_state n])
    ∧ (m.set_current_state n).1.blend_progress = m.blend_progress
    ∧ (m.set_current_state n).1.is_blending = m.is_blending
    ∧ (m.set_current_state n).1.blend_from_state = m.blend_from_state
    ∧ (m.set_current_state n).1.blend_to_state = m.blend_to_state
    ∧ (m.set_current_state n).1.parameters = m.parameters
    ∧ (m.set_current_state n).1.states = m.states
    ∧ (m.set_current_state n).1.transitions = m.transitions
    ∧ (m.set_current_state n).1.default_state = m.default_state := by
  have hf := set_current_state_frame m n
  refine ⟨?_, ?_, hf.1, hf.2.1, hf.2.2.1, hf.2.2.2.1, hf.2.2.2.2.1, hf.2.2.2.2.2.1,
    hf.2.2.2.2.2.2.1, hf.2.2.2.2.2.2.2.1⟩
  · intro h
    by_cases hc : m.current_state = n
    · rw [set_current_state_of_same m n hc]
      exact ⟨rfl, rfl⟩
    · have hn : _find_state m n = none := h.resolve_left hc
      rw [set_current_state_of_missing m n hc hn]
      exact ⟨rfl, rfl⟩
  · intro hc hs
    obtain ⟨s, hs2⟩ := Option.isSome_iff_exists.1 hs
    rw [set_current_state_of_found m n s hc hs2]
    exact ⟨rfl, rfl⟩

/-- C15, an instance: `sample_machine` is moved from `A` to `B`; the name `Z` changes
nothing. -/
theorem set_current_state_spec_witness :
    (sample_machine.current_state ≠ "B")
    ∧ (_find_state sample_machine "B").isSome = true
    ∧ (sample_machine.set_current_state "B").2 = [.state_changed "A" "B"]
    ∧ (sample_machine.set_current_state "Z").1 = sample_machine :=
  ⟨by decide, by decide,
    ((set_current_state_spec sample_machine "B").2.1 (by decide) (by decide)).2,
    ((set_current_state_spec sample_machine "Z").1 (Or.inr (by decide))).1⟩

/-- C18.  `evaluate_condition`, auto-advance and missing parameter: for every transition
with `auto_advance` set, `evaluate_condition` returns true for every parameter table,
whatever the mode, parameter name and value.  For every transition without `auto_advance`,
it returns false whenever `condition_parameter` is empty or absent from the table, for
every mode, and whenever `condition_mode` is not one of `equals`, `not_equals`, `greater`,
`less`. -/
theorem evaluate_condition_auto_and_missing (vo : VariantOps V)
    (t : LottieStateTransition V) (parameters : List (String × V)) :
    (t.auto_advance = true → t.evaluate_condition vo parameters = true)
    ∧ (t.auto_advance = false →
        (t.condition_parameter = "" ∨ dict_find parameters t.condition_parameter = none) →
        t.evaluate_condition vo parameters = false)
    ∧ (t.auto_advance = false →
        (t.condition_mode ≠ "equals" ∧ t.condition_mode ≠ "not_equals"
          ∧ t.condition_mode ≠ "greater" ∧ t.condition_mode ≠ "less") →
        t.evaluate_condition vo parameters = false) := by
  refine ⟨evaluate_condition_of_auto vo t parameters, ?_, ?_⟩
  · intro ha h
    unfold LottieStateTransition.evaluate_condition
    rw [ha]
    rcases h with h | h
    · simp [h]
    · simp [h]
  · intro ha h
    unfold LottieStateTransition.evaluate_condition
    rw [ha]
    simp [h.1, h.2.1, h.2.2.1, h.2.2.2]

/-- C18, an instance: on the empty table an auto-advance transition holds, and a
`not_equals` condition on the absent parameter `p` does not. -/
theorem evaluate_condition_auto_and_missing_witness :
    (⟨"A", "C", "", .nil, "equals", 1 / 5, true⟩ :
        LottieStateTransition SampleVariant).evaluate_condition SampleVariant.ops [] = true
    ∧ (⟨"A", "B", "p", .int 1, "not_equals", 1 / 5, false⟩ :
        LottieStateTransition SampleVariant).evaluate_condition SampleVariant.ops [] = false :=
  ⟨(evaluate_condition_auto_and_missing SampleVariant.ops
      ⟨"A", "C", "", .nil, "equals", 1 / 5, true⟩ []).1 rfl,
    (evaluate_condition_auto_and_missing SampleVariant.ops
      ⟨"A", "B", "p", .int 1, "not_equals", 1 / 5, false⟩ []).2.1 rfl (Or.inr rfl)⟩

end LottieStateMachine

/-! ## State machine: what each call leaves alone -/

namespace LottieStateMachine

variable {V : Type}

theorem dict_find_set_self (d : List (String × V)) (n : String) (v : V) :
    dict_find (dict_set d n v) n = some v := by
  induction d with
  | nil => simp [dict_set, dict_find]
  | cons p d ih =>
    obtain ⟨k, w⟩ := p
    by_cases h : k = n
    · simp [dict_set, dict_find, h]
    · simp [dict_set, dict_find, h, ih]

theorem dict_find_set_ne (d : List (String × V)) (n k : String) (v : V) (hk : k ≠ n) :
    dict_find (dict_set d n v) k = dict_find d k := by
  induction d with
  | nil =>
    have : ¬ n = k := fun h => hk h.symm
    simp [dict_set, dict_find, this]
  | cons p d ih =>
    obtain ⟨k2, w⟩ := p
    by_cases h : k2 = n
    · subst h
      have : ¬ k2 = k := fun h => hk h.symm
      simp [dict_set, dict_find, this]
    · by_cases h2 : k2 = k
      · subst h2
        simp [dict_set, dict_find, hk]
      · simp [dict_set, dict_find, h, h2, ih]

/-- The transition block of `update` either changes nothing or starts a blend towards a
state of the list. -/
theorem update_transitions_cases (vo : VariantOps V) (m : LottieStateMachine V) :
    update_transitions vo m = (m, [])
    ∨ ∃ t s, first_eligible vo m = some t ∧ _find_state m t.to_state = some s
        ∧ update_transitions vo m =
          ({ m with blend_from_state := m.current_state,
                    blend_to_state := t.to_state,
                    is_blending := true,
                    blend_progress := 0,
                    current_state := t.to_state },
            [.transition_started m.current_state t.to_state,
             .set_animation_path s.animation_path,
             .set_looping s.loop,
             .set_speed s.speed,
             .play]) := by
  cases h : first_eligible vo m with
  | none => exact Or.inl (update_transitions_of_none vo m h)
  | some t =>
    cases hs : _find_state m t.to_state with
    | none => exact Or.inl (update_transitions_of_missing vo m t h hs)
    | some s => exact Or.inr ⟨t, s, rfl, hs, update_transitions_of_taken vo m t s h hs⟩

theorem update_transitions_fields (vo : VariantOps V) (m : LottieStateMachine V) :
    (update_transitions vo m).1.states = m.states
    ∧ (update_transitions vo m).1.transitions = m.transitions
    ∧ (update_transitions vo m).1.parameters = m.parameters
    ∧ (update_transitions vo m).1.default_state = m.default_state := by
  rcases update_transitions_cases vo m with h | ⟨t, s, _, _, h⟩
  · rw [h]
    exact ⟨rfl, rfl, rfl, rfl⟩
  · rw [h]
    exact ⟨rfl, rfl, rfl, rfl⟩

/-- The blend block of `update` changes at most the progress and the blending flag. -/
theorem update_blend_cases (delta : ℚ) (m : LottieStateMachine V) :
    update_blend delta m = (m, [])
    ∨ (∃ s, m.is_blending = true ∧ _find_state m m.current_state = some s ∧ 0 < s.blend_time
        ∧ m.blend_progress + delta / s.blend_time < 1
        ∧ update_blend delta m
            = ({ m with blend_progress := m.blend_progress + delta / s.blend_time }, []))
    ∨ (m.is_blending = true
        ∧ update_blend delta m
            = ({ m with blend_progress := 1, is_blending := false },
                [.transition_finished m.current_state])) := by
  cases hb : m.is_blending with
  | false => exact Or.inl (update_blend_of_not_blending delta m hb)
  | true =>
    cases hs : _find_state m m.current_state with
    | none => exact Or.inl (update_blend_of_no_state delta m hs)
    | some s =>
      by_cases hT : 0 < s.blend_time
      · by_cases hp : 1 ≤ m.blend_progress + delta / s.blend_time
        · right; right
          refine ⟨rfl, ?_⟩
          rw [update_blend_of_pos delta m s hb hs hT, if_pos hp]
        · right; left
          refine ⟨s, rfl, rfl, hT, not_le.1 hp, ?_⟩
          rw [update_blend_of_pos delta m s hb hs hT, if_neg hp, hb]
      · right; right
        refine ⟨rfl, ?_⟩
        rw [update_blend_of_nonpos delta m s hb hs hT]

theorem update_blend_fields (delta : ℚ) (m : LottieStateMachine V) :
    (update_blend delta m).1.states = m.states
    ∧ (update_blend delta m).1.transitions = m.transitions
    ∧ (update_blend delta m).1.parameters = m.parameters
    ∧ (update_blend delta m).1.default_state = m.default_state
    ∧ (update_blend delta m).1.current_state = m.current_state := by
  rcases update_blend_cases delta m with h | ⟨s, _, _, _, _, h⟩ | ⟨_, h⟩
  · rw [h]
    exact ⟨rfl, rfl, rfl, rfl, rfl⟩
  · rw [h]
    exact ⟨rfl, rfl, rfl, rfl, rfl⟩
  · rw [h]
    exact ⟨rfl, rfl, rfl, rfl, rfl⟩

theorem update_fields (vo : VariantOps V) (m : LottieStateMachine V) (delta : ℚ)
    (node : NodePtr) :
    (m.update vo delta node).1.states = m.states
    ∧ (m.update vo delta node).1.transitions = m.transitions
    ∧ (m.update vo delta node).1.parameters = m.parameters
    ∧ (m.update vo delta node).1.default_state = m.default_state := by
  cases node with
  | none => exact ⟨rfl, rfl, rfl, rfl⟩
  | some n =>
    rw [update_some]
    have h1 := update_transitions_fields vo m
    have h2 := update_blend_fields delta (update_transitions vo m).1
    exact ⟨h2.1.trans h1.1, h2.2.1.trans h1.2.1, h2.2.2.1.trans h1.2.2.1,
      h2.2.2.2.1.trans h1.2.2.2⟩

theorem reset_parameters (m : LottieStateMachine V) : (m.reset).1.parameters = [] := rfl

/-- The parameter table after a call: only `set_parameter` and `reset` change it. -/
theorem apply_parameters (vo : VariantOps V) (m : LottieStateMachine V) (op : Op V) :
    (op.apply vo m).1.parameters =
      (match op with
       | .set_parameter n v => dict_set m.parameters n v
       | .reset => []
       | _ => m.parameters) := by
  cases op with
  | add_state state => cases state <;> rfl
  | remove_state n => rfl
  | add_transition t => cases t <;> rfl
  | remove_transition a b => rfl
  | set_current_state n => exact (set_current_state_frame m n).2.2.2.2.1
  | set_default_state n => rfl
  | set_parameter n v => rfl
  | update delta node => exact (update_fields vo m delta node).2.2.1
  | reset => rfl

theorem sm_run_snoc (vo : VariantOps V) (ops : List (Op V)) (op : Op V) :
    run_ops vo (ops ++ [op]) = (op.apply vo (run_ops vo ops)).1 := by
  simp [run_ops, List.foldl_append]

/-- A name that no `set_parameter` of the sequence has set is absent from the table. -/
theorem never_set_absent (vo : VariantOps V) (n : String) (ops : List (Op V))
    (h : ∀ v, Op.set_parameter n v ∉ ops) :
    dict_find (run_ops vo ops).parameters n = none := by
  induction ops using List.reverseRecOn with
  | nil => rfl
  | append_singleton ops op ih =>
    have ih2 := ih (fun v hv => h v (List.mem_append_left _ hv))
    rw [sm_run_snoc, apply_parameters]
    cases op with
    | set_parameter k v =>
      have hk : n ≠ k := by
        intro hnk
        subst hnk
        exact h v (by simp)
      simp only
      rw [dict_find_set_ne _ _ _ _ hk]
      exact ih2
    | reset => rfl
    | add_state state => exact ih2
    | remove_state k => exact ih2
    | add_transition t => exact ih2
    | remove_transition a b => exact ih2
    | set_current_state k => exact ih2
    | set_default_state k => exact ih2
    | update delta node => exact ih2

end LottieStateMachine

namespace LottieStateMachine

variable {V : Type}

/-- C19.  Parameter table: for every machine, name `n` and value `v`, after
`set_parameter(n, v)` `get_parameter(n)` returns `v` and `has_parameter(n)` is true;
`set_parameter(n, v)` does not change `get_parameter(k)` or `has_parameter(k)` for any
other name `k`, and changes nothing else in the machine; `get_parameter` of a name that no
call has set since construction, or of any name after `reset`, returns the nil value and
`has_parameter` returns false. -/
theorem parameter_table (vo : VariantOps V) (m : LottieStateMachine V) (n : String) (v : V) :
    get_parameter vo (m.set_parameter n v) n = v
    ∧ has_parameter (m.set_parameter n v) n = true
    ∧ (∀ k, k ≠ n →
        get_parameter vo (m.set_parameter n v) k = get_parameter vo m k
        ∧ has_parameter (m.set_parameter n v) k = has_parameter m k)
    ∧ m.set_parameter n v = { m with parameters := (m.set_parameter n v).parameters }
    ∧ (∀ ops : List (Op V), (∀ w, Op.set_parameter n w ∉ ops) →
        get_parameter vo (run_ops vo ops) n = vo.nil
        ∧ has_parameter (run_ops vo ops) n = false)
    ∧ (∀ k, get_parameter vo (m.reset).1 k = vo.nil ∧ has_parameter (m.reset).1 k = false) := by
  refine ⟨?_, ?_, ?_, rfl, ?_, ?_⟩
  · simp [get_parameter, set_parameter, dict_find_set_self]
  · simp [has_parameter, set_parameter, dict_find_set_self]
  · intro k hk
    simp [get_parameter, has_parameter, set_parameter, dict_find_set_ne _ _ _ _ hk]
  · intro ops h
    have := never_set_absent vo n ops h
    simp [get_parameter, has_parameter, this]
  · intro k
    simp [get_parameter, has_parameter, reset_parameters, dict_find]

/-- C19, an instance: `q` is set to 7 on `sample_machine`; `p` keeps its value 1; `q` is
absent from a machine on which only `p` was set. -/
theorem parameter_table_witness :
    get_parameter SampleVariant.ops (sample_machine.set_parameter "q" (.int 7)) "q" = .int 7
    ∧ get_parameter SampleVariant.ops (sample_machine.set_parameter "q" (.int 7)) "p" = .int 1
    ∧ has_parameter (run_ops SampleVariant.ops [.set_parameter "p" (.int 1)]) "q" = false :=
  ⟨(parameter_table SampleVariant.ops sample_machine "q" (.int 7)).1,
    ((parameter_table SampleVariant.ops sample_machine "q" (.int 7)).2.2.1 "p"
      (by decide)).1.trans (by decide),
    ((parameter_table SampleVariant.ops sample_machine "q" (.int 7)).2.2.2.2.1
      [.set_parameter "p" (.int 1)] (by simp)).2⟩

end LottieStateMachine

/-! ## State machine: invariants over runs of calls -/

namespace LottieStateMachine

variable {V : Type}

theorem find_state_congr {m m2 : LottieStateMachine V} (h : m2.states = m.states)
    (n : String) : _find_state m2 n = _find_state m n := by
  simp [_find_state, h]

theorem current_state_valid_congr {m m2 : LottieStateMachine V} (h : m2.states = m.states)
    (hc : m2.current_state = m.current_state) :
    current_state_valid m2 = current_state_valid m := by
  simp [current_state_valid, find_state_congr h, hc]

theorem current_state_valid_of_found {m : LottieStateMachine V} {s : LottieAnimationState}
    (h : _find_state m m.current_state = some s) : current_state_valid m = true := by
  simp [current_state_valid, h]

theorem find_state_add_state (m : LottieStateMachine V) (x : Option LottieAnimationState)
    (n : String) (h : (_find_state m n).isSome = true) :
    (_find_state (m.add_state x) n).isSome = true := by
  cases x with
  | none => exact h
  | some s2 =>
    obtain ⟨s, hs⟩ := Option.isSome_iff_exists.1 h
    unfold _find_state at hs
    simp only [_find_state, add_state, List.findSome?_append, hs, Option.or_some,
      Option.isSome_some]

theorem find_remove_first_state_ne (l : List (Option LottieAnimationState)) (n k : String)
    (hk : k ≠ n) :
    (remove_first_state l n).findSome? (fun r =>
        match r with
        | some state => if state.state_name = k then some state else none
        | none => none)
      = l.findSome? (fun r =>
        match r with
        | some state => if state.state_name = k then some state else none
        | none => none) := by
  induction l with
  | nil => rfl
  | cons x l ih =>
    cases x with
    | none => simpa [remove_first_state, List.findSome?_cons] using ih
    | some s =>
      by_cases h : s.state_name = n
      · have h2 : ¬ s.state_name = k := fun h3 => hk (h3.symm.trans h)
        have hr : remove_first_state (some s :: l) n = l := by
          rw [remove_first_state, if_pos h]
        rw [hr, List.findSome?_cons]
        simp only [if_neg h2]
      · have hr : remove_first_state (some s :: l) n = some s :: remove_first_state l n := by
          rw [remove_first_state, if_neg h]
        rw [hr, List.findSome?_cons, List.findSome?_cons, ih]

/-- Every call other than a `remove_state` of the current state keeps the current state
empty or naming a state of the list. -/
theorem current_state_valid_apply (vo : VariantOps V) (m : LottieStateMachine V) (op : Op V)
    (h : current_state_valid m = true)
    (hop : ∀ n, op = .remove_state n → n ≠ m.current_state) :
    current_state_valid (op.apply vo m).1 = true := by
  cases op with
  | add_state x =>
    simp only [Op.apply]
    have hc : (m.add_state x).current_state = m.current_state := by cases x <;> rfl
    simp only [current_state_valid, Bool.or_eq_true, decide_eq_true_eq] at h ⊢
    rcases h with h | h
    · exact Or.inl (hc.trans h)
    · right
      rw [hc]
      exact find_state_add_state m x _ h
  | remove_state n =>
    have hn := hop n rfl
    simp only [Op.apply]
    simp only [current_state_valid, Bool.or_eq_true, decide_eq_true_eq] at h ⊢
    rcases h with h | h
    · exact Or.inl h
    · right
      have : _find_state (m.remove_state n) m.current_state = _find_state m m.current_state :=
        find_remove_first_state_ne m.states n m.current_state (fun hh => hn hh.symm)
      exact this ▸ h
  | add_transition t =>
    have : current_state_valid (m.add_transition t) = current_state_valid m := by
      cases t <;> rfl
    exact this.trans h
  | remove_transition a b => exact h
  | set_current_state n =>
    simp only [Op.apply]
    by_cases hc : m.current_state = n
    · rw [set_current_state_of_same m n hc]
      exact h
    · cases hf : _find_state m n with
      | none =>
        rw [set_current_state_of_missing m n hc hf]
        exact h
      | some s =>
        rw [set_current_state_of_found m n s hc hf]
        exact current_state_valid_of_found hf
  | set_default_state n => exact h
  | set_parameter n v => exact h
  | update delta node =>
    simp only [Op.apply]
    cases node with
    | none => exact h
    | some k =>
      rw [update_some]
      have hb := update_blend_fields delta (update_transitions vo m).1
      rw [current_state_valid_congr hb.1 hb.2.2.2.2]
      rcases update_transitions_cases vo m with h1 | ⟨t, s, _, hs, h1⟩
      · rw [h1]
        exact h
      · rw [h1]
        exact current_state_valid_of_found hs
  | reset =>
    simp only [Op.apply]
    rw [reset_eq]
    by_cases hd : m.default_state = ""
    · have hd2 : ¬ (m.default_state ≠ "") := fun hh => hh hd
      rw [if_neg hd2]
      exact h
    · rw [if_pos hd]
      by_cases hc : m.current_state = m.default_state
      · rw [set_current_state_of_same m _ hc]
        exact h
      · cases hf : _find_state m m.default_state with
        | none =>
          rw [set_current_state_of_missing m _ hc hf]
          exact h
        | some s =>
          rw [set_current_state_of_found m _ s hc hf]
          exact current_state_valid_of_found hf

/-- With a non-negative delta, a call keeps the blend progress between 0 and 1. -/
theorem progress_range_apply (vo : VariantOps V) (m : LottieStateMachine V) (op : Op V)
    (h : 0 ≤ m.blend_progress ∧ m.blend_progress ≤ 1) (hop : op.delta_nonneg) :
    0 ≤ (op.apply vo m).1.blend_progress ∧ (op.apply vo m).1.blend_progress ≤ 1 := by
  cases op with
  | add_state x => cases x <;> exact h
  | remove_state n => exact h
  | add_transition t => cases t <;> exact h
  | remove_transition a b => exact h
  | set_current_state n =>
    simp only [Op.apply]
    rw [(set_current_state_frame m n).1]
    exact h
  | set_default_state n => exact h
  | set_parameter n v => exact h
  | reset =>
    simp only [Op.apply]
    rw [reset_eq]
    exact ⟨le_refl _, zero_le_one⟩
  | update delta node =>
    have hd : 0 ≤ delta := hop
    simp only [Op.apply]
    cases node with
    | none => exact h
    | some k =>
      rw [update_some]
      have h1 : 0 ≤ (update_transitions vo m).1.blend_progress
          ∧ (update_transitions vo m).1.blend_progress ≤ 1 := by
        rcases update_transitions_cases vo m with h1 | ⟨t, s, _, _, h1⟩
        · rw [h1]
          exact h
        · rw [h1]
          exact ⟨le_refl _, zero_le_one⟩
      rcases update_blend_cases delta (update_transitions vo m).1 with
        h2 | ⟨s, _, _, hT, hlt, h2⟩ | ⟨_, h2⟩
      · rw [h2]
        exact h1
      · rw [h2]
        have : 0 ≤ delta / s.blend_time := div_nonneg hd hT.le
        exact ⟨add_nonneg h1.1 this, hlt.le⟩
      · rw [h2]
        exact ⟨zero_le_one, le_refl _⟩

theorem progress_range_run (vo : VariantOps V) (ops : List (Op V))
    (h : ∀ op ∈ ops, op.delta_nonneg) :
    0 ≤ (run_ops vo ops).blend_progress ∧ (run_ops vo ops).blend_progress ≤ 1 := by
  induction ops using List.reverseRecOn with
  | nil => exact ⟨le_refl _, zero_le_one⟩
  | append_singleton ops op ih =>
    rw [sm_run_snoc]
    exact progress_range_apply vo _ op (ih (fun o ho => h o (List.mem_append_left _ ho)))
      (h op (by simp))

end LottieStateMachine

namespace LottieStateMachine

variable {V : Type}

/-- C16 (the code at the failing input).  After `add_state(A)`, `set_current_state("A")`
and `remove_state("A")` on a fresh machine, the states list is empty and `current_state`
is still `A`: it is neither empty nor the name of a state of the list. -/
theorem current_state_dangles_after_remove_state :
    (run_ops SampleVariant.ops [.add_state (some ⟨"A", "a.json", true, 1, 1 / 5⟩),
        .set_current_state "A", .remove_state "A"]).current_state = "A"
    ∧ (run_ops SampleVariant.ops [.add_state (some ⟨"A", "a.json", true, 1, 1 / 5⟩),
        .set_current_state "A", .remove_state "A"]).states = []
    ∧ current_state_valid (run_ops SampleVariant.ops
        [.add_state (some ⟨"A", "a.json", true, 1, 1 / 5⟩), .set_current_state "A",
          .remove_state "A"]) = false
    ∧ current_state_valid (run_ops SampleVariant.ops
        [.add_state (some ⟨"A", "a.json", true, 1, 1 / 5⟩), .set_current_state "A"]) = true := by
  decide

/-- C17 (as stated, refuted).  On a machine with states `A` and `B` (blend time 0.5), the
transition `A -> B` with `auto_advance` and current state `A`, `update(-1)` takes the
transition and leaves the blend progress at -2, outside `[0, 1]`. -/
theorem progress_range_fails_on_negative_delta :
    (run_ops SampleVariant.ops [.add_state (some ⟨"A", "a.json", true, 1, 1 / 5⟩),
        .add_state (some ⟨"B", "b.json", false, 2, 1 / 2⟩),
        .add_transition (some ⟨"A", "B", "", .nil, "equals", 1 / 5, true⟩),
        .set_current_state "A", .update (-1) (some 0)]).get_blend_progress = -2 := by
  have h0 : run_ops SampleVariant.ops [.add_state (some ⟨"A", "a.json", true, 1, 1 / 5⟩),
        .add_state (some ⟨"B", "b.json", false, 2, 1 / 2⟩),
        .add_transition (some ⟨"A", "B", "", .nil, "equals", 1 / 5, true⟩),
        .set_current_state "A", .update (-1) (some 0)]
      = (({ states := [some ⟨"A", "a.json", true, 1, 1 / 5⟩,
                       some ⟨"B", "b.json", false, 2, 1 / 2⟩],
            transitions := [some ⟨"A", "B", "", .nil, "equals", 1 / 5, true⟩],
            current_state := "A", default_state := "", parameters := [],
            blend_progress := 0, blend_from_state := "", blend_to_state := "",
            is_blending := false } : LottieStateMachine SampleVariant).update
          SampleVariant.ops (-1) (some 0)).1 := by
    rfl
  rw [h0]
  have h1 : first_eligible SampleVariant.ops
      ({ states := [some ⟨"A", "a.json", true, 1, 1 / 5⟩,
                    some ⟨"B", "b.json", false, 2, 1 / 2⟩],
         transitions := [some ⟨"A", "B", "", .nil, "equals", 1 / 5, true⟩],
         current_state := "A", default_state := "", parameters := [],
         blend_progress := 0, blend_from_state := "", blend_to_state := "",
         is_blending := false } : LottieStateMachine SampleVariant)
      = some ⟨"A", "B", "", .nil, "equals", 1 / 5, true⟩ := by
    simp [first_eligible, eligible, LottieStateTransition.evaluate_condition]
  have h2 : _find_state
      ({ states := [some ⟨"A", "a.json", true, 1, 1 / 5⟩,
                    some ⟨"B", "b.json", false, 2, 1 / 2⟩],
         transitions := [some ⟨"A", "B", "", .nil, "equals", 1 / 5, true⟩],
         current_state := "A", default_state := "", parameters := [],
         blend_progress := 0, blend_from_state := "", blend_to_state := "",
         is_blending := false } : LottieStateMachine SampleVariant) "B"
      = some ⟨"B", "b.json", false, 2, 1 / 2⟩ := by
    simp [_find_state]
  rw [get_blend_progress, update_some, update_transitions_of_taken _ _ _ _ h1 h2,
    update_blend_of_pos (-1) _ ⟨"B", "b.json", false, 2, 1 / 2⟩ rfl h2 (by norm_num)]
  norm_num

/-- C17 (amended).  Blend progress range invariant: starting from a freshly constructed
`LottieStateMachine`, for every finite sequence of public operations in which every delta
passed to `update` is finite and non-negative and every blend time is finite (they are
rational numbers here, and the arithmetic is taken exactly), `get_blend_progress()` lies in
the closed interval `[0, 1]` after each operation (after the first `n` operations, for
every `n`).  An infinite delta over an infinite blend time, which is not a number in the
source, is outside this statement. -/
theorem progress_range (vo : VariantOps V) (ops : List (Op V))
    (h : ∀ op ∈ ops, op.delta_nonneg) (n : Nat) :
    0 ≤ (run_ops vo (ops.take n)).get_blend_progress
    ∧ (run_ops vo (ops.take n)).get_blend_progress ≤ 1 :=
  progress_range_run vo (ops.take n) (fun op hop => h op (List.mem_of_mem_take hop))

/-- C17, an instance: the same calls with `update(0.2)`. -/
theorem progress_range_witness :
    (∀ op ∈ [Op.add_state (some ⟨"A", "a.json", true, 1, 1 / 5⟩),
        .add_state (some ⟨"B", "b.json", false, 2, 1 / 2⟩),
        .add_transition (some ⟨"A", "B", "", SampleVariant.nil, "equals", 1 / 5, true⟩),
        .set_current_state "A", .update (1 / 5) (some 0)], op.delta_nonneg)
    ∧ 0 ≤ (run_ops SampleVariant.ops (List.take 5
        [.add_state (some ⟨"A", "a.json", true, 1, 1 / 5⟩),
        .add_state (some ⟨"B", "b.json", false, 2, 1 / 2⟩),
        .add_transition (some ⟨"A", "B", "", .nil, "equals", 1 / 5, true⟩),
        .set_current_state "A", .update (1 / 5) (some 0)])).get_blend_progress :=
  have h : ∀ op ∈ [Op.add_state (some ⟨"A", "a.json", true, 1, 1 / 5⟩),
        .add_state (some ⟨"B", "b.json", false, 2, 1 / 2⟩),
        .add_transition (some ⟨"A", "B", "", SampleVariant.nil, "equals", 1 / 5, true⟩),
        .set_current_state "A", .update (1 / 5) (some 0)], op.delta_nonneg := by
    intro op hop
    simp only [List.mem_cons, List.mem_singleton, List.not_mem_nil, or_false] at hop
    rcases hop with rfl | rfl | rfl | rfl | rfl
    · trivial
    · trivial
    · trivial
    · trivial
    · show (0 : ℚ) ≤ 1 / 5
      norm_num
  ⟨h, (progress_range SampleVariant.ops _ h 5).1⟩

end LottieStateMachine

/-! ## State machine: runs of `update` calls during a blend -/

namespace LottieStateMachine

variable {V : Type}

theorem count_finished_append (l1 l2 : List Effect) :
    count_finished (l1 ++ l2) = count_finished l1 + count_finished l2 := by
  simp [count_finished]

theorem count_finished_update_transitions (vo : VariantOps V) (m : LottieStateMachine V) :
    count_finished (update_transitions vo m).2 = 0 := by
  rcases update_transitions_cases vo m with h | ⟨t, s, _, _, h⟩
  · rw [h]; rfl
  · rw [h]; rfl

/-- An `update` that takes no transition is its blend block. -/
theorem update_of_quiet (vo : VariantOps V) (m : LottieStateMachine V) (delta : ℚ)
    (node : Nat) (h : takes_transition vo m = false) :
    m.update vo delta (some node) = update_blend delta m := by
  have h1 : update_transitions vo m = (m, []) := by
    cases hf : first_eligible vo m with
    | none => exact update_transitions_of_none vo m hf
    | some t =>
      cases hs : _find_state m t.to_state with
      | none => exact update_transitions_of_missing vo m t hf hs
      | some s => simp [takes_transition, hf, hs] at h
  rw [update_some, h1]
  rfl

end LottieStateMachine

namespace LottieStateMachine

variable {V : Type}

end LottieStateMachine

namespace LottieStateMachine

variable {V : Type}

end LottieStateMachine

namespace LottieStateMachine

variable {V : Type}

end LottieStateMachine

namespace LottieStateMachine

variable {V : Type}

/-- C12 (as stated, refuted).  `sample_machine_zero 1` is blending and its current state
`A` exists with blend time 0, but `p` is 1 and the transition `A -> B` (blend time 0.5) is
eligible: `update(0.2)` with a non-null node ends at progress 0.4, still blending, without
any `transition_finished`; with a null node it changes nothing. -/
theorem zero_blend_time_fails :
    (sample_machine_zero 1).is_blending = true
    ∧ _find_state (sample_machine_zero 1) (sample_machine_zero 1).current_state
        = some ⟨"A", "a.json", true, 1, 0⟩
    ∧ ((sample_machine_zero 1).update SampleVariant.ops (1 / 5) (some 0)).1.blend_progress
        = 2 / 5
    ∧ ((sample_machine_zero 1).update SampleVariant.ops (1 / 5) (some 0)).1.is_blending = true
    ∧ count_finished ((sample_machine_zero 1).update SampleVariant.ops (1 / 5) (some 0)).2 = 0
    ∧ ((sample_machine_zero 1).update SampleVariant.ops (1 / 5) none).1.blend_progress = 1 / 2
    ∧ ((sample_machine_zero 1).update SampleVariant.ops (1 / 5) none).1.is_blending = true := by
  have h1 : first_eligible SampleVariant.ops (sample_machine_zero 1)
      = some ⟨"A", "B", "p", .int 1, "equals", 1 / 5, false⟩ := by
    simp [first_eligible, eligible, sample_machine_zero,
      LottieStateTransition.evaluate_condition, dict_find, SampleVariant.ops]
  have h2 : _find_state (sample_machine_zero 1) "B"
      = some ⟨"B", "b.json", false, 2, 1 / 2⟩ := by
    simp [_find_state, sample_machine_zero]
  have h4 : (sample_machine_zero 1).update SampleVariant.ops (1 / 5) (some 0)
      = ({ sample_machine_zero 1 with
            blend_from_state := "A", blend_to_state := "B", is_blending := true,
            blend_progress := 0 + (1 / 5) / (1 / 2), current_state := "B" },
          [.transition_started "A" "B", .set_animation_path "b.json", .set_looping false,
            .set_speed 2, .play]) := by
    rw [update_some, update_transitions_of_taken _ _ _ _ h1 h2,
      update_blend_of_pos (1 / 5) _ ⟨"B", "b.json", false, 2, 1 / 2⟩ rfl h2 (by norm_num)]
    norm_num
    rfl
  refine ⟨rfl, ?_, ?_, ?_, ?_, rfl, rfl⟩
  · simp [_find_state, sample_machine_zero]
  · rw [h4]
    norm_num
  · rw [h4]
  · rw [h4]
    rfl

/-- C12 (amended).  Zero blend time completes immediately: `set_blend_time` stores
`max(0, t)`, so a blend time set through it (like the constructor's 0.2) is never negative.
In an `update` with a non-null animation node, if the machine is blending when the call
reaches its blend block (after its transition block) and its current state then exists
with blend time 0, the call, for every delta, sets the blend progress to 1, clears the
blending flag and emits exactly one `transition_finished(current_state)`, last.  When no
transition is taken in the call the machine meant is the one before the call; when one is
taken, into a state with blend time 0, the call emits `transition_started`, the four node
calls and `transition_finished` and ends not blending. -/
theorem zero_blend_time (vo : VariantOps V) (m : LottieStateMachine V) (delta : ℚ)
    (node : Nat) (s : LottieAnimationState)
    (hb : (update_transitions vo m).1.is_blending = true)
    (hs : _find_state (update_transitions vo m).1 (update_transitions vo m).1.current_state
            = some s)
    (hT : s.blend_time = 0) :
    (m.update vo delta (some node)).1.blend_progress = 1
    ∧ (m.update vo delta (some node)).1.is_blending = false
    ∧ count_finished (m.update vo delta (some node)).2 = 1
    ∧ (m.update vo delta (some node)).2
        = (update_transitions vo m).2
          ++ [.transition_finished (update_transitions vo m).1.current_state]
    ∧ (takes_transition vo m = false → (update_transitions vo m).1 = m)
    ∧ (∀ t s2, first_eligible vo m = some t → _find_state m t.to_state = some s2 →
        s2 = s
        ∧ (m.update vo delta (some node)).2
            = [.transition_started m.current_state t.to_state,
                .set_animation_path s.animation_path, .set_looping s.loop,
                .set_speed s.speed, .play, .transition_finished t.to_state])
    ∧ (∀ (st : LottieAnimationState) (time : ℚ),
        (st.set_blend_time time).blend_time = max 0 time
        ∧ 0 ≤ (st.set_blend_time time).blend_time)
    ∧ 0 ≤ LottieAnimationState.init.blend_time := by
  have hT2 : ¬ 0 < s.blend_time := by rw [hT]; exact lt_irrefl 0
  have hbl := update_blend_of_nonpos delta _ s hb hs hT2
  have hu := update_some vo m delta node
  refine ⟨?_, ?_, ?_, ?_, ?_, ?_, ?_, ?_⟩
  · rw [hu, hbl]
  · rw [hu, hbl]
  · rw [hu, hbl, count_finished_append, count_finished_update_transitions]
    rfl
  · rw [hu, hbl]
  · intro hq
    have h1 := update_of_quiet vo m delta node hq
    cases hf : first_eligible vo m with
    | none => rw [update_transitions_of_none vo m hf]
    | some t =>
      cases hst : _find_state m t.to_state with
      | none => rw [update_transitions_of_missing vo m t hf hst]
      | some s3 => simp [takes_transition, hf, hst] at hq
  · intro t s2 hf hs2
    have h3 := update_transitions_of_taken vo m t s2 hf hs2
    have hs3 : _find_state m t.to_state = some s := by
      rw [h3] at hs
      exact hs
    have hss : s2 = s := by
      rw [hs2] at hs3
      exact Option.some.inj hs3
    refine ⟨hss, ?_⟩
    rw [hu, hbl, h3, ← hss]
    rfl
  · intro st time
    exact ⟨rfl, le_max_left 0 time⟩
  · show (0 : ℚ) ≤ 1 / 5
    norm_num

/-- C12, an instance: `sample_machine_zero 0` is blending in `A`, of blend time 0, and no
transition is eligible; `update(0)` ends the blend. -/
theorem zero_blend_time_witness :
    (update_transitions SampleVariant.ops (sample_machine_zero 0)).1.is_blending = true
    ∧ _find_state (update_transitions SampleVariant.ops (sample_machine_zero 0)).1
        (update_transitions SampleVariant.ops (sample_machine_zero 0)).1.current_state
        = some ⟨"A", "a.json", true, 1, 0⟩
    ∧ ((sample_machine_zero 0).update SampleVariant.ops 0 (some 0)).1.blend_progress = 1
    ∧ ((sample_machine_zero 0).update SampleVariant.ops 0 (some 0)).2
        = [.transition_finished "A"] := by
  have h1 : first_eligible SampleVariant.ops (sample_machine_zero 0) = none := by
    simp [first_eligible, eligible, sample_machine_zero,
      LottieStateTransition.evaluate_condition, dict_find, SampleVariant.ops]
  have h3 := update_transitions_of_none SampleVariant.ops (sample_machine_zero 0) h1
  have hb : (update_transitions SampleVariant.ops (sample_machine_zero 0)).1.is_blending
      = true := by
    rw [h3]; rfl
  have hs : _find_state (update_transitions SampleVariant.ops (sample_machine_zero 0)).1
      (update_transitions SampleVariant.ops (sample_machine_zero 0)).1.current_state
      = some ⟨"A", "a.json", true, 1, 0⟩ := by
    rw [h3]
    simp [_find_state, sample_machine_zero]
  have hw := zero_blend_time SampleVariant.ops (sample_machine_zero 0) 0 0 _ hb hs rfl
  refine ⟨hb, hs, hw.1, ?_⟩
  rw [hw.2.2.2.1, h3]
  rfl

end LottieStateMachine

/-! ## State machine: frame of `update`, numeric conditions, state registry -/

namespace LottieStateMachine

variable {V : Type}

/-- The effects of the transition block are `transition_started` and node calls. -/
theorem update_transitions_effects (vo : VariantOps V) (m : LottieStateMachine V) :
    ∀ e ∈ (update_transitions vo m).2,
      (∃ a b, e = .transition_started a b) ∨ (∃ p, e = .set_animation_path p)
        ∨ (∃ l, e = .set_looping l) ∨ (∃ q, e = .set_speed q) ∨ e = .play := by
  rcases update_transitions_cases vo m with h | ⟨t, s, _, _, h⟩
  · rw [h]
    intro e he
    simp at he
  · rw [h]
    intro e he
    simp only [List.mem_cons, List.mem_singleton, List.not_mem_nil, or_false] at he
    rcases he with rfl | rfl | rfl | rfl | rfl <;> simp

/-- The effects of the blend block are `transition_finished` only. -/
theorem update_blend_effects (delta : ℚ) (m : LottieStateMachine V) :
    ∀ e ∈ (update_blend delta m).2, ∃ a, e = .transition_finished a := by
  rcases update_blend_cases delta m with h | ⟨s, _, _, _, _, h⟩ | ⟨_, h⟩
  · rw [h]
    intro e he
    simp at he
  · rw [h]
    intro e he
    simp at he
  · rw [h]
    intro e he
    simp only [List.mem_singleton] at he
    exact ⟨_, he⟩

theorem update_effects (vo : VariantOps V) (m : LottieStateMachine V) (delta : ℚ)
    (node : NodePtr) :
    ∀ e ∈ (m.update vo delta node).2,
      (∃ a b, e = .transition_started a b) ∨ (∃ a, e = .transition_finished a)
        ∨ (∃ p, e = .set_animation_path p) ∨ (∃ l, e = .set_looping l)
        ∨ (∃ q, e = .set_speed q) ∨ e = .play := by
  cases node with
  | none =>
    intro e he
    simp [update] at he
  | some n =>
    rw [update_some]
    intro e he
    rcases List.mem_append.1 he with h1 | h1
    · rcases update_transitions_effects vo m e h1 with h | h | h | h | h <;> simp [h]
    · simp [update_blend_effects delta _ e h1]

end LottieStateMachine

namespace LottieStateMachine

variable {V : Type}

/-- C26.  `update` without an animation node is a complete no-op: for every machine state
and every delta, `update(delta, null)` returns the machine as it is (so `current_state`,
`blend_from_state`, `blend_to_state`, blend progress, the blending flag and the parameter
table are unchanged) and emits nothing, whether or not a transition from the current state
is eligible or a blend is in progress. -/
theorem update_null_node (vo : VariantOps V) (m : LottieStateMachine V) (delta : ℚ) :
    m.update vo delta none = (m, []) :=
  rfl

/-- C27.  Frame of `update`: for every machine and every `update(delta, node)` call, the
parameter table, the states list, the transitions list and `default_state` are unchanged;
the only notifications `update` emits are `transition_started` and `transition_finished`,
so `state_changed` is never emitted by `update`, even when it changes `current_state`;
among the public calls, only `set_current_state` and `reset` (which goes through it) emit
`state_changed`. -/
theorem update_frame (vo : VariantOps V) (m : LottieStateMachine V) (delta : ℚ)
    (node : NodePtr) :
    (m.update vo delta node).1.parameters = m.parameters
    ∧ (m.update vo delta node).1.states = m.states
    ∧ (m.update vo delta node).1.transitions = m.transitions
    ∧ (m.update vo delta node).1.default_state = m.default_state
    ∧ (∀ e ∈ signals (m.update vo delta node).2,
        (∃ a b, e = .transition_started a b) ∨ (∃ a, e = .transition_finished a))
    ∧ (∀ a b, Effect.state_changed a b ∉ (m.update vo delta node).2)
    ∧ (∀ (op : Op V) a b, Effect.state_changed a b ∈ (op.apply vo m).2 →
        (∃ n, op = .set_current_state n) ∨ op = .reset) := by
  have hf := update_fields vo m delta node
  have he := update_effects vo m delta node
  refine ⟨hf.2.2.1, hf.1, hf.2.1, hf.2.2.2, ?_, ?_, ?_⟩
  · intro e hs
    have hmem : e ∈ (m.update vo delta node).2 := (List.mem_filter.1 hs).1
    have hsig := (List.mem_filter.1 hs).2
    rcases he e hmem with h | h | ⟨p, rfl⟩ | ⟨l, rfl⟩ | ⟨q, rfl⟩ | rfl
    · exact Or.inl h
    · exact Or.inr h
    · simp at hsig
    · simp at hsig
    · simp at hsig
    · simp at hsig
  · intro a b hmem
    rcases he _ hmem with ⟨_, _, h⟩ | ⟨_, h⟩ | ⟨_, h⟩ | ⟨_, h⟩ | ⟨_, h⟩ | h <;> cases h
  · intro op a b hmem
    cases op with
    | add_state x => simp [Op.apply] at hmem
    | remove_state n => simp [Op.apply] at hmem
    | add_transition t => simp [Op.apply] at hmem
    | remove_transition x y => simp [Op.apply] at hmem
    | set_current_state n => exact Or.inl ⟨n, rfl⟩
    | set_default_state n => simp [Op.apply] at hmem
    | set_parameter n v => simp [Op.apply] at hmem
    | update d nd =>
      rcases update_effects vo m d nd _ hmem with
        ⟨_, _, h⟩ | ⟨_, h⟩ | ⟨_, h⟩ | ⟨_, h⟩ | ⟨_, h⟩ | h <;> cases h
    | reset => exact Or.inr rfl

/-- C27, an instance: `update` moves `sample_machine` from `A` to `B` and its only
notification is `transition_started`. -/
theorem update_frame_witness :
    signals (sample_machine.update SampleVariant.ops (1 / 5) (some 0)).2
      = [.transition_started "A" "B"]
    ∧ (sample_machine.update SampleVariant.ops (1 / 5) (some 0)).1.parameters
      = sample_machine.parameters
    ∧ Effect.state_changed "A" "B"
        ∉ (sample_machine.update SampleVariant.ops (1 / 5) (some 0)).2 := by
  have h1 : first_eligible SampleVariant.ops sample_machine
      = some ⟨"A", "B", "p", .int 1, "equals", 1 / 5, false⟩ := by
    simp [first_eligible, eligible, sample_machine, LottieStateTransition.evaluate_condition,
      dict_find, SampleVariant.ops]
  have h2 : _find_state sample_machine "B" = some ⟨"B", "b.json", false, 2, 1 / 2⟩ := by
    simp [_find_state, sample_machine]
  have hw := update_frame SampleVariant.ops sample_machine (1 / 5) (some 0)
  refine ⟨?_, hw.1, hw.2.2.2.2.2.1 "A" "B"⟩
  rw [update_some, update_transitions_of_taken _ _ _ _ h1 h2,
    update_blend_of_pos (1 / 5) _ ⟨"B", "b.json", false, 2, 1 / 2⟩ rfl h2 (by norm_num)]
  norm_num
  rfl

end LottieStateMachine

namespace LottieStateTransition

variable {V : Type}

/-- The comparison modes of `evaluate_condition` once the guards have passed. -/
theorem evaluate_condition_of_present (vo : VariantOps V) (t : LottieStateTransition V)
    (params : List (String × V)) (pv : V) (hauto : t.auto_advance = false)
    (hne : t.condition_parameter ≠ "")
    (hp : dict_find params t.condition_parameter = some pv) :
    t.evaluate_condition vo params =
      if t.condition_mode = "equals" then vo.eq pv t.condition_value
      else if t.condition_mode = "not_equals" then vo.ne pv t.condition_value
      else if t.condition_mode = "greater" then
        decide (vo.to_float pv > vo.to_float t.condition_value)
      else if t.condition_mode = "less" then
        decide (vo.to_float pv < vo.to_float t.condition_value)
      else false := by
  simp [evaluate_condition, hauto, hne, hp]

/-- C23, as stated, fails when the name is empty: the parameter table holds the key `""`
with value 5, which is numerically greater than the condition value 1, and yet a
transition on the parameter `""` in mode `greater` does not hold. -/
theorem numeric_conditions_fails_on_empty_name :
    (LottieStateMachine.sample_transition "" "greater").auto_advance = false
    ∧ dict_find [("", SampleVariant.int 5)]
        (LottieStateMachine.sample_transition "" "greater").condition_parameter
        = some (SampleVariant.int 5)
    ∧ SampleVariant.ops.to_float (SampleVariant.int 5)
        > SampleVariant.ops.to_float
            (LottieStateMachine.sample_transition "" "greater").condition_value
    ∧ (LottieStateMachine.sample_transition "" "greater").evaluate_condition
        SampleVariant.ops [("", SampleVariant.int 5)] = false := by
  refine ⟨rfl, rfl, ?_, ?_⟩
  · simp [SampleVariant.ops, LottieStateMachine.sample_transition]
  · simp [evaluate_condition, LottieStateMachine.sample_transition]

/-- C23, amended.  For every transition without `auto_advance` whose `condition_parameter`
is not empty and is present in the table with value `pv`: in mode `greater` the condition
holds iff the float conversion of `pv` is strictly greater than the float conversion of
`condition_value`, in mode `less` iff it is strictly less, whatever the kinds of the two
values; so the two modes never both hold for the same parameter and condition value, and
neither holds when the two converted values are equal. -/
theorem numeric_conditions (vo : VariantOps V) (t : LottieStateTransition V)
    (params : List (String × V)) (pv : V) (hauto : t.auto_advance = false)
    (hne : t.condition_parameter ≠ "")
    (hp : dict_find params t.condition_parameter = some pv) :
    (({ t with condition_mode := "greater" }).evaluate_condition vo params = true
      ↔ vo.to_float pv > vo.to_float t.condition_value)
    ∧ (({ t with condition_mode := "less" }).evaluate_condition vo params = true
      ↔ vo.to_float pv < vo.to_float t.condition_value)
    ∧ ¬ (({ t with condition_mode := "greater" }).evaluate_condition vo params = true
          ∧ ({ t with condition_mode := "less" }).evaluate_condition vo params = true)
    ∧ (vo.to_float pv = vo.to_float t.condition_value →
        ({ t with condition_mode := "greater" }).evaluate_condition vo params = false
        ∧ ({ t with condition_mode := "less" }).evaluate_condition vo params = false) := by
  have hg : ({ t with condition_mode := "greater" }).evaluate_condition vo params
      = decide (vo.to_float pv > vo.to_float t.condition_value) := by
    rw [evaluate_condition_of_present vo { t with condition_mode := "greater" } params pv
      hauto hne hp]
    simp
  have hl : ({ t with condition_mode := "less" }).evaluate_condition vo params
      = decide (vo.to_float pv < vo.to_float t.condition_value) := by
    rw [evaluate_condition_of_present vo { t with condition_mode := "less" } params pv
      hauto hne hp]
    simp
  rw [hg, hl]
  refine ⟨by simp, by simp, ?_, ?_⟩
  · simp only [decide_eq_true_eq]
    intro h
    exact lt_asymm h.1 h.2
  · intro h
    simp [h]

/-- C23, an instance: with `p` = 5 against the condition value 1, `greater` holds and
`less` does not. -/
theorem numeric_conditions_witness :
    (LottieStateMachine.sample_transition "p" "greater").evaluate_condition
        SampleVariant.ops [("p", SampleVariant.int 5)] = true
    ∧ (LottieStateMachine.sample_transition "p" "less").evaluate_condition
        SampleVariant.ops [("p", SampleVariant.int 5)] = false := by
  have h := numeric_conditions SampleVariant.ops
    (LottieStateMachine.sample_transition "p" "equals") [("p", SampleVariant.int 5)]
    (SampleVariant.int 5) rfl (by decide) rfl
  have h5 : SampleVariant.ops.to_float (SampleVariant.int 5)
      > SampleVariant.ops.to_float
          (LottieStateMachine.sample_transition "p" "equals").condition_value := by
    simp [SampleVariant.ops, LottieStateMachine.sample_transition]
  have hg := h.1.2 h5
  have hl : ({ LottieStateMachine.sample_transition "p" "equals" with
      condition_mode := "less" }).evaluate_condition SampleVariant.ops
        [("p", SampleVariant.int 5)] = false := by
    cases hx : ({ LottieStateMachine.sample_transition "p" "equals" with
      condition_mode := "less" }).evaluate_condition SampleVariant.ops
        [("p", SampleVariant.int 5)] with
    | false => rfl
    | true => exact absurd ⟨hg, hx⟩ h.2.2.1
  exact ⟨hg, hl⟩

end LottieStateTransition

namespace LottieStateMachine

variable {V : Type}

/-- The search of `_find_state` on a list. -/
theorem find_state_cons_none (l : List (Option LottieAnimationState)) (n : String) :
    (none :: l).findSome? (fun r =>
      match r with
      | some state => if state.state_name = n then some state else none
      | none => none)
    = l.findSome? (fun r =>
      match r with
      | some state => if state.state_name = n then some state else none
      | none => none) := rfl

/-- A name that no valid state of the list has is not found, and conversely. -/
theorem find_state_none_iff (m : LottieStateMachine V) (n : String) :
    _find_state m n = none ↔ ∀ s, some s ∈ m.states → s.state_name ≠ n := by
  unfold _find_state
  rw [List.findSome?_eq_none_iff]
  constructor
  · intro h s hs hn
    have := h (some s) hs
    simp [hn] at this
  · intro h r hr
    cases r with
    | none => rfl
    | some s => simp [h s hr]

/-- The state found is the first valid state of the list with that name. -/
theorem find_state_some_iff (l : List (Option LottieAnimationState)) (n : String)
    (s : LottieAnimationState) :
    l.findSome? (fun r =>
      match r with
      | some state => if state.state_name = n then some state else none
      | none => none) = some s
    ↔ ∃ pre post, l = pre ++ some s :: post ∧ s.state_name = n
        ∧ ∀ x, some x ∈ pre → x.state_name ≠ n := by
  induction l with
  | nil =>
    constructor
    · intro h
      simp at h
    · rintro ⟨pre, post, h, _⟩
      simp at h
  | cons r rest ih =>
    cases r with
    | none =>
      rw [find_state_cons_none, ih]
      constructor
      · rintro ⟨pre, post, h1, h2, h3⟩
        refine ⟨none :: pre, post, by rw [h1]; rfl, h2, ?_⟩
        intro x hx
        simp only [List.mem_cons] at hx
        rcases hx with hx | hx
        · cases hx
        · exact h3 x hx
      · rintro ⟨pre, post, h1, h2, h3⟩
        cases pre with
        | nil => simp at h1
        | cons p pre =>
          simp only [List.cons_append, List.cons.injEq] at h1
          exact ⟨pre, post, h1.2, h2, fun x hx => h3 x (List.mem_cons_of_mem _ hx)⟩
    | some a =>
      by_cases ha : a.state_name = n
      · have hfind : (some a :: rest).findSome? (fun r =>
            match r with
            | some state => if state.state_name = n then some state else none
            | none => none) = some a := by
          simp [List.findSome?, ha]
        rw [hfind]
        constructor
        · intro h
          cases h
          exact ⟨[], rest, rfl, ha, fun x hx => by simp at hx⟩
        · rintro ⟨pre, post, h1, h2, h3⟩
          cases pre with
          | nil =>
            simp only [List.nil_append, List.cons.injEq] at h1
            rw [h1.1]
          | cons p pre =>
            simp only [List.cons_append, List.cons.injEq] at h1
            exact absurd ha (h3 a (by rw [h1.1]; exact List.mem_cons_self _ _))
      · have hfind : (some a :: rest).findSome? (fun r =>
            match r with
            | some state => if state.state_name = n then some state else none
            | none => none) = rest.findSome? (fun r =>
            match r with
            | some state => if state.state_name = n then some state else none
            | none => none) := by
          simp [List.findSome?, ha]
        rw [hfind, ih]
        constructor
        · rintro ⟨pre, post, h1, h2, h3⟩
          refine ⟨some a :: pre, post, by rw [h1]; rfl, h2, ?_⟩
          intro x hx
          simp only [List.mem_cons] at hx
          rcases hx with hx | hx
          · cases hx
            exact ha
          · exact h3 x hx
        · rintro ⟨pre, post, h1, h2, h3⟩
          cases pre with
          | nil =>
            simp only [List.nil_append, List.cons.injEq] at h1
            exact absurd h2 (by rw [← Option.some.inj h1.1]; exact ha)
          | cons p pre =>
            simp only [List.cons_append, List.cons.injEq] at h1
            exact ⟨pre, post, h1.2, h2, fun x hx => h3 x (List.mem_cons_of_mem _ hx)⟩

/-- The loop of `remove_state` drops the first valid state with that name. -/
theorem remove_first_state_split (pre post : List (Option LottieAnimationState))
    (s : LottieAnimationState) (n : String) (hs : s.state_name = n)
    (hpre : ∀ x, some x ∈ pre → x.state_name ≠ n) :
    remove_first_state (pre ++ some s :: post) n = pre ++ post := by
  induction pre with
  | nil => simp [remove_first_state, hs]
  | cons p pre ih =>
    have ih2 := ih (fun x hx => hpre x (List.mem_cons_of_mem _ hx))
    cases p with
    | none =>
      show none :: remove_first_state (pre ++ some s :: post) n = none :: (pre ++ post)
      rw [ih2]
    | some a =>
      have ha : a.state_name ≠ n := hpre a (List.mem_cons_self _ _)
      show (if a.state_name = n then pre ++ some s :: post
        else some a :: remove_first_state (pre ++ some s :: post) n) = some a :: (pre ++ post)
      rw [if_neg ha, ih2]

/-- The loop of `remove_state` leaves a list without such a state as it is. -/
theorem remove_first_state_absent (l : List (Option LottieAnimationState)) (n : String)
    (h : ∀ x, some x ∈ l → x.state_name ≠ n) :
    remove_first_state l n = l := by
  induction l with
  | nil => rfl
  | cons p rest ih =>
    have ih2 := ih (fun x hx => h x (List.mem_cons_of_mem _ hx))
    cases p with
    | none =>
      simp only [remove_first_state]
      rw [ih2]
    | some a =>
      have ha : a.state_name ≠ n := h a (List.mem_cons_self _ _)
      simp only [remove_first_state]
      rw [if_neg ha, ih2]

end LottieStateMachine

namespace LottieStateMachine

variable {V : Type}

/-- C28.  State registry with duplicate names: `add_state` appends a valid state at the
end of the list (the count grows by 1) and ignores a null state; `get_state(n)` returns the
first state of the list, which is the earliest-added one still in it, whose name is `n`,
and null iff there is none; `remove_state(n)` removes exactly that first state, keeps the
other states in their order and changes nothing else, so the count decreases by exactly 1
if a state named `n` exists, and the machine is unchanged otherwise. -/
theorem state_registry (m : LottieStateMachine V) (n : String) :
    (∀ s, (m.add_state (some s)).states = m.states ++ [some s]
        ∧ get_state_count (m.add_state (some s)) = get_state_count m + 1)
    ∧ m.add_state none = m
    ∧ (∀ s, m.get_state n = some s ↔
        ∃ pre post, m.states = pre ++ some s :: post ∧ s.state_name = n
          ∧ ∀ x, some x ∈ pre → x.state_name ≠ n)
    ∧ (m.get_state n = none ↔ ∀ x, some x ∈ m.states → x.state_name ≠ n)
    ∧ (∀ s pre post, m.states = pre ++ some s :: post → s.state_name = n →
        (∀ x, some x ∈ pre → x.state_name ≠ n) →
        m.remove_state n = { m with states := pre ++ post }
        ∧ get_state_count (m.remove_state n) + 1 = get_state_count m)
    ∧ ((∀ x, some x ∈ m.states → x.state_name ≠ n) → m.remove_state n = m) := by
  refine ⟨?_, rfl, ?_, find_state_none_iff m n, ?_, ?_⟩
  · intro s
    refine ⟨rfl, ?_⟩
    simp [get_state_count, add_state]
  · intro s
    exact find_state_some_iff m.states n s
  · intro s pre post hm hs hpre
    have h : remove_first_state m.states n = pre ++ post := by
      rw [hm]
      exact remove_first_state_split pre post s n hs hpre
    refine ⟨?_, ?_⟩
    · simp only [remove_state]
      rw [h]
    · simp only [get_state_count, remove_state]
      rw [h, hm]
      simp only [List.length_append, List.length_cons]
      omega
  · intro h
    simp only [remove_state]
    rw [remove_first_state_absent m.states n h]

/-- C28, an instance: of the two states named `A`, `get_state` returns the one added
first and `remove_state` removes it, after which `get_state` returns the other. -/
theorem state_registry_witness :
    sample_machine_duplicates.get_state "A" = some ⟨"A", "a1.json", true, 1, 1 / 5⟩
    ∧ (sample_machine_duplicates.remove_state "A").states
        = [some ⟨"B", "b.json", false, 2, 1 / 2⟩, some ⟨"A", "a2.json", true, 1, 1 / 5⟩]
    ∧ get_state_count (sample_machine_duplicates.remove_state "A") + 1
        = get_state_count sample_machine_duplicates
    ∧ (sample_machine_duplicates.remove_state "A").get_state "A"
        = some ⟨"A", "a2.json", true, 1, 1 / 5⟩
    ∧ sample_machine_duplicates.remove_state "Z" = sample_machine_duplicates := by
  have h := state_registry sample_machine_duplicates "A"
  have hpre : ∀ x : LottieAnimationState,
      some x ∈ ([] : List (Option LottieAnimationState)) → x.state_name ≠ "A" := by
    intro x hx
    simp at hx
  have hget := (h.2.2.1 ⟨"A", "a1.json", true, 1, 1 / 5⟩).2
    ⟨[], [some ⟨"B", "b.json", false, 2, 1 / 2⟩, some ⟨"A", "a2.json", true, 1, 1 / 5⟩],
      rfl, rfl, hpre⟩
  have hrem := h.2.2.2.2.1 ⟨"A", "a1.json", true, 1, 1 / 5⟩ []
    [some ⟨"B", "b.json", false, 2, 1 / 2⟩, some ⟨"A", "a2.json", true, 1, 1 / 5⟩]
    rfl rfl hpre
  have hz := (state_registry sample_machine_duplicates "Z").2.2.2.2.2 (by
    intro x hx
    simp only [sample_machine_duplicates, List.mem_cons, Option.some.injEq,
      List.mem_singleton, List.not_mem_nil, or_false] at hx
    rcases hx with rfl | rfl | rfl <;> decide)
  refine ⟨hget, ?_, hrem.2, ?_, hz⟩
  · rw [hrem.1]
    rfl
  · rw [hrem.1]
    simp [get_state, _find_state]

end LottieStateMachine

/-! ## Sizing policy: the property -/

/-- C20.  Sizing policy, fit-into-box: for every native size with positive components and
every box, the target render size is, on each axis, the native length multiplied by the one
scale `min(bw / nw, bh / nh)`, turned into whole pixels and clamped to at least 1 pixel;
both target lengths are at least 1; before the conversion the scaled size fits in the box
and fills it on one axis. -/
theorem fit_into_box_spec (to_pixels : ℚ → Int) (native box : Vector2i)
    (hx : 0 < native.x) (hy : 0 < native.y) :
    fit_scale native box = min ((box.x : ℚ) / native.x) ((box.y : ℚ) / native.y)
    ∧ (fit_into_box to_pixels native box).x
        = max 1 (to_pixels ((native.x : ℚ) * fit_scale native box))
    ∧ (fit_into_box to_pixels native box).y
        = max 1 (to_pixels ((native.y : ℚ) * fit_scale native box))
    ∧ 1 ≤ (fit_into_box to_pixels native box).x
    ∧ 1 ≤ (fit_into_box to_pixels native box).y
    ∧ (native.x : ℚ) * fit_scale native box ≤ box.x
    ∧ (native.y : ℚ) * fit_scale native box ≤ box.y
    ∧ ((native.x : ℚ) * fit_scale native box = box.x
        ∨ (native.y : ℚ) * fit_scale native box = box.y) := by
  have hx2 : (0 : ℚ) < native.x := by exact_mod_cast hx
  have hy2 : (0 : ℚ) < native.y := by exact_mod_cast hy
  have h1 : (native.x : ℚ) * ((box.x : ℚ) / native.x) = box.x := by
    field_simp
  have h2 : (native.y : ℚ) * ((box.y : ℚ) / native.y) = box.y := by
    field_simp
  refine ⟨rfl, rfl, rfl, le_max_left _ _, le_max_left _ _, ?_, ?_, ?_⟩
  · calc (native.x : ℚ) * fit_scale native box
        ≤ (native.x : ℚ) * ((box.x : ℚ) / native.x) :=
          mul_le_mul_of_nonneg_left (min_le_left _ _) hx2.le
      _ = box.x := h1
  · calc (native.y : ℚ) * fit_scale native box
        ≤ (native.y : ℚ) * ((box.y : ℚ) / native.y) :=
          mul_le_mul_of_nonneg_left (min_le_right _ _) hy2.le
      _ = box.y := h2
  · rcases min_choice ((box.x : ℚ) / native.x) ((box.y : ℚ) / native.y) with h | h
    · left
      unfold fit_scale
      rw [h, h1]
    · right
      unfold fit_scale
      rw [h, h2]

/-- C20, the scripted example: native 100x50 in a box 200x60 gives the scale 1.2 and, the
lengths being whole, the target 120x60. -/
theorem fit_into_box_spec_witness :
    (0 : Int) < (⟨100, 50⟩ : Vector2i).x
    ∧ (0 : Int) < (⟨100, 50⟩ : Vector2i).y
    ∧ fit_scale ⟨100, 50⟩ ⟨200, 60⟩ = 6 / 5
    ∧ fit_into_box (fun q => Int.floor q) ⟨100, 50⟩ ⟨200, 60⟩ = ⟨120, 60⟩ := by
  have hs : fit_scale ⟨100, 50⟩ ⟨200, 60⟩ = 6 / 5 := by
    have h := (fit_into_box_spec (fun q => Int.floor q) ⟨100, 50⟩ ⟨200, 60⟩ (by decide)
      (by decide)).1
    rw [h]
    norm_num
  refine ⟨by decide, by decide, hs, ?_⟩
  unfold fit_into_box
  rw [hs]
  have h1 : ((100 : Int) : ℚ) * (6 / 5) = ((120 : Int) : ℚ) := by norm_num
  have h2 : ((50 : Int) : ℚ) * (6 / 5) = ((60 : Int) : ℚ) := by norm_num
  simp only [h1, h2, Int.floor_intCast]
  rfl

/-! ## Hand-off between the controller and the render worker: frame identities and
coalescing of render requests -/

namespace LottieAnimation

theorem run_steps_append (a : LottieAnimation) (xs ys : List Step) :
    run_steps a (xs ++ ys)
      = ((run_steps (run_steps a xs).1 ys).1,
         (run_steps a xs).2 ++ (run_steps (run_steps a xs).1 ys).2) := by
  induction xs generalizing a with
  | nil => rfl
  | cons s rest ih =>
    show ((run_steps (s.apply a).1 (rest ++ ys)).1,
      (s.apply a).2 ++ (run_steps (s.apply a).1 (rest ++ ys)).2) = _
    rw [ih]
    simp [run_steps, List.append_assoc]

theorem observed_ids_append (xs ys : List Event) :
    observed_ids (xs ++ ys) = observed_ids xs ++ observed_ids ys := by
  induction xs with
  | nil => rfl
  | cons e rest ih =>
    cases e with
    | render s f => exact ih
    | observed id =>
      show id :: observed_ids (rest ++ ys) = id :: observed_ids rest ++ observed_ids ys
      rw [ih]
      rfl

theorem renders_append (xs ys : List Event) :
    renders (xs ++ ys) = renders xs ++ renders ys := by
  induction xs with
  | nil => rfl
  | cons e rest ih =>
    cases e with
    | observed id => exact ih
    | render s f =>
      show (s, f) :: renders (rest ++ ys) = (s, f) :: renders rest ++ renders ys
      rw [ih]
      rfl

/-- What `poll` does, by cases on the slot of the mailbox. -/
theorem poll_cases (a : LottieAnimation) :
    (a.latest_frame.ready = true ∧ a.last_consumed_id < a.latest_frame.id
      ∧ a.poll = ({ a with
                      latest_frame := { a.latest_frame with ready := false },
                      last_consumed_id := a.latest_frame.id },
                  some a.latest_frame.id))
    ∨ (a.latest_frame.ready = true ∧ ¬ a.last_consumed_id < a.latest_frame.id
      ∧ a.poll = ({ a with latest_frame := { a.latest_frame with ready := false } }, none))
    ∨ (a.latest_frame.ready = false ∧ a.poll = (a, none)) := by
  cases hr : a.latest_frame.ready with
  | false =>
    right; right
    simp [poll, try_take, hr]
  | true =>
    by_cases hlt : a.last_consumed_id < a.latest_frame.id
    · left
      refine ⟨rfl, hlt, ?_⟩
      simp [poll, try_take, hr, hlt]
    · right; left
      refine ⟨rfl, hlt, ?_⟩
      simp [poll, try_take, hr, hlt]

/-- What a step shows of the mailbox: it observes nothing and leaves `last_consumed_id`,
or it observes one identity, newer than the last consumed one, and records it. -/
theorem step_observed (a : LottieAnimation) (s : Step) :
    (observed_ids (s.apply a).2 = [] ∧ (s.apply a).1.last_consumed_id = a.last_consumed_id)
    ∨ (∃ id, observed_ids (s.apply a).2 = [id] ∧ a.last_consumed_id < id
        ∧ (s.apply a).1.last_consumed_id = id) := by
  cases s with
  | post_render size frame => exact Or.inl ⟨rfl, rfl⟩
  | snapshot =>
    left
    cases hp : a.render_pending with
    | false => simp [Step.apply, worker_snapshot, hp, observed_ids]
    | true => simp [Step.apply, worker_snapshot, hp, observed_ids]
  | publish rgba w h => exact Or.inl ⟨rfl, rfl⟩
  | poll =>
    rcases poll_cases a with ⟨hr, hlt, h⟩ | ⟨hr, hnl, h⟩ | ⟨hr, h⟩
    · right
      refine ⟨a.latest_frame.id, ?_, hlt, ?_⟩
      · simp [Step.apply, h, observed_ids]
      · simp [Step.apply, h]
    · left
      simp [Step.apply, h, observed_ids]
    · left
      simp [Step.apply, h, observed_ids]

/-- The identities observed along a sequence of steps are newer than the last consumed
one and strictly increasing. -/
theorem observed_increasing (a : LottieAnimation) (steps : List Step) :
    (∀ id ∈ observed_ids (run_steps a steps).2, a.last_consumed_id < id)
    ∧ (observed_ids (run_steps a steps).2).Pairwise (fun x y => x < y) := by
  induction steps generalizing a with
  | nil => exact ⟨by intro id h; simp [run_steps, observed_ids] at h, by
      simp [run_steps, observed_ids]⟩
  | cons s rest ih =>
    obtain ⟨ih1, ih2⟩ := ih (s.apply a).1
    have hrun : observed_ids (run_steps a (s :: rest)).2
        = observed_ids (s.apply a).2 ++ observed_ids (run_steps (s.apply a).1 rest).2 := by
      show observed_ids ((s.apply a).2 ++ (run_steps (s.apply a).1 rest).2) = _
      rw [observed_ids_append]
    rw [hrun]
    rcases step_observed a s with ⟨h1, h2⟩ | ⟨id, h1, h2, h3⟩
    · rw [h1, List.nil_append]
      rw [h2] at ih1
      exact ⟨ih1, ih2⟩
    · rw [h1]
      rw [h3] at ih1
      refine ⟨?_, ?_⟩
      · intro x hx
        simp only [List.singleton_append, List.mem_cons] at hx
        rcases hx with rfl | hx
        · exact h2
        · exact lt_trans h2 (ih1 x hx)
      · simp only [List.singleton_append, List.pairwise_cons]
        exact ⟨ih1, ih2⟩

end LottieAnimation

namespace LottieAnimation

/-- A step other than a publication leaves the identity counter and the identity in the
mailbox, and does not make the mailbox ready. -/
theorem step_mailbox (a : LottieAnimation) (s : Step)
    (hs : ∀ rgba w h, s ≠ .publish rgba w h) :
    (s.apply a).1.next_frame_id = a.next_frame_id
    ∧ (s.apply a).1.latest_frame.id = a.latest_frame.id
    ∧ ((s.apply a).1.latest_frame.ready = true → a.latest_frame.ready = true)
    ∧ a.last_consumed_id ≤ (s.apply a).1.last_consumed_id
    ∧ ((s.apply a).1.last_consumed_id = a.last_consumed_id
        ∨ (s.apply a).1.last_consumed_id = a.latest_frame.id) := by
  cases s with
  | post_render size frame => exact ⟨rfl, rfl, id, le_rfl, Or.inl rfl⟩
  | snapshot =>
    cases hp : a.render_pending with
    | false => simp [Step.apply, worker_snapshot, hp]
    | true => simp [Step.apply, worker_snapshot, hp]
  | publish rgba w h => exact absurd rfl (hs rgba w h)
  | poll =>
    rcases poll_cases a with ⟨hr, hlt, h⟩ | ⟨hr, hnl, h⟩ | ⟨hr, h⟩
    · have e : (Step.apply a .poll).1 = { a with
          latest_frame := { a.latest_frame with ready := false },
          last_consumed_id := a.latest_frame.id } := by
        simp [Step.apply, h]
      rw [e]
      exact ⟨rfl, rfl, fun _ => hr, le_of_lt hlt, Or.inr rfl⟩
    · have e : (Step.apply a .poll).1 = { a with
          latest_frame := { a.latest_frame with ready := false } } := by
        simp [Step.apply, h]
      rw [e]
      exact ⟨rfl, rfl, fun _ => hr, le_rfl, Or.inl rfl⟩
    · have e : (Step.apply a .poll).1 = a := by
        simp [Step.apply, h]
      rw [e]
      exact ⟨rfl, rfl, id, le_rfl, Or.inl rfl⟩

/-- The publications of a sequence that starts with another step. -/
theorem published_ids_cons (a : LottieAnimation) (s : Step) (rest : List Step)
    (hs : ∀ rgba w h, s ≠ .publish rgba w h) :
    published_ids a (s :: rest) = published_ids (s.apply a).1 rest := by
  cases s with
  | post_render size frame => rfl
  | snapshot => rfl
  | publish rgba w h => exact absurd rfl (hs rgba w h)
  | poll => rfl

theorem step_is_publish_or_not (s : Step) :
    (∃ rgba w h, s = .publish rgba w h) ∨ (∀ rgba w h, s ≠ .publish rgba w h) := by
  cases s with
  | post_render size frame => exact Or.inr (fun _ _ _ h => by cases h)
  | snapshot => exact Or.inr (fun _ _ _ h => by cases h)
  | publish rgba w h => exact Or.inl ⟨rgba, w, h, rfl⟩
  | poll => exact Or.inr (fun _ _ _ h => by cases h)

/-- The identities given out by the publications of a sequence of steps start at the
counter and are strictly increasing. -/
theorem published_increasing (a : LottieAnimation) (steps : List Step) :
    (∀ id ∈ published_ids a steps, a.next_frame_id ≤ id)
    ∧ (published_ids a steps).Pairwise (fun x y => x < y) := by
  induction steps generalizing a with
  | nil => exact ⟨by intro id h; simp [published_ids] at h, by simp [published_ids]⟩
  | cons s rest ih =>
    rcases step_is_publish_or_not s with ⟨rgba, w, h, rfl⟩ | hs
    · obtain ⟨ih1, ih2⟩ := ih (a.publish rgba w h)
      have hn : (a.publish rgba w h).next_frame_id = a.next_frame_id + 1 := rfl
      rw [hn] at ih1
      show (∀ id ∈ a.next_frame_id :: published_ids (a.publish rgba w h) rest, _)
        ∧ (a.next_frame_id :: published_ids (a.publish rgba w h) rest).Pairwise _
      refine ⟨?_, ?_⟩
      · intro x hx
        simp only [List.mem_cons] at hx
        rcases hx with rfl | hx
        · exact le_rfl
        · exact le_trans (Nat.le_succ _) (ih1 x hx)
      · simp only [List.pairwise_cons]
        exact ⟨fun x hx => ih1 x hx, ih2⟩
    · obtain ⟨ih1, ih2⟩ := ih (s.apply a).1
      rw [published_ids_cons a s rest hs]
      rw [(step_mailbox a s hs).1] at ih1
      exact ⟨ih1, ih2⟩

/-- An identity observed along a sequence of steps was given out by a publication of the
sequence, or is the one that was ready in the mailbox at the start. -/
theorem observed_published (a : LottieAnimation) (steps : List Step) :
    ∀ id ∈ observed_ids (run_steps a steps).2,
      id ∈ published_ids a steps ∨ (a.latest_frame.ready = true ∧ id = a.latest_frame.id) := by
  induction steps generalizing a with
  | nil =>
    intro id h
    simp [run_steps, observed_ids] at h
  | cons s rest ih =>
    intro x hx
    have hrun : observed_ids (run_steps a (s :: rest)).2
        = observed_ids (s.apply a).2 ++ observed_ids (run_steps (s.apply a).1 rest).2 := by
      show observed_ids ((s.apply a).2 ++ (run_steps (s.apply a).1 rest).2) = _
      rw [observed_ids_append]
    rw [hrun] at hx
    rcases step_is_publish_or_not s with ⟨rgba, w, h, rfl⟩ | hs
    · have hx2 : x ∈ observed_ids (run_steps (a.publish rgba w h) rest).2 := by
        simpa [Step.apply, observed_ids] using hx
      left
      show x ∈ a.next_frame_id :: published_ids (a.publish rgba w h) rest
      rcases ih (a.publish rgba w h) x hx2 with h1 | ⟨_, h1⟩
      · exact List.mem_cons_of_mem _ h1
      · rw [h1]
        exact List.mem_cons_self _ _
    · rw [published_ids_cons a s rest hs]
      obtain ⟨_, hid, hready, _, _⟩ := step_mailbox a s hs
      rcases List.mem_append.1 hx with h1 | h1
      · right
        cases s with
        | post_render size frame => simp [Step.apply, observed_ids] at h1
        | snapshot =>
          cases hp : a.render_pending with
          | false => simp [Step.apply, worker_snapshot, hp, observed_ids] at h1
          | true => simp [Step.apply, worker_snapshot, hp, observed_ids] at h1
        | publish rgba w h => exact absurd rfl (hs rgba w h)
        | poll =>
          rcases poll_cases a with ⟨hr, hlt, h⟩ | ⟨hr, hnl, h⟩ | ⟨hr, h⟩
          · simp only [Step.apply, h, observed_ids, List.mem_singleton] at h1
            exact ⟨hr, h1⟩
          · simp [Step.apply, h, observed_ids] at h1
          · simp [Step.apply, h, observed_ids] at h1
      · rcases ih (s.apply a).1 x h1 with h2 | ⟨h2, h3⟩
        · exact Or.inl h2
        · exact Or.inr ⟨hready h2, by rw [h3, hid]⟩

/-- The identity counter stays ahead of the identity in the mailbox and of the last
consumed identity. -/
theorem counter_ahead (a : LottieAnimation) (steps : List Step)
    (h1 : a.latest_frame.id < a.next_frame_id) (h2 : a.last_consumed_id < a.next_frame_id) :
    (run_steps a steps).1.latest_frame.id < (run_steps a steps).1.next_frame_id
    ∧ (run_steps a steps).1.last_consumed_id < (run_steps a steps).1.next_frame_id := by
  induction steps generalizing a with
  | nil => exact ⟨h1, h2⟩
  | cons s rest ih =>
    show (run_steps (s.apply a).1 rest).1.latest_frame.id
        < (run_steps (s.apply a).1 rest).1.next_frame_id
      ∧ (run_steps (s.apply a).1 rest).1.last_consumed_id
        < (run_steps (s.apply a).1 rest).1.next_frame_id
    rcases step_is_publish_or_not s with ⟨rgba, w, h, rfl⟩ | hs
    · apply ih
      · show a.next_frame_id < a.next_frame_id + 1
        omega
      · show a.last_consumed_id < a.next_frame_id + 1
        omega
    · obtain ⟨hn, hid, _, _, hc⟩ := step_mailbox a s hs
      apply ih
      · rw [hn, hid]
        exact h1
      · rw [hn]
        rcases hc with hc | hc
        · rw [hc]
          exact h2
        · rw [hc]
          exact h1

end LottieAnimation

namespace LottieAnimation

/-- Posting render requests shows nothing. -/
theorem run_posts_events (a : LottieAnimation) (l : List (Vector2i × ℚ)) :
    (run_steps a (l.map (fun r => Step.post_render r.1 r.2))).2 = [] := by
  induction l generalizing a with
  | nil => rfl
  | cons r rest ih =>
    show [] ++ (run_steps (a._post_render_to_worker r.1 r.2)
      (rest.map (fun r => Step.post_render r.1 r.2))).2 = []
    rw [ih]
    rfl

/-- Snapshots with no request pending do nothing. -/
theorem run_snapshots_idle (a : LottieAnimation) (h : a.render_pending = false) (n : Nat) :
    run_steps a (List.replicate n Step.snapshot) = (a, []) := by
  induction n with
  | zero => rfl
  | succ n ih =>
    have hs : Step.apply a .snapshot = (a, []) := by
      simp [Step.apply, worker_snapshot, h]
    show ((run_steps (Step.apply a .snapshot).1 (List.replicate n Step.snapshot)).1,
      (Step.apply a .snapshot).2
        ++ (run_steps (Step.apply a .snapshot).1 (List.replicate n Step.snapshot)).2) = (a, [])
    rw [hs, ih]
    rfl

/-- C21.  Monotonic frame identity, in the model of the mailbox taken from the spec: for
every sequence of steps of the two threads from the initial state (render requests posted
at any point, snapshots, publications and polls in any order), the frame identities
observed by the consumer are strictly increasing, so without repeats or regressions, and
the consumer never sees an older result after a newer one; the identities given out by
the publications are strictly increasing, every observed identity is one of them, and a
poll that follows a publication observes the identity of that publication. -/
theorem monotonic_frame_identity (steps : List Step) :
    (observed_ids (run_steps init steps).2).Pairwise (fun x y => x < y)
    ∧ (published_ids init steps).Pairwise (fun x y => x < y)
    ∧ (∀ id ∈ observed_ids (run_steps init steps).2, id ∈ published_ids init steps)
    ∧ (∀ rgba w h,
        observed_ids (run_steps init (steps ++ [.publish rgba w h, .poll])).2
          = observed_ids (run_steps init steps).2
              ++ [(run_steps init steps).1.next_frame_id]) := by
  refine ⟨(observed_increasing init steps).2, (published_increasing init steps).2, ?_, ?_⟩
  · intro id hid
    rcases observed_published init steps id hid with h | ⟨h, _⟩
    · exact h
    · cases h
  · intro rgba w h
    obtain ⟨_, hc⟩ := counter_ahead init steps (by decide) (by decide)
    rw [run_steps_append, observed_ids_append]
    congr 1
    rcases poll_cases ((run_steps init steps).1.publish rgba w h) with
      ⟨_, _, hp⟩ | ⟨_, hnl, _⟩ | ⟨hr, _⟩
    · simp only [run_steps, Step.apply, hp, List.nil_append, List.append_nil]
      rfl
    · exact absurd hc hnl
    · cases hr

/-- C21, an instance: three publications, the second of which is replaced in the mailbox
before any poll, with render requests posted in between; the consumer observes the
identities 1 and 3. -/
theorem monotonic_frame_identity_witness :
    observed_ids (run_steps init [.post_render ⟨4, 4⟩ 1, .snapshot, .publish [] 4 4, .poll,
      .poll, .post_render ⟨4, 4⟩ 2, .publish [] 4 4, .post_render ⟨4, 4⟩ 3,
      .publish [] 4 4, .poll]).2 = [1, 3]
    ∧ ([1, 3] : List Nat).Pairwise (fun x y => x < y) := by
  have h := (monotonic_frame_identity [.post_render ⟨4, 4⟩ 1, .snapshot, .publish [] 4 4,
    .poll, .poll, .post_render ⟨4, 4⟩ 2, .publish [] 4 4, .post_render ⟨4, 4⟩ 3,
    .publish [] 4 4, .poll]).1
  have e : observed_ids (run_steps init [.post_render ⟨4, 4⟩ 1, .snapshot, .publish [] 4 4,
      .poll, .poll, .post_render ⟨4, 4⟩ 2, .publish [] 4 4, .post_render ⟨4, 4⟩ 3,
      .publish [] 4 4, .poll]).2 = [1, 3] := by
    simp [run_steps, Step.apply, init, _post_render_to_worker, worker_snapshot, publish,
      poll, try_take, observed_ids]
  rw [e] at h
  exact ⟨e, h⟩

/-- C22.  Command coalescing, in the model of the pending request taken from the spec:
from any state, when render requests are posted in succession before the worker takes its
snapshot, the worker executes at most one render for the burst, however many snapshots it
then takes: none when it takes no snapshot, and otherwise exactly one, which is the last
request posted (for requests for the frames 1, 2, 3: frame 3 only, never all three). -/
theorem command_coalescing (a : LottieAnimation) (burst : List (Vector2i × ℚ))
    (last : Vector2i × ℚ) (n : Nat) :
    renders (run_steps a ((burst ++ [last]).map (fun r => Step.post_render r.1 r.2)
      ++ List.replicate n Step.snapshot)).2 = if n = 0 then [] else [last] := by
  rw [run_steps_append, renders_append, run_posts_events]
  cases n with
  | zero => rfl
  | succ n =>
    rw [if_neg (Nat.succ_ne_zero n), List.map_append, run_steps_append]
    show renders [] ++ renders (run_steps
      ((run_steps a (burst.map (fun r => Step.post_render r.1 r.2))).1._post_render_to_worker
        last.1 last.2) (Step.snapshot :: List.replicate n Step.snapshot)).2 = [last]
    generalize (run_steps a (burst.map (fun r => Step.post_render r.1 r.2))).1 = b
    have hs : Step.apply (b._post_render_to_worker last.1 last.2) .snapshot
        = ({ b._post_render_to_worker last.1 last.2 with render_pending := false },
            [.render last.1 last.2]) := by
      simp [Step.apply, worker_snapshot, _post_render_to_worker]
    show renders [] ++ renders
      ((Step.apply (b._post_render_to_worker last.1 last.2) .snapshot).2
        ++ (run_steps (Step.apply (b._post_render_to_worker last.1 last.2) .snapshot).1
              (List.replicate n Step.snapshot)).2) = [last]
    rw [hs, run_snapshots_idle _ rfl n]
    rfl

/-- C22, an instance: render requests for the frames 1, 2 and 3 posted before the worker
takes its snapshot; the worker renders frame 3 only. -/
theorem command_coalescing_witness :
    renders (run_steps init [.post_render ⟨4, 4⟩ 1, .post_render ⟨4, 4⟩ 2,
      .post_render ⟨4, 4⟩ 3, .snapshot, .snapshot]).2 = [(⟨4, 4⟩, 3)] :=
  command_coalescing init [(⟨4, 4⟩, 1), (⟨4, 4⟩, 2)] (⟨4, 4⟩, 3) 2

end LottieAnimation
